import Mathlib

/-!
Verification of the tool-call codec in `endpoints/OAI/utils/tools.py`
(`ToolCallProcessor`): JSON/XML tool-call decoding, canonical records, and
JSON/XML encoding.  Python strings are modelled as `List Char`, Python JSON
values as `JVal`, and the fallible operations as `Except PyErr` computations.
-/

namespace TabbyTools

/-- JSON values as handled by the Python `json` module.  Numbers are modelled
as integers; floating-point literals are outside the scope of this model (no
claim depends on them).  Objects are insertion-ordered key/value lists with
distinct keys, as Python dicts. -/
inductive JVal where
  | null : JVal
  | b : Bool → JVal
  | i : Int → JVal
  | s : List Char → JVal
  | arr : List JVal → JVal
  | obj : List (List Char × JVal) → JVal
deriving Repr

/-- Convert a Lean string literal to the `List Char` representation used for
Python strings throughout this development. -/
def lc (s : String) : List Char := s.data

/-- Lookup in an insertion-ordered dict. -/
def objLookup (kvs : List (List Char × JVal)) (k : List Char) : Option JVal :=
  match kvs with
  | [] => none
  | (k', v) :: t => if k' = k then some v else objLookup t k

/-- Python dict insertion: replace the value in place when the key is already
present (keeping its position), append otherwise. -/
def objInsert (kvs : List (List Char × JVal)) (k : List Char) (v : JVal) :
    List (List Char × JVal) :=
  match kvs with
  | [] => [(k, v)]
  | (k', v') :: t => if k' = k then (k', v) :: t else (k', v') :: objInsert t k v

/-- Fuel-driven digit expansion; `natChars` supplies enough fuel. -/
def natCharsAux : Nat → Nat → List Char
  | 0, _ => []
  | f + 1, n =>
    if n < 10 then [Nat.digitChar n]
    else natCharsAux f (n / 10) ++ [Nat.digitChar (n % 10)]

/-- Decimal digit characters of a natural number, most significant first,
as Python's `str(n)` renders it. -/
def natChars (n : Nat) : List Char := natCharsAux (n + 1) n

/-- Decimal rendering of an integer, as Python's `str(n)`. -/
def intChars : Int → List Char
  | .ofNat n => natChars n
  | .negSucc n => '-' :: natChars (n + 1)

/-- Four lowercase hex digits of a number below 2^16, as used by the Python
json encoder's \uXXXX escapes. -/
def hex4 (n : Nat) : List Char :=
  [Nat.digitChar (n / 4096 % 16), Nat.digitChar (n / 256 % 16),
   Nat.digitChar (n / 16 % 16), Nat.digitChar (n % 16)]

/-- Escape one character of a JSON string, following the Python json module's
default (ensure_ascii) encoder: two-character escapes for the quote, the
backslash and the named control characters, printable ASCII verbatim, and
\uXXXX (a surrogate pair above U+FFFF) for everything else. -/
def escChar (c : Char) : List Char :=
  if c = '"' then ['\\', '"']
  else if c = '\\' then ['\\', '\\']
  else if c = '\n' then ['\\', 'n']
  else if c = '\r' then ['\\', 'r']
  else if c = '\t' then ['\\', 't']
  else if c.toNat = 8 then ['\\', 'b']
  else if c.toNat = 12 then ['\\', 'f']
  else if 32 ≤ c.toNat ∧ c.toNat < 127 then [c]
  else if c.toNat < 65536 then '\\' :: 'u' :: hex4 c.toNat
  else
    '\\' :: 'u' :: hex4 (55296 + (c.toNat - 65536) / 1024) ++
      ('\\' :: 'u' :: hex4 (56320 + (c.toNat - 65536) % 1024))

mutual

/-- Serialize a JSON value exactly as `json.dumps` with default options does:
item separator ", ", key separator ": ", ensure_ascii string escaping. -/
def dumps : JVal → List Char
  | .null => lc "null"
  | .b true => lc "true"
  | .b false => lc "false"
  | .i n => intChars n
  | .s t => '"' :: t.flatMap escChar ++ ['"']
  | .arr l => '[' :: dumpsArr l ++ [']']
  | .obj kvs => '{' :: dumpsObj kvs ++ ['}']

/-- Comma-separated serialization of array elements. -/
def dumpsArr : List JVal → List Char
  | [] => []
  | [v] => dumps v
  | v :: vs => dumps v ++ ',' :: ' ' :: dumpsArr vs

/-- Comma-separated serialization of object entries. -/
def dumpsObj : List (List Char × JVal) → List Char
  | [] => []
  | [(k, v)] => '"' :: k.flatMap escChar ++ '"' :: ':' :: ' ' :: dumps v
  | (k, v) :: kvs =>
    '"' :: k.flatMap escChar ++ '"' :: ':' :: ' ' :: dumps v ++ ',' :: ' ' :: dumpsObj kvs

end

/-- Python exception kinds raised by the modelled code paths. -/
inductive PyErr where
  | jsonDecodeError
  | keyError
  | typeError
  | attributeError
  | validationError
deriving Repr, DecidableEq

/-- JSON whitespace characters recognized by the Python json scanner. -/
def isJWs (c : Char) : Bool := c = ' ' || c = '\t' || c = '\n' || c = '\r'

/-- Drop leading JSON whitespace. -/
def skipJWs (s : List Char) : List Char := s.dropWhile isJWs

/-- Strip a literal off the front of the input, or fail. -/
def dropLit : List Char → List Char → Option (List Char)
  | [], s => some s
  | _ :: _, [] => none
  | c :: l, x :: s => if x = c then dropLit l s else none

/-- Hex digit value, accepting both cases as Python's \uXXXX scanner does. -/
def hexVal (c : Char) : Option Nat :=
  if '0' ≤ c ∧ c ≤ '9' then some (c.toNat - 48)
  else if 'a' ≤ c ∧ c ≤ 'f' then some (c.toNat - 87)
  else if 'A' ≤ c ∧ c ≤ 'F' then some (c.toNat - 55)
  else none

/-- Value of four hex digits. -/
def hex4Val (c1 c2 c3 c4 : Char) : Option Nat := do
  let a ← hexVal c1
  let b ← hexVal c2
  let c ← hexVal c3
  let d ← hexVal c4
  pure (((a * 16 + b) * 16 + c) * 16 + d)

/-- Two-character escape codes accepted by the Python json string scanner. -/
def escCode : Char → Option Char
  | '"' => some '"'
  | '\\' => some '\\'
  | '/' => some '/'
  | 'b' => some (Char.ofNat 8)
  | 'f' => some (Char.ofNat 12)
  | 'n' => some '\n'
  | 'r' => some '\r'
  | 't' => some '\t'
  | _ => none

/-- Parse the body of a JSON string after the opening quote, as the Python
json module's strict scanner does: plain characters at or above U+0020 other
than the quote and the backslash, the named escapes, and \uXXXX with
surrogate-pair combination.  A lone surrogate escape is accepted by Python
but has no counterpart among Lean's scalar values, so the model rejects it;
no input produced by `dumps` contains one. -/
def parseStr : List Char → Except PyErr (List Char × List Char)
  | [] => .error .jsonDecodeError
  | '"' :: t => .ok ([], t)
  | '\\' :: 'u' :: c1 :: c2 :: c3 :: c4 :: t =>
    match hex4Val c1 c2 c3 c4 with
    | none => .error .jsonDecodeError
    | some n =>
      if n < 55296 ∨ 57343 < n then do
        let (r, rest) ← parseStr t
        .ok (Char.ofNat n :: r, rest)
      else if n < 56320 then
        match t with
        | '\\' :: 'u' :: d1 :: d2 :: d3 :: d4 :: t' =>
          match hex4Val d1 d2 d3 d4 with
          | some m =>
            if 56320 ≤ m ∧ m ≤ 57343 then do
              let (r, rest) ← parseStr t'
              .ok (Char.ofNat (65536 + (n - 55296) * 1024 + (m - 56320)) :: r, rest)
            else .error .jsonDecodeError
          | none => .error .jsonDecodeError
        | _ => .error .jsonDecodeError
      else .error .jsonDecodeError
  | '\\' :: e :: t =>
    match escCode e with
    | none => .error .jsonDecodeError
    | some c => do
      let (r, rest) ← parseStr t
      .ok (c :: r, rest)
  | c :: t =>
    if c.toNat < 32 then .error .jsonDecodeError
    else do
      let (r, rest) ← parseStr t
      .ok (c :: r, rest)

/-- Digit character value. -/
def digitVal (c : Char) : Nat := c.toNat - 48

/-- After the integer part of a JSON number, a fraction or exponent would make
a Python float, which is outside this model's scope; such inputs are rejected
rather than modelled. -/
def floatGuard (n : Nat) (rest : List Char) : Except PyErr (Nat × List Char) :=
  match rest with
  | c :: _ =>
    if c = '.' ∨ c = 'e' ∨ c = 'E' then .error .jsonDecodeError else .ok (n, rest)
  | [] => .ok (n, rest)

/-- Parse an unsigned JSON integer: "0", or a nonzero digit followed by the
maximal run of digits, per the json number grammar (0|[1-9][0-9]*). -/
def parseNum : List Char → Except PyErr (Nat × List Char)
  | [] => .error .jsonDecodeError
  | c :: t =>
    if c = '0' then floatGuard 0 t
    else if c.isDigit then
      floatGuard ((c :: t.takeWhile Char.isDigit).foldl (fun a d => a * 10 + digitVal d) 0)
        (t.dropWhile Char.isDigit)
    else .error .jsonDecodeError

mutual

/-- Fuel-indexed JSON value parser, modelling the Python json scanner at a
position where a value is expected (leading whitespace already consumed).
`loads` supplies fuel exceeding the input length; every recursive call sits
behind at least one consumed character, so the fuel never runs out there. -/
def parseVal : Nat → List Char → Except PyErr (JVal × List Char)
  | 0, _ => .error .jsonDecodeError
  | fuel + 1, s =>
    match s with
    | [] => .error .jsonDecodeError
    | c :: t =>
      if c = '"' then do
        let (cs, rest) ← parseStr t
        .ok (.s cs, rest)
      else if c = '{' then
        match skipJWs t with
        | '}' :: r => .ok (.obj [], r)
        | u => parseObjItems fuel [] u
      else if c = '[' then
        match skipJWs t with
        | ']' :: r => .ok (.arr [], r)
        | u => parseArrItems fuel [] u
      else if c = 'n' then
        match dropLit (lc "ull") t with
        | some r => .ok (.null, r)
        | none => .error .jsonDecodeError
      else if c = 't' then
        match dropLit (lc "rue") t with
        | some r => .ok (.b true, r)
        | none => .error .jsonDecodeError
      else if c = 'f' then
        match dropLit (lc "alse") t with
        | some r => .ok (.b false, r)
        | none => .error .jsonDecodeError
      else if c = '-' then do
        let (n, rest) ← parseNum t
        .ok (.i (-(n : Int)), rest)
      else if c.isDigit then do
        let (n, rest) ← parseNum (c :: t)
        .ok (.i (n : Int), rest)
      else .error .jsonDecodeError

/-- Object member loop: expects a key string at the head (whitespace already
consumed), then ": value", then "," for another member or the closing brace.
Members accumulate with Python dict insertion semantics. -/
def parseObjItems : Nat → List (List Char × JVal) → List Char →
    Except PyErr (JVal × List Char)
  | 0, _, _ => .error .jsonDecodeError
  | fuel + 1, acc, s =>
    match s with
    | '"' :: t => do
      let (k, r1) ← parseStr t
      match skipJWs r1 with
      | ':' :: r2 => do
        let (v, r3) ← parseVal fuel (skipJWs r2)
        match skipJWs r3 with
        | ',' :: r4 => parseObjItems fuel (objInsert acc k v) (skipJWs r4)
        | '}' :: r4 => .ok (.obj (objInsert acc k v), r4)
        | _ => .error .jsonDecodeError
      | _ => .error .jsonDecodeError
    | _ => .error .jsonDecodeError

/-- Array element loop: expects a value at the head (whitespace already
consumed), then "," for another element or the closing bracket. -/
def parseArrItems : Nat → List JVal → List Char → Except PyErr (JVal × List Char)
  | 0, _, _ => .error .jsonDecodeError
  | fuel + 1, acc, s => do
    let (v, r1) ← parseVal fuel s
    match skipJWs r1 with
    | ',' :: r2 => parseArrItems fuel (acc ++ [v]) (skipJWs r2)
    | ']' :: r2 => .ok (.arr (acc ++ [v]), r2)
    | _ => .error .jsonDecodeError

end

/-- Model of `json.loads`: parse a complete JSON document with optional
surrounding whitespace; trailing non-whitespace is the "Extra data" error. -/
def loads (s : List Char) : Except PyErr JVal := do
  let (v, rest) ← parseVal (s.length + 1) (skipJWs s)
  if (skipJWs rest).isEmpty then pure v else .error .jsonDecodeError

/-- Modelled from the spec: the `ToolCall` schema class
(`endpoints.OAI.types.tools`) is not under src/; the spec treats it as an
opaque value object with required fields `name` and `arguments` under
`function`, the values themselves not validated further ("non-empty expected
but not validated here"). -/
structure ToolFunction where
  name : JVal
  arguments : JVal
deriving Repr

/-- Canonical tool-call record. -/
structure ToolCall where
  function : ToolFunction
deriving Repr

/-- Modelled from the spec: `ToolCall(**d)` construction requires the
`function` field with its `name` and `arguments` sub-fields present and
stores the given values; a missing required field is a validation failure. -/
def mkToolCall (d : JVal) : Except PyErr ToolCall :=
  match d with
  | .obj kvs =>
    match objLookup kvs (lc "function") with
    | some (.obj f) =>
      match objLookup f (lc "name"), objLookup f (lc "arguments") with
      | some n, some a => .ok ⟨⟨n, a⟩⟩
      | _, _ => .error .validationError
    | _ => .error .validationError
  | _ => .error .validationError

/-- Python subscripting `v[k]` with a string key: KeyError when the key is
absent from a dict, TypeError when the value is not a dict. -/
def pyIndex (v : JVal) (k : List Char) : Except PyErr JVal :=
  match v with
  | .obj kvs =>
    match objLookup kvs k with
    | some x => .ok x
    | none => .error .keyError
  | _ => .error .typeError

/-- Python dict item assignment `v[k] = x` (only reached on dicts). -/
def objSet (v : JVal) (k : List Char) (x : JVal) : JVal :=
  match v with
  | .obj kvs => .obj (objInsert kvs k x)
  | _ => v

/-- Membership test `k in v` for a dict. -/
def hasKey (v : JVal) (k : List Char) : Bool :=
  match v with
  | .obj kvs => (objLookup kvs k).isSome
  | _ => false

/-- Truth of `isinstance(v, dict)`. -/
def isDict : JVal → Bool
  | .obj _ => true
  | _ => false

/-- Body of the nested-dialect mutation loop (lines 71-74): re-serialize
`tool_call["function"]["arguments"]` in place. -/
def nestedUpdate (tool_call : JVal) : Except PyErr JVal := do
  let f ← pyIndex tool_call (lc "function")
  let a ← pyIndex f (lc "arguments")
  pure (objSet tool_call (lc "function") (objSet f (lc "arguments") (.s (dumps a))))

/-- Model of `ToolCallProcessor.from_json` (tools.py lines 45-76): parse the
input as JSON; a dict with `name` and `arguments` keys is the flat ("Qwen")
dialect and yields one record, serializing `arguments` only when it is a
dict; any other value (wrapped in a one-element list unless it is a list) is
the nested array dialect, whose elements each get `function.arguments`
re-serialized in place before the records are constructed. -/
def from_json (tool_calls_str : List Char) : Except PyErr (List ToolCall) := do
  let parsed ← loads tool_calls_str
  if isDict parsed && hasKey parsed (lc "name") && hasKey parsed (lc "arguments") then do
    let nm ← pyIndex parsed (lc "name")
    let args ← pyIndex parsed (lc "arguments")
    let tool_call_dict : JVal := .obj [(lc "function", .obj
      [(lc "name", nm), (lc "arguments", if isDict args then .s (dumps args) else args)])]
    let tc ← mkToolCall tool_call_dict
    pure [tc]
  else do
    let tool_calls := match parsed with
      | .arr l => l
      | _ => [parsed]
    let upd ← tool_calls.mapM nestedUpdate
    upd.mapM mkToolCall

/-- Python whitespace, as the regex class `\s` on `str` and the no-argument
`str.strip()` both recognize it: the characters on which `str.isspace()`
holds — the ASCII controls and space, the information separators
U+001C-U+001F, NEL, no-break space, and the Unicode space separators. -/
def isPyWs (c : Char) : Bool :=
  c = ' ' || c = '\t' || c = '\n' || c = '\r' || c.toNat = 11 || c.toNat = 12 ||
  (28 ≤ c.toNat && c.toNat ≤ 31) || c.toNat = 133 || c.toNat = 160 ||
  c.toNat = 0x1680 || (0x2000 ≤ c.toNat && c.toNat ≤ 0x200a) ||
  c.toNat = 0x2028 || c.toNat = 0x2029 || c.toNat = 0x202f ||
  c.toNat = 0x205f || c.toNat = 0x3000

/-- Drop leading regex whitespace.  In every pattern of the source, `\s*` is
followed by a literal whose first character is not whitespace, so greedy
matching with backtracking coincides with dropping the maximal whitespace
run. -/
def skipWs (s : List Char) : List Char := s.dropWhile isPyWs

/-- Python `str.strip()` over the ASCII whitespace characters. -/
def pyStrip (s : List Char) : List Char :=
  ((s.dropWhile isPyWs).reverse.dropWhile isPyWs).reverse

/-- Maximal run of characters other than `stopCh`: the deterministic reading
of a greedy `[^x]+` that a literal `x` must follow, since such a match can
only end at the first occurrence of `x`. -/
def takeTill (stopCh : Char) (s : List Char) : List Char × List Char :=
  (s.takeWhile (fun c => c != stopCh), s.dropWhile (fun c => c != stopCh))

/-- Lazy search: the least split `s = p ++ r` such that `stop r` succeeds —
the deterministic reading of a non-greedy `(.*?)` (under DOTALL) followed by
the remainder of the pattern. -/
def lazyFind (stop : List Char → Option α) : List Char → Option (List Char × α)
  | [] => (stop []).map (fun a => ([], a))
  | c :: t =>
    match stop (c :: t) with
    | some a => some ([], a)
    | none => (lazyFind stop t).map (fun pa => (c :: pa.1, pa.2))

/-- Fuel-driven body of `scanAll`; the fuel (initially the input length)
dominates the input length at every step, so it never runs out. -/
def scanAllAux (m : List Char → Option (α × List Char)) : Nat → List Char → List α
  | 0, _ => []
  | _, [] => []
  | f + 1, c :: t =>
    match m (c :: t) with
    | some (a, rest) => a :: scanAllAux m f (if rest.length ≤ t.length then rest else t)
    | none => scanAllAux m f t

/-- Non-overlapping leftmost regex scan, as `re.findall`: try the matcher at
each position and continue after a match's end.  The length guard on the
matcher's returned suffix only serves the termination argument; every matcher
used below consumes at least one character, so it never fires. -/
def scanAll (m : List Char → Option (α × List Char)) (s : List Char) : List α :=
  scanAllAux m s.length s

/-- Matcher at one position for `<tool_call>\s*(\{.*?\})\s*</tool_call>`:
returns the captured brace-delimited group and the suffix after the match. -/
def matchEmbedded (s : List Char) : Option (List Char × List Char) := do
  let s1 ← dropLit (lc "<tool_call>") s
  match skipWs s1 with
  | '{' :: t =>
    let (body, rest) ← lazyFind (fun u =>
      match u with
      | '}' :: u' => dropLit (lc "</tool_call>") (skipWs u')
      | _ => none) t
    pure ('{' :: body ++ ['}'], rest)
  | _ => none

/-- Matcher at one position for
`<tool_call>\s*<function=([^>]+)>(.*?)</function>\s*</tool_call>`. -/
def matchQwenCall (s : List Char) : Option ((List Char × List Char) × List Char) := do
  let s1 ← dropLit (lc "<tool_call>") s
  let s2 ← dropLit (lc "<function=") (skipWs s1)
  let (nm, s3) := takeTill '>' s2
  if nm.isEmpty then none else
  match s3 with
  | '>' :: t =>
    let (body, rest) ← lazyFind (fun u => do
      let u1 ← dropLit (lc "</function>") u
      dropLit (lc "</tool_call>") (skipWs u1)) t
    pure ((nm, body), rest)
  | _ => none

/-- Matcher at one position for `<parameter=([^>]+)>(.*?)</parameter>`. -/
def matchQwenParam (s : List Char) : Option ((List Char × List Char) × List Char) := do
  let s1 ← dropLit (lc "<parameter=") s
  let (nm, s2) := takeTill '>' s1
  if nm.isEmpty then none else
  match s2 with
  | '>' :: t =>
    let (body, rest) ← lazyFind (dropLit (lc "</parameter>")) t
    pure ((nm, body), rest)
  | _ => none

/-- Matcher at one position for `<invoke name="([^"]+)">(.*?)</invoke>`. -/
def matchInvoke (s : List Char) : Option ((List Char × List Char) × List Char) := do
  let s1 ← dropLit (lc "<invoke name=\"") s
  let (nm, s2) := takeTill '"' s1
  if nm.isEmpty then none else
  match s2 with
  | '"' :: '>' :: t =>
    let (body, rest) ← lazyFind (dropLit (lc "</invoke>")) t
    pure ((nm, body), rest)
  | _ => none

/-- Matcher at one position for `<parameter name="([^"]+)">(.*?)</parameter>`. -/
def matchParam (s : List Char) : Option ((List Char × List Char) × List Char) := do
  let s1 ← dropLit (lc "<parameter name=\"") s
  let (nm, s2) := takeTill '"' s1
  if nm.isEmpty then none else
  match s2 with
  | '"' :: '>' :: t =>
    let (body, rest) ← lazyFind (dropLit (lc "</parameter>")) t
    pure ((nm, body), rest)
  | _ => none

/-- The `re.findall` of the embedded-JSON tool_call pattern (line 91). -/
def findToolCallJson : List Char → List (List Char) := scanAll matchEmbedded

/-- The `re.findall` of the tagged-function pattern (line 112). -/
def findQwenCalls : List Char → List (List Char × List Char) := scanAll matchQwenCall

/-- The `re.findall` of the tagged-function parameter pattern (line 113). -/
def findQwenParams : List Char → List (List Char × List Char) := scanAll matchQwenParam

/-- The `re.findall` of the invoke pattern (line 145). -/
def findInvokes : List Char → List (List Char × List Char) := scanAll matchInvoke

/-- The `re.findall` of the invoke parameter pattern (line 146). -/
def findParams : List Char → List (List Char × List Char) := scanAll matchParam

/-- Per-parameter coercion of the tagged-function and invoke conventions
(lines 123-132 and 155-164): strip the value, try JSON parsing, keep the
parsed value on success and the stripped string otherwise; the parameter is
stored with dict insertion (a later duplicate name overwrites). -/
def coerceParam (parameters : List (List Char × JVal)) (nm v : List Char) :
    List (List Char × JVal) :=
  match loads (pyStrip v) with
  | .ok parsed => objInsert parameters nm parsed
  | .error _ => objInsert parameters nm (.s (pyStrip v))

/-- Per-block body of the embedded-JSON branch (lines 96-109): JSON-parse the
captured group; a JSONDecodeError is logged as a warning and the block
skipped; otherwise the record is built from `.get("name")` (defaulting to
None) and `.get("arguments", {})`, serializing the latter unless it is
already a string.  An `.get` on a non-dict would be an uncaught
AttributeError; it is never reached, because a group starting with a brace
parses to a dict when it parses at all. -/
def embedBlock (json_str : List Char) : Except PyErr (Option ToolCall) :=
  match loads json_str with
  | .error _ => .ok none
  | .ok (.obj kvs) => do
    let nameV := (objLookup kvs (lc "name")).getD .null
    let argsOut := match objLookup kvs (lc "arguments") with
      | some (.s t) => JVal.s t
      | some v => .s (dumps v)
      | none => .s (dumps (.obj []))
    let tc ← mkToolCall (.obj [(lc "function", .obj
      [(lc "name", nameV), (lc "arguments", argsOut)])])
    pure (some tc)
  | .ok _ => .error .attributeError

/-- Shared body of the tagged-function and invoke branches (lines 119-142 and
150-174): fold the per-parameter coercion over the block's parameter matches
and build the record with the serialized parameter dict. -/
def paramBlock (tool_name : List Char) (params : List (List Char × List Char)) :
    Except PyErr ToolCall :=
  let parameters := params.foldl (fun ps p => coerceParam ps p.1 p.2) []
  mkToolCall (.obj [(lc "function", .obj
    [(lc "name", .s tool_name), (lc "arguments", .s (dumps (.obj parameters)))])])

/-- Model of `ToolCallProcessor.from_xml` (lines 78-176): use the embedded
JSON convention when it matches anywhere; otherwise the tagged-function
("Qwen") convention when that matches; otherwise the invoke convention. -/
def from_xml (tool_calls_str : List Char) : Except PyErr (List ToolCall) := do
  let tool_call_matches := findToolCallJson tool_calls_str
  if !tool_call_matches.isEmpty then do
    let l ← tool_call_matches.mapM embedBlock
    pure (l.filterMap id)
  else
    let qwen_matches := findQwenCalls tool_calls_str
    if !qwen_matches.isEmpty then
      qwen_matches.mapM fun m => paramBlock m.1 (findQwenParams m.2)
    else
      (findInvokes tool_calls_str).mapM fun m => paramBlock m.1 (findParams m.2)

/-- Modelled from the spec: `model_dump()` converts a record to its plain
mapping form; with the opaque value-object model a record always converts, so
the best-effort warning path in `dump` (lines 192-197) never fires. -/
def model_dump (tc : ToolCall) : JVal :=
  .obj [(lc "function", .obj
    [(lc "name", tc.function.name), (lc "arguments", tc.function.arguments)])]

/-- Model of `ToolCallProcessor.dump` (lines 178-198). -/
def dump (tool_calls : List ToolCall) : List JVal := tool_calls.map model_dump

/-- Newline plus the two-space-per-level indentation of `json.dumps(x, indent=2)`. -/
def nlIndent (lvl : Nat) : List Char := '\n' :: List.replicate (2 * lvl) ' '

mutual

/-- Serialize as `json.dumps(x, indent=2)` does: items one per line, item
separator ",", key separator ": ", empty containers inline. -/
def dumpsI : Nat → JVal → List Char
  | _, .null => lc "null"
  | _, .b true => lc "true"
  | _, .b false => lc "false"
  | _, .i n => intChars n
  | _, .s t => '"' :: t.flatMap escChar ++ ['"']
  | _, .arr [] => lc "[]"
  | _, .obj [] => lc "\x7b\x7d"
  | lvl, .arr l => '[' :: dumpsIArr (lvl + 1) l ++ nlIndent lvl ++ [']']
  | lvl, .obj kvs => '{' :: dumpsIObj (lvl + 1) kvs ++ nlIndent lvl ++ ['}']

/-- Indented array elements. -/
def dumpsIArr : Nat → List JVal → List Char
  | _, [] => []
  | lvl, [v] => nlIndent lvl ++ dumpsI lvl v
  | lvl, v :: vs => nlIndent lvl ++ dumpsI lvl v ++ ',' :: dumpsIArr lvl vs

/-- Indented object entries. -/
def dumpsIObj : Nat → List (List Char × JVal) → List Char
  | _, [] => []
  | lvl, [(k, v)] =>
    nlIndent lvl ++ '"' :: k.flatMap escChar ++ '"' :: ':' :: ' ' :: dumpsI lvl v
  | lvl, (k, v) :: kvs =>
    nlIndent lvl ++ '"' :: k.flatMap escChar ++ '"' :: ':' :: ' ' :: dumpsI lvl v ++
      ',' :: dumpsIObj lvl kvs

end

/-- Model of `ToolCallProcessor.to_json` (lines 200-219): the empty string
for an empty batch, otherwise the dumped records serialized with indent 2. -/
def to_json (tool_calls : List ToolCall) : List Char :=
  if tool_calls.isEmpty then [] else dumpsI 0 (.arr (dump tool_calls))

mutual

/-- Python `repr()` of a value.  Strings are rendered single-quoted without
escaping, a simplification of Python's quote/escape selection; no claim
depends on the rendering of a non-string tool name. -/
def pyRepr : JVal → List Char
  | .null => lc "None"
  | .b true => lc "True"
  | .b false => lc "False"
  | .i n => intChars n
  | .s t => Char.ofNat 39 :: t ++ [Char.ofNat 39]
  | .arr l => '[' :: pyReprArr l ++ [']']
  | .obj kvs => '{' :: pyReprObj kvs ++ ['}']

/-- Comma-separated container elements for `repr`. -/
def pyReprArr : List JVal → List Char
  | [] => []
  | [v] => pyRepr v
  | v :: vs => pyRepr v ++ ',' :: ' ' :: pyReprArr vs

/-- Comma-separated dict entries for `repr`. -/
def pyReprObj : List (List Char × JVal) → List Char
  | [] => []
  | [(k, v)] => Char.ofNat 39 :: k ++ Char.ofNat 39 :: ':' :: ' ' :: pyRepr v
  | (k, v) :: kvs =>
    Char.ofNat 39 :: k ++ Char.ofNat 39 :: ':' :: ' ' :: pyRepr v ++
      ',' :: ' ' :: pyReprObj kvs

end

/-- Python `str()` as the f-strings in `to_xml` use it: identity on strings,
`repr` on everything else (on None, booleans and integers the two agree). -/
def pyStr : JVal → List Char
  | .s t => t
  | v => pyRepr v

/-- Rendering of one parameter value in `to_xml` (lines 250-256 and 271-277):
a string verbatim, anything else via `json.dumps`. -/
def valStr (v : JVal) : List Char :=
  match v with
  | .s t => t
  | _ => dumps v

/-- Python `"\n".join`. -/
def joinNl (parts : List (List Char)) : List Char :=
  match parts with
  | [] => []
  | [p] => p
  | p :: ps => p ++ '\n' :: joinNl ps

/-- Build one XML block for a record: the qwen convention when the format
selector equals "qwen", the claude convention otherwise (lines 244-283). -/
def renderBlock (format : List Char) (name : JVal) (kvs : List (List Char × JVal)) :
    List Char :=
  if format = lc "qwen" then
    joinNl (lc "<tool_call>" :: (lc "<function=" ++ pyStr name ++ ['>']) ::
      (kvs.flatMap fun p =>
        [lc "<parameter=" ++ p.1 ++ ['>'], valStr p.2, lc "</parameter>"]) ++
      [lc "</function>", lc "</tool_call>"])
  else
    joinNl ((lc "<invoke name=\"" ++ pyStr name ++ lc "\">") ::
      (kvs.map fun p =>
        lc "<parameter name=\"" ++ p.1 ++ lc "\">" ++ valStr p.2 ++ lc "</parameter>") ++
      [lc "</invoke>"])

/-- Per-record body of the `to_xml` loop (lines 239-286): parse the record's
arguments JSON text and render one block.  A JSONDecodeError from the parse,
or the AttributeError of `.items()` on a non-dict, is caught and the record
skipped with a warning; `json.loads` applied to a non-string arguments value
raises a TypeError, which the except clause does not catch. -/
def renderOne (format : List Char) (tc : ToolCall) : Except PyErr (Option (List Char)) :=
  match tc.function.arguments with
  | .s t =>
    match loads t with
    | .error _ => .ok none
    | .ok (.obj kvs) => .ok (some (renderBlock format tc.function.name kvs))
    | .ok _ => .ok none
  | _ => .error .typeError

/-- Model of `ToolCallProcessor.to_xml` (lines 221-288): the empty string for
an empty batch, otherwise the records' blocks joined with newlines.  The
`format` parameter defaults to "claude" at the Python call sites; any value
other than "qwen" selects the claude convention. -/
def to_xml (tool_calls : List ToolCall) (format : List Char) :
    Except PyErr (List Char) :=
  if tool_calls.isEmpty then .ok [] else do
    let parts ← tool_calls.filterMapM (renderOne format)
    pure (joinNl parts)

/-- Distinctness of dict keys (each key absent from the remaining entries). -/
def keysFresh : List (List Char × JVal) → Bool
  | [] => true
  | (k, _) :: t => !(t.any (fun p => p.1 == k)) && keysFresh t

mutual

/-- Well-formed JSON values: every object has distinct keys, recursively.
Python dicts cannot hold duplicate keys, so every value flowing through the
modelled code is well formed. -/
def jwf : JVal → Bool
  | .null => true
  | .b _ => true
  | .i _ => true
  | .s _ => true
  | .arr l => jwfArr l
  | .obj kvs => keysFresh kvs && jwfObj kvs

/-- Well-formedness of array elements. -/
def jwfArr : List JVal → Bool
  | [] => true
  | v :: vs => jwf v && jwfArr vs

/-- Well-formedness of object entry values. -/
def jwfObj : List (List Char × JVal) → Bool
  | [] => true
  | (_, v) :: kvs => jwf v && jwfObj kvs

end

mutual

/-- Parser fuel needed to re-read a serialized value; bounded by the length
of the serialization. -/
def jfuel : JVal → Nat
  | .null => 1
  | .b _ => 1
  | .i _ => 1
  | .s _ => 1
  | .arr l => 1 + jfuelArr l
  | .obj kvs => 1 + jfuelObj kvs

/-- Fuel for an array element list. -/
def jfuelArr : List JVal → Nat
  | [] => 0
  | v :: vs => 1 + jfuel v + jfuelArr vs

/-- Fuel for an object entry list. -/
def jfuelObj : List (List Char × JVal) → Nat
  | [] => 0
  | (_, v) :: kvs => 1 + jfuel v + jfuelObj kvs

end

/-- Text that may legally follow a serialized JSON number without extending
it: nothing, or a character that is neither a digit nor a fraction/exponent
mark. -/
def numBoundary (rest : List Char) : Prop :=
  ∀ c, rest.head? = some c → c.isDigit = false ∧ c ≠ '.' ∧ c ≠ 'e' ∧ c ≠ 'E'

/-- Truth of `isinstance(v, str)`. -/
def isStr : JVal → Bool
  | .s _ => true
  | _ => false

/-- An element of the nested array dialect missing a required field: no
`function` key, or a `function` mapping without `arguments` or without
`name`. -/
def missingField (el : JVal) : Prop :=
  ∃ d, el = .obj d ∧
    (objLookup d (lc "function") = none ∨
      ∃ fd, objLookup d (lc "function") = some (.obj fd) ∧
        (objLookup fd (lc "arguments") = none ∨ objLookup fd (lc "name") = none))

/-- A well-shaped element of the nested array dialect: a mapping whose
`function` value is a mapping carrying `name` and `arguments`. -/
def goodElem (el : JVal) : Prop :=
  ∃ d fd, el = .obj d ∧ objLookup d (lc "function") = some (.obj fd) ∧
    (objLookup fd (lc "name")).isSome ∧ (objLookup fd (lc "arguments")).isSome

/-- Disagreement of two character lists at some common index: both lists
hold a character there and the characters differ.  A list that conflicts
with a literal can never begin a successful `dropLit` of that literal. -/
def conflicts : List Char → List Char → Bool
  | [], _ => false
  | _, [] => false
  | a :: x, b :: y => a != b || conflicts x y

/-- Every occurrence of the tag-opening character in the text begins one of
the listed tag strings (lying fully inside the text). -/
def ltTagged (tags : List (List Char)) : List Char → Bool
  | [] => true
  | c :: t =>
    (if c = '<' then tags.any (fun tag => tag.isPrefixOf (c :: t)) else true)
      && ltTagged tags t

/-- One rendered parameter line of the claude convention. -/
def paramLineC (p : List Char × JVal) : List Char :=
  lc "<parameter name=\"" ++ p.1 ++ lc "\">" ++ valStr p.2 ++ lc "</parameter>"

/-- The body the invoke matcher captures from a rendered claude block. -/
def bodyC (kvs : List (List Char × JVal)) : List Char :=
  '\n' :: kvs.flatMap (fun p => paramLineC p ++ ['\n'])

/-- One rendered parameter chunk of the qwen convention (three lines). -/
def paramChunkQ (p : List Char × JVal) : List Char :=
  lc "<parameter=" ++ p.1 ++ '>' :: '\n' :: valStr p.2 ++ '\n' :: lc "</parameter>"

/-- The function body the qwen matcher captures from a rendered block. -/
def bodyQ (kvs : List (List Char × JVal)) : List Char :=
  '\n' :: kvs.flatMap (fun p => paramChunkQ p ++ ['\n'])

/-- A key or name the XML regexes capture verbatim: nonempty and free of the
tag delimiter characters. -/
def safeKey (k : List Char) : Bool :=
  !k.isEmpty && k.all (fun c => c != '<' && c != '>' && c != '"')

/-- No surrounding whitespace: the first and last characters of the text,
when present, are not regex whitespace. -/
def noWsEdge (y : List Char) : Bool :=
  (match y.head? with | some c => !isPyWs c | none => true) &&
  (match y.getLast? with | some c => !isPyWs c | none => true)

/-- The characters at which Python's `json.loads` scanner can begin a value:
an object, array or string opener, a sign or digit, the literals
`true`/`false`/`null`, and the non-standard constants `NaN`, `Infinity` and
`-Infinity` that `json.loads` accepts by default.  A text whose first
character lies outside this set (and is not whitespace) is rejected by
`json.loads` whatever follows. -/
def jsonStartChar (c : Char) : Bool :=
  c = '{' || c = '[' || c = '"' || c = '-' || c.isDigit ||
  c = 't' || c = 'f' || c = 'n' || c = 'I' || c = 'N'

/-- A parameter value that survives the XML round trip: its rendering has no
tag-opening character and no surrounding whitespace, and a string value must
not itself parse as JSON (re-decoding would otherwise change its type).
Non-parseability of a string is required in a form that holds for Python's
`json.loads` as well as for the model's parser (which rejects floats, the
NaN/Infinity constants and lone-surrogate escapes that `json.loads`
accepts): the string's first character must be unable to begin any JSON
value. -/
def safeVal (v : JVal) : Bool :=
  ((valStr v).all (fun c => c != '<')) && noWsEdge (valStr v) &&
    (match v with
     | .s t =>
       (match loads t with | .error _ => true | .ok _ => false) &&
       (match t.head? with | some c => !(jsonStartChar c) | none => true)
     | _ => true)

/-- A canonical record whose XML rendering decodes back to itself: string
name and string arguments, the arguments text parsing to an object with safe
keys and values. -/
def safeRecord (tc : ToolCall) : Bool :=
  match tc.function.name, tc.function.arguments with
  | .s nm, .s targ =>
    safeKey nm &&
    (match loads targ with
     | .ok (.obj kvs) => kvs.all (fun p => safeKey p.1 && safeVal p.2)
     | _ => false)
  | _, _ => false

/-! Concrete evaluations of the embedded operations, checked against the
behavior of the Python source on the same inputs. -/

example : loads (lc " \x7b \"a\" : [ 1 , 2 ] \x7d ") =
    .ok (.obj [(lc "a", .arr [.i 1, .i 2])]) := by rfl
example : loads (lc "\x7b\"a\":1,\"a\":2,\"b\":3\x7d") =
    .ok (.obj [(lc "a", .i 2), (lc "b", .i 3)]) := by rfl
example : loads (lc "[]") = .ok (.arr []) := by rfl
example : loads (lc "\x7b\x7d") = .ok (.obj []) := by rfl
example : loads (lc "01") = .error .jsonDecodeError := by rfl
example : loads (lc "-0") = .ok (.i 0) := by rfl
example : loads (lc "[nullx]") = .error .jsonDecodeError := by rfl
example : loads (lc "\"\\ud83d\\ude00\"") = .ok (.s [Char.ofNat 128512]) := by rfl
example : loads (lc "hello") = .error .jsonDecodeError := by rfl
example : loads (lc "\"hi\\n\"") = .ok (.s (lc "hi\n")) := by rfl
example : loads (lc "[1,2,3]") = .ok (.arr [.i 1, .i 2, .i 3]) := by rfl
example : loads (lc "true") = .ok (.b true) := by rfl
example : loads (lc "-12") = .ok (.i (-12)) := by rfl
example : from_json (lc "\x7b\"name\":\"f\",\"arguments\":\x7b\"a\":1\x7d\x7d") =
    .ok [⟨⟨.s (lc "f"), .s (lc "\x7b\"a\": 1\x7d")⟩⟩] := by rfl
example : from_json (lc "\x7b\"name\":\"f\",\"arguments\":\"hello\"\x7d") =
    .ok [⟨⟨.s (lc "f"), .s (lc "hello")⟩⟩] := by rfl
example : from_json (lc "[]") = .ok [] := by rfl
example : from_json (lc "not json") = .error .jsonDecodeError := by rfl
example : from_json (lc "[\x7b\"function\":\x7b\"name\":\"g\",\"arguments\":\x7b\x7d\x7d\x7d]") =
    .ok [⟨⟨.s (lc "g"), .s (lc "\x7b\x7d")⟩⟩] := by rfl
example : from_json (lc "[\x7b\"function\":\x7b\"name\":\"g\"\x7d\x7d]") =
    .error .keyError := by rfl
example : from_json (lc "[\x7b\x7d]") = .error .keyError := by rfl
example : from_json (lc "[1]") = .error .typeError := by rfl
example : from_json (lc "[\x7b\"function\":\x7b\"arguments\":\x7b\x7d\x7d\x7d]") =
    .error .validationError := by rfl
example : findToolCallJson (lc "<tool_call> \x7b\"a\":\"\x7d\"\x7d </tool_call>") =
    [lc "\x7b\"a\":\"\x7d\"\x7d"] := by rfl
example : findToolCallJson (lc "<tool_call> x \x7b\"a\":1\x7d </tool_call>") = [] := by rfl
example : findInvokes
      (lc "<invoke name=\"f\">\n<parameter name=\"a\">1</parameter>\n</invoke>\n<invoke name=\"g\">\n</invoke>") =
    [(lc "f", lc "\n<parameter name=\"a\">1</parameter>\n"), (lc "g", lc "\n")] := by rfl
example : from_xml (lc "<invoke name=\"f\"><parameter name=\"a\">[1,2,3]</parameter><parameter name=\"b\"> hello </parameter></invoke>") =
    .ok [⟨⟨.s (lc "f"), .s (lc "\x7b\"a\": [1, 2, 3], \"b\": \"hello\"\x7d")⟩⟩] := by rfl
example : from_xml (lc "no tool calls here") = .ok [] := by rfl
example : from_xml (lc "<tool_call>\x7b\"name\":\"t\",\"arguments\":\x7b\"x\":true\x7d\x7d</tool_call>") =
    .ok [⟨⟨.s (lc "t"), .s (lc "\x7b\"x\": true\x7d")⟩⟩] := by rfl
example : from_xml (lc "<tool_call>\x7bbad\x7d</tool_call><tool_call>\x7b\"name\":\"t\",\"arguments\":\x7b\x7d\x7d</tool_call>") =
    .ok [⟨⟨.s (lc "t"), .s (lc "\x7b\x7d")⟩⟩] := by rfl
example : from_xml (lc "<tool_call>\n<function=ff>\n<parameter=a>\n7\n</parameter>\n</function>\n</tool_call>") =
    .ok [⟨⟨.s (lc "ff"), .s (lc "\x7b\"a\": 7\x7d")⟩⟩] := by rfl
example : from_xml (lc "<tool_call>\x7b\"name\":\"t\",\"arguments\":\x7b\x7d\x7d</tool_call><invoke name=\"g\"></invoke>") =
    .ok [⟨⟨.s (lc "t"), .s (lc "\x7b\x7d")⟩⟩] := by rfl
example : to_json [⟨⟨.s (lc "f"), .s (lc "\x7b\x7d")⟩⟩] =
    lc "[\n  \x7b\n    \"function\": \x7b\n      \"name\": \"f\",\n      \"arguments\": \"\x7b\x7d\"\n    \x7d\n  \x7d\n]" := by rfl
example : to_json [] = [] := by rfl
example : to_xml [⟨⟨.s (lc "f"), .s (lc "\x7b\"a\": [1, 2], \"b\": \"hi\"\x7d")⟩⟩] (lc "claude") =
    .ok (lc "<invoke name=\"f\">\n<parameter name=\"a\">[1, 2]</parameter>\n<parameter name=\"b\">hi</parameter>\n</invoke>") := by rfl
example : to_xml [⟨⟨.s (lc "f"), .s (lc "\x7b\"a\": [1, 2], \"b\": \"hi\"\x7d")⟩⟩] (lc "qwen") =
    .ok (lc "<tool_call>\n<function=f>\n<parameter=a>\n[1, 2]\n</parameter>\n<parameter=b>\nhi\n</parameter>\n</function>\n</tool_call>") := by rfl
example : to_xml [⟨⟨.s (lc "f"), .s (lc "oops")⟩⟩] (lc "claude") = .ok [] := by rfl
example : to_xml [] (lc "qwen") = .ok [] := by rfl
example : dumps (.obj [(lc "a", .i 1)]) = lc "\x7b\"a\": 1\x7d" := by rfl
example : dumps (.arr [.i 1, .s (lc "x"), .obj [(lc "b", .arr [.b true, .null])]]) =
    lc "[1, \"x\", \x7b\"b\": [true, null]\x7d]" := by rfl
example : dumps (.i (-12)) = lc "-12" := by rfl
example : dumps (.s [Char.ofNat 128512]) = lc "\"\\ud83d\\ude00\"" := by rfl
example : dumps (.s [Char.ofNat 1]) = lc "\"\\u0001\"" := by rfl

/-! Basic lemmas on the monadic and scanning plumbing. -/

theorem ebind_ok (a : α) (f : α → Except PyErr β) : (Except.ok a >>= f) = f a := rfl

theorem ebind_err (e : PyErr) (f : α → Except PyErr β) :
    (Except.error e >>= f : Except PyErr β) = .error e := rfl

theorem emap_ok (a : α) (g : α → β) :
    (g <$> (Except.ok a : Except PyErr α)) = .ok (g a) := rfl

theorem emap_err (e : PyErr) (g : α → β) :
    (g <$> (Except.error e : Except PyErr α)) = .error e := rfl

theorem mapM_loop_eq (f : α → Except PyErr β) (t : List α) :
    List.mapM.loop f t [] = t.mapM f := rfl

theorem mapM_error_of_mem {f : α → Except PyErr β} {l : List α} {x : α}
    (hx : x ∈ l) (hf : ∃ e, f x = .error e) : ∃ e, l.mapM f = .error e := by
  induction l with
  | nil => cases hx
  | cons y t ih =>
    rw [List.mapM_cons]
    rcases List.mem_cons.mp hx with rfl | hx'
    · obtain ⟨e, he⟩ := hf
      exact ⟨e, by rw [he]; rfl⟩
    · cases hy : f y with
      | error e => exact ⟨e, by rw [ebind_err]⟩
      | ok b =>
        obtain ⟨e, he⟩ := ih hx'
        refine ⟨e, ?_⟩
        rw [ebind_ok, he]
        rfl

theorem mapM_ok_forall₂ {f : α → Except PyErr β} :
    ∀ {l : List α} {l' : List β}, l.mapM f = .ok l' →
      List.Forall₂ (fun x y => f x = .ok y) l l' := by
  intro l
  induction l with
  | nil => intro l' h; rw [List.mapM_nil] at h; cases h; exact .nil
  | cons x t ih =>
    intro l' h
    rw [List.mapM_cons] at h
    cases hx : f x with
    | error e => rw [hx, ebind_err] at h; simp at h
    | ok b =>
      rw [hx, ebind_ok] at h
      cases ht : t.mapM f with
      | error e => rw [ht] at h; simp [ebind_err] at h
      | ok bs =>
        rw [ht] at h
        simp only [ebind_ok] at h
        have : b :: bs = l' := by
          have := h
          simpa [pure, Except.pure] using this
        cases this
        exact .cons hx (ih ht)

theorem scanAllAux_irrel (m : List Char → Option (α × List Char)) :
    ∀ (f f' : Nat) (s : List Char), s.length ≤ f → s.length ≤ f' →
      scanAllAux m f s = scanAllAux m f' s := by
  intro f
  induction f with
  | zero =>
    intro f' s hf _
    have : s = [] := List.length_eq_zero.mp (Nat.le_zero.mp hf)
    subst this
    cases f' <;> rfl
  | succ f ih =>
    intro f' s hf hf'
    cases s with
    | nil => cases f' <;> rfl
    | cons c t =>
      cases f' with
      | zero => simp at hf'
      | succ f' =>
        simp only [scanAllAux]
        have ht : t.length ≤ f := by simpa using hf
        have ht' : t.length ≤ f' := by simpa using hf'
        cases hm : m (c :: t) with
        | none => simp only [hm]; exact ih f' t ht ht'
        | some ar =>
          obtain ⟨a, rest⟩ := ar
          simp only [hm]
          congr 1
          by_cases hr : rest.length ≤ t.length
          · rw [if_pos hr]; exact ih f' rest (le_trans hr ht) (le_trans hr ht')
          · rw [if_neg hr]; exact ih f' t ht ht'

theorem scanAll_cons_some {m : List Char → Option (α × List Char)} {c : Char}
    {t rest : List Char} {a : α} (h : m (c :: t) = some (a, rest))
    (hr : rest.length ≤ t.length) : scanAll m (c :: t) = a :: scanAll m rest := by
  unfold scanAll
  simp only [List.length_cons, scanAllAux, h]
  rw [if_pos hr, scanAllAux_irrel m t.length rest.length rest hr (le_refl _)]

theorem scanAll_cons_none {m : List Char → Option (α × List Char)} {c : Char}
    {t : List Char} (h : m (c :: t) = none) : scanAll m (c :: t) = scanAll m t := by
  unfold scanAll
  simp only [List.length_cons, scanAllAux, h]

theorem scanAll_eq_nil {m : List Char → Option (α × List Char)} {s : List Char}
    (h : ∀ u, u <:+ s → m u = none) : scanAll m s = [] := by
  induction s with
  | nil => rfl
  | cons c t ih =>
    rw [scanAll_cons_none (h (c :: t) (List.suffix_refl _))]
    exact ih fun u hu => h u (hu.trans (List.suffix_cons c t))

/-! Lemmas on decimal digit rendering and parsing. -/

theorem natCharsAux_irrel : ∀ (f f' n : Nat), n < f → n < f' →
    natCharsAux f n = natCharsAux f' n := by
  intro f
  induction f with
  | zero => intro f' n h _; exact absurd h (Nat.not_lt_zero n)
  | succ f ih =>
    intro f' n hf hf'
    cases f' with
    | zero => exact absurd hf' (Nat.not_lt_zero n)
    | succ f' =>
      simp only [natCharsAux]
      by_cases h : n < 10
      · rw [if_pos h, if_pos h]
      · rw [if_neg h, if_neg h]
        have hd : n / 10 < n := Nat.div_lt_self (by omega) (by norm_num)
        rw [ih f' (n / 10) (by omega) (by omega)]

theorem natChars_lt10 {n : Nat} (h : n < 10) : natChars n = [Nat.digitChar n] := by
  simp only [natChars, natCharsAux]
  rw [if_pos h]

theorem natChars_ge10 {n : Nat} (h : ¬ n < 10) :
    natChars n = natChars (n / 10) ++ [Nat.digitChar (n % 10)] := by
  have hd : n / 10 < n := Nat.div_lt_self (by omega) (by norm_num)
  show natCharsAux (n + 1) n = _
  simp only [natCharsAux]
  rw [if_neg h, natCharsAux_irrel n (n / 10 + 1) (n / 10) (by omega) (by omega)]
  rfl

theorem digitChar_isDigit {d : Nat} (h : d < 10) : (Nat.digitChar d).isDigit = true := by
  interval_cases d <;> rfl

theorem digitVal_digitChar {d : Nat} (h : d < 10) : digitVal (Nat.digitChar d) = d := by
  interval_cases d <;> rfl

theorem digitChar_ne_zero {d : Nat} (h0 : 0 < d) (h : d < 10) : Nat.digitChar d ≠ '0' := by
  interval_cases d <;> decide

theorem natChars_ne_nil (n : Nat) : natChars n ≠ [] := by
  by_cases h : n < 10
  · rw [natChars_lt10 h]; simp
  · rw [natChars_ge10 h]; simp

theorem natChars_all_digits (n : Nat) : ∀ c ∈ natChars n, c.isDigit = true := by
  induction n using Nat.strong_induction_on with
  | _ n ih =>
    by_cases h : n < 10
    · rw [natChars_lt10 h]
      intro c hc
      rw [List.mem_singleton] at hc
      subst hc
      exact digitChar_isDigit h
    · rw [natChars_ge10 h]
      intro c hc
      rcases List.mem_append.mp hc with h1 | h2
      · exact ih (n / 10) (Nat.div_lt_self (by omega) (by norm_num)) c h1
      · rw [List.mem_singleton] at h2
        subst h2
        exact digitChar_isDigit (Nat.mod_lt n (by norm_num))

theorem natChars_head_ne_zero (n : Nat) : 0 < n →
    ∀ c, (natChars n).head? = some c → c ≠ '0' := by
  induction n using Nat.strong_induction_on with
  | _ n ih =>
    intro h0 c hc
    by_cases h : n < 10
    · rw [natChars_lt10 h] at hc
      simp only [List.head?] at hc
      cases hc
      exact digitChar_ne_zero h0 h
    · rw [natChars_ge10 h] at hc
      cases hx : natChars (n / 10) with
      | nil => exact absurd hx (natChars_ne_nil _)
      | cons c0 t0 =>
        rw [hx] at hc
        simp only [List.cons_append, List.head?, Option.some.injEq] at hc
        subst hc
        have hq : 0 < n / 10 := by
          have := Nat.div_le_div_right (c := 10) (show 10 <= n by omega)
          simpa using this
        exact ih (n / 10) (Nat.div_lt_self (by omega) (by norm_num)) hq _ (by rw [hx]; rfl)

theorem natChars_foldl (n : Nat) : ∀ acc : Nat,
    (natChars n).foldl (fun a c => a * 10 + digitVal c) acc =
      acc * 10 ^ (natChars n).length + n := by
  induction n using Nat.strong_induction_on with
  | _ n ih =>
    intro acc
    by_cases h : n < 10
    · rw [natChars_lt10 h]
      simp [List.foldl, digitVal_digitChar h]
    · rw [natChars_ge10 h, List.foldl_append]
      rw [ih (n / 10) (Nat.div_lt_self (by omega) (by norm_num)) acc]
      simp only [List.foldl, List.length_append, List.length_singleton]
      rw [digitVal_digitChar (Nat.mod_lt n (by norm_num))]
      rw [pow_succ, ← mul_assoc]
      generalize acc * 10 ^ (natChars (n / 10)).length = X
      omega

theorem takeWhile_append_all {p : Char → Bool} (l r : List Char)
    (h : ∀ c ∈ l, p c = true) : (l ++ r).takeWhile p = l ++ r.takeWhile p := by
  induction l with
  | nil => rfl
  | cons c t ih =>
    simp only [List.cons_append, List.takeWhile_cons, h c (List.mem_cons_self c t), if_true]
    rw [ih fun x hx => h x (List.mem_cons_of_mem c hx)]

theorem dropWhile_append_all {p : Char → Bool} (l r : List Char)
    (h : ∀ c ∈ l, p c = true) : (l ++ r).dropWhile p = r.dropWhile p := by
  induction l with
  | nil => rfl
  | cons c t ih =>
    simp only [List.cons_append, List.dropWhile_cons, h c (List.mem_cons_self c t)]
    simp only [if_true]
    exact ih fun x hx => h x (List.mem_cons_of_mem c hx)

theorem takeWhile_head_false {p : Char → Bool} {r : List Char}
    (h : ∀ c, r.head? = some c → p c = false) : r.takeWhile p = [] := by
  cases r with
  | nil => rfl
  | cons c t => simp [List.takeWhile_cons, h c rfl]

theorem dropWhile_head_false {p : Char → Bool} {r : List Char}
    (h : ∀ c, r.head? = some c → p c = false) : r.dropWhile p = r := by
  cases r with
  | nil => rfl
  | cons c t => simp [List.dropWhile_cons, h c rfl]

theorem floatGuard_ok {n : Nat} {rest : List Char} (hb : numBoundary rest) :
    floatGuard n rest = .ok (n, rest) := by
  cases rest with
  | nil => rfl
  | cons c r =>
    obtain ⟨_, h1, h2, h3⟩ := hb c rfl
    simp [floatGuard, h1, h2, h3]

theorem numBoundary_digit_false {rest : List Char} (hb : numBoundary rest) :
    ∀ c, rest.head? = some c → Char.isDigit c = false :=
  fun c hc => (hb c hc).1

theorem parseNum_natChars (n : Nat) (rest : List Char) (hb : numBoundary rest) :
    parseNum (natChars n ++ rest) = .ok (n, rest) := by
  by_cases h : n < 10
  · rw [natChars_lt10 h]
    rcases Nat.eq_zero_or_pos n with rfl | hpos
    · show parseNum ('0' :: rest) = _
      simp only [parseNum, if_pos rfl]
      exact floatGuard_ok hb
    · have hne : Nat.digitChar n ≠ '0' := digitChar_ne_zero hpos h
      have hdig : (Nat.digitChar n).isDigit = true := digitChar_isDigit h
      show parseNum (Nat.digitChar n :: rest) = _
      simp only [parseNum]
      rw [if_neg hne, if_pos hdig]
      rw [takeWhile_head_false (numBoundary_digit_false hb),
        dropWhile_head_false (numBoundary_digit_false hb)]
      simp only [List.foldl, Nat.zero_mul, Nat.zero_add]
      rw [digitVal_digitChar h]
      exact floatGuard_ok hb
  · obtain ⟨c, ds, hx⟩ : ∃ c ds, natChars n = c :: ds := by
      cases hnc : natChars n with
      | nil => exact absurd hnc (natChars_ne_nil n)
      | cons c ds => exact ⟨c, ds, rfl⟩
    have hcne : c ≠ '0' := natChars_head_ne_zero n (by omega) c (by rw [hx]; rfl)
    have hcdig : c.isDigit = true :=
      natChars_all_digits n c (by rw [hx]; exact List.mem_cons_self c ds)
    have hdsdig : ∀ x ∈ ds, x.isDigit = true := fun x hxm =>
      natChars_all_digits n x (by rw [hx]; exact List.mem_cons_of_mem c hxm)
    rw [hx, List.cons_append]
    simp only [parseNum]
    rw [if_neg hcne, if_pos hcdig]
    rw [takeWhile_append_all ds rest hdsdig,
      takeWhile_head_false (numBoundary_digit_false hb),
      dropWhile_append_all ds rest hdsdig,
      dropWhile_head_false (numBoundary_digit_false hb), List.append_nil]
    have hfold : (c :: ds).foldl (fun a d => a * 10 + digitVal d) 0 = n := by
      have := natChars_foldl n 0
      rw [hx] at this
      simpa using this
    rw [hfold]
    exact floatGuard_ok hb


/-! Lemmas on hex escapes and the JSON string scanner. -/

theorem hexVal_digitChar {d : Nat} (h : d < 16) : hexVal (Nat.digitChar d) = some d := by
  interval_cases d <;> rfl

theorem hex4Val_encode {n : Nat} (h : n < 65536) :
    hex4Val (Nat.digitChar (n / 4096 % 16)) (Nat.digitChar (n / 256 % 16))
      (Nat.digitChar (n / 16 % 16)) (Nat.digitChar (n % 16)) = some n := by
  rw [hex4Val, hexVal_digitChar (Nat.mod_lt _ (by norm_num)),
    hexVal_digitChar (Nat.mod_lt _ (by norm_num)),
    hexVal_digitChar (Nat.mod_lt _ (by norm_num)),
    hexVal_digitChar (Nat.mod_lt _ (by norm_num))]
  show some _ = some n
  congr 1
  omega

theorem char_toNat_lt (c : Char) : c.toNat < 1114112 := by
  rcases c.valid with h | ⟨_, h2⟩
  · have : c.toNat < 55296 := by exact_mod_cast h
    omega
  · exact_mod_cast h2

theorem char_not_surrogate (c : Char) : c.toNat < 55296 ∨ 57343 < c.toNat := by
  rcases c.valid with h | ⟨h1, _⟩
  · left; exact_mod_cast h
  · right; exact_mod_cast h1



theorem parseStr_u_bmp (c1 c2 c3 c4 : Char) (t : List Char) {n : Nat}
    (hv : hex4Val c1 c2 c3 c4 = some n) (hr : n < 55296 ∨ 57343 < n) :
    parseStr ('\\' :: 'u' :: c1 :: c2 :: c3 :: c4 :: t) =
      (do let rr ← parseStr t; Except.ok (Char.ofNat n :: rr.1, rr.2)) := by
  conv_lhs => rw [parseStr.eq_def]; whnf
  rw [hv]
  dsimp only
  rw [if_pos hr]

theorem parseStr_u_pair (c1 c2 c3 c4 d1 d2 d3 d4 : Char) (t : List Char) {n m : Nat}
    (hv1 : hex4Val c1 c2 c3 c4 = some n) (hn1 : 55296 ≤ n) (hn2 : n < 56320)
    (hv2 : hex4Val d1 d2 d3 d4 = some m) (hm1 : 56320 ≤ m) (hm2 : m ≤ 57343) :
    parseStr ('\\' :: 'u' :: c1 :: c2 :: c3 :: c4 ::
        '\\' :: 'u' :: d1 :: d2 :: d3 :: d4 :: t) =
      (do let rr ← parseStr t;
          Except.ok (Char.ofNat (65536 + (n - 55296) * 1024 + (m - 56320)) :: rr.1, rr.2)) := by
  conv_lhs => rw [parseStr.eq_def]; whnf
  rw [hv1]
  dsimp only
  rw [if_neg (by omega), if_pos hn2]
  conv_lhs => whnf
  rw [hv2]
  dsimp only
  rw [if_pos ⟨hm1, hm2⟩]

theorem parseStr_escChar (c : Char) (X : List Char) (a : List Char) (b : List Char)
    (h : parseStr X = .ok (a, b)) :
    parseStr (escChar c ++ X) = .ok (c :: a, b) := by
  unfold escChar
  by_cases h1 : c = '"'
  · subst h1
    rw [if_pos rfl]
    show parseStr ('\\' :: '"' :: X) = _
    have e : parseStr ('\\' :: '"' :: X) =
        (do let rr ← parseStr X; Except.ok ('"' :: rr.1, rr.2)) := rfl
    rw [e, h]
    rfl
  rw [if_neg h1]
  by_cases h2 : c = '\\'
  · subst h2
    rw [if_pos rfl]
    show parseStr ('\\' :: '\\' :: X) = _
    have e : parseStr ('\\' :: '\\' :: X) =
        (do let rr ← parseStr X; Except.ok ('\\' :: rr.1, rr.2)) := rfl
    rw [e, h]
    rfl
  rw [if_neg h2]
  by_cases h3 : c = '\n'
  · subst h3
    rw [if_pos rfl]
    show parseStr ('\\' :: 'n' :: X) = _
    have e : parseStr ('\\' :: 'n' :: X) =
        (do let rr ← parseStr X; Except.ok ('\n' :: rr.1, rr.2)) := rfl
    rw [e, h]
    rfl
  rw [if_neg h3]
  by_cases h4 : c = '\r'
  · subst h4
    rw [if_pos rfl]
    show parseStr ('\\' :: 'r' :: X) = _
    have e : parseStr ('\\' :: 'r' :: X) =
        (do let rr ← parseStr X; Except.ok ('\r' :: rr.1, rr.2)) := rfl
    rw [e, h]
    rfl
  rw [if_neg h4]
  by_cases h5 : c = '\t'
  · subst h5
    rw [if_pos rfl]
    show parseStr ('\\' :: 't' :: X) = _
    have e : parseStr ('\\' :: 't' :: X) =
        (do let rr ← parseStr X; Except.ok ('\t' :: rr.1, rr.2)) := rfl
    rw [e, h]
    rfl
  rw [if_neg h5]
  by_cases h6 : c.toNat = 8
  · rw [if_pos h6]
    have hc : c = Char.ofNat 8 := by
      rw [← h6, Char.ofNat_toNat]
    show parseStr ('\\' :: 'b' :: X) = _
    have e : parseStr ('\\' :: 'b' :: X) =
        (do let rr ← parseStr X; Except.ok (Char.ofNat 8 :: rr.1, rr.2)) := rfl
    rw [e, h, hc]
    rfl
  rw [if_neg h6]
  by_cases h7 : c.toNat = 12
  · rw [if_pos h7]
    have hc : c = Char.ofNat 12 := by
      rw [← h7, Char.ofNat_toNat]
    show parseStr ('\\' :: 'f' :: X) = _
    have e : parseStr ('\\' :: 'f' :: X) =
        (do let rr ← parseStr X; Except.ok (Char.ofNat 12 :: rr.1, rr.2)) := rfl
    rw [e, h, hc]
    rfl
  rw [if_neg h7]
  by_cases h8 : 32 ≤ c.toNat ∧ c.toNat < 127
  · rw [if_pos h8]
    show parseStr (c :: X) = _
    rw [parseStr.eq_def]
    split
    · simp_all
    · rename_i heq
      injection heq with hc _
      exact absurd hc h1
    · rename_i heq
      injection heq with hc _
      exact absurd hc h2
    · rename_i heq
      injection heq with hc _
      exact absurd hc h2
    · rename_i c' t' heq
      injection heq with hc ht
      subst hc
      subst ht
      rw [if_neg (by omega)]
      rw [h]
      rfl
  rw [if_neg h8]
  by_cases h9 : c.toNat < 65536
  · rw [if_pos h9]
    show parseStr ('\\' :: 'u' :: Nat.digitChar (c.toNat / 4096 % 16) ::
      Nat.digitChar (c.toNat / 256 % 16) :: Nat.digitChar (c.toNat / 16 % 16) ::
      Nat.digitChar (c.toNat % 16) :: X) = _
    rw [parseStr_u_bmp _ _ _ _ X (hex4Val_encode h9) (char_not_surrogate c), h,
      Char.ofNat_toNat]
    rfl
  · rw [if_neg h9]
    have hlt := char_toNat_lt c
    show parseStr ('\\' :: 'u' ::
      Nat.digitChar ((55296 + (c.toNat - 65536) / 1024) / 4096 % 16) ::
      Nat.digitChar ((55296 + (c.toNat - 65536) / 1024) / 256 % 16) ::
      Nat.digitChar ((55296 + (c.toNat - 65536) / 1024) / 16 % 16) ::
      Nat.digitChar ((55296 + (c.toNat - 65536) / 1024) % 16) :: '\\' :: 'u' ::
      Nat.digitChar ((56320 + (c.toNat - 65536) % 1024) / 4096 % 16) ::
      Nat.digitChar ((56320 + (c.toNat - 65536) % 1024) / 256 % 16) ::
      Nat.digitChar ((56320 + (c.toNat - 65536) % 1024) / 16 % 16) ::
      Nat.digitChar ((56320 + (c.toNat - 65536) % 1024) % 16) :: X) = _
    rw [parseStr_u_pair _ _ _ _ _ _ _ _ X
      (@hex4Val_encode (55296 + (c.toNat - 65536) / 1024) (by omega))
      (by omega) (by omega)
      (@hex4Val_encode (56320 + (c.toNat - 65536) % 1024) (by omega))
      (by omega) (by omega), h]
    have : 65536 + (55296 + (c.toNat - 65536) / 1024 - 55296) * 1024 +
        (56320 + (c.toNat - 65536) % 1024 - 56320) = c.toNat := by omega
    rw [this, Char.ofNat_toNat]
    rfl



theorem parseStr_escape (t : List Char) : ∀ rest : List Char,
    parseStr (t.flatMap escChar ++ '"' :: rest) = .ok (t, rest) := by
  induction t with
  | nil => intro rest; rfl
  | cons c t ih =>
    intro rest
    rw [List.flatMap_cons, List.append_assoc]
    exact parseStr_escChar c _ t rest (ih rest)

/-! Stepping lemmas for the value parser, and boundary facts. -/

theorem numBoundary_nil : numBoundary [] := fun c hc => by cases hc

theorem numBoundary_comma (r : List Char) : numBoundary (',' :: r) := by
  intro c hc
  cases hc
  refine ⟨by decide, by decide, by decide, by decide⟩

theorem numBoundary_rbracket (r : List Char) : numBoundary (']' :: r) := by
  intro c hc
  cases hc
  refine ⟨by decide, by decide, by decide, by decide⟩

theorem numBoundary_rbrace (r : List Char) : numBoundary ('}' :: r) := by
  intro c hc
  cases hc
  refine ⟨by decide, by decide, by decide, by decide⟩

theorem parseVal_quote (f : Nat) (X : List Char) :
    parseVal (f + 1) ('"' :: X) =
      (do
        let rr ← parseStr X
        Except.ok (JVal.s rr.1, rr.2)) := rfl

theorem parseVal_openBrace (f : Nat) (X : List Char) :
    parseVal (f + 1) ('{' :: X) =
      (match skipJWs X with
       | '}' :: r => .ok (.obj [], r)
       | u => parseObjItems f [] u) := rfl

theorem parseVal_openBracket (f : Nat) (X : List Char) :
    parseVal (f + 1) ('[' :: X) =
      (match skipJWs X with
       | ']' :: r => .ok (.arr [], r)
       | u => parseArrItems f [] u) := rfl

theorem parseVal_dash (f : Nat) (X : List Char) :
    parseVal (f + 1) ('-' :: X) =
      (do
        let rr ← parseNum X
        Except.ok (JVal.i (-(rr.1 : Int)), rr.2)) := rfl

theorem isDigit_toNat {c : Char} (h : c.isDigit = true) :
    48 ≤ c.toNat ∧ c.toNat ≤ 57 := by
  simp only [Char.isDigit, ge_iff_le, Bool.and_eq_true, decide_eq_true_eq] at h
  constructor
  · exact_mod_cast h.1
  · exact_mod_cast h.2

theorem parseVal_digit (f : Nat) (X : List Char) (c : Char) (h : c.isDigit = true) :
    parseVal (f + 1) (c :: X) =
      (do
        let rr ← parseNum (c :: X)
        Except.ok (JVal.i (rr.1 : Int), rr.2)) := by
  have hn := isDigit_toNat h
  have h1 : ¬ c = '"' := fun he => by subst he; simp at hn
  have h2 : ¬ c = '{' := fun he => by subst he; simp at hn
  have h3 : ¬ c = '[' := fun he => by subst he; simp at hn
  have h4 : ¬ c = 'n' := fun he => by subst he; simp at hn
  have h5 : ¬ c = 't' := fun he => by subst he; simp at hn
  have h6 : ¬ c = 'f' := fun he => by subst he; simp at hn
  have h7 : ¬ c = '-' := fun he => by subst he; simp at hn
  rw [parseVal.eq_def]
  dsimp only
  rw [if_neg h1, if_neg h2, if_neg h3, if_neg h4, if_neg h5, if_neg h6, if_neg h7,
    if_pos h]

theorem digit_facts {c : Char} (h : c.isDigit = true) :
    isJWs c = false ∧ isPyWs c = false ∧ c ≠ ']' ∧ c ≠ '}' := by
  have hn := isDigit_toNat h
  refine ⟨?_, ?_, ?_, ?_⟩
  · rw [Bool.eq_false_iff]
    intro hw
    unfold isJWs at hw
    simp only [Bool.or_eq_true, decide_eq_true_eq] at hw
    rcases hw with ((he | he) | he) | he <;> (subst he; exact absurd hn (by decide))
  · rw [Bool.eq_false_iff]
    intro hw
    unfold isPyWs at hw
    simp only [Bool.or_eq_true, Bool.and_eq_true, decide_eq_true_eq] at hw
    rcases hw with (((((((((((((((he|he)|he)|he)|he)|he)|he)|he)|he)|he)|he)|he)|he)|he)|he)|he)
    all_goals first
      | (subst he; exact absurd hn (by decide))
      | omega
  · intro he; subst he; exact absurd hn (by decide)
  · intro he; subst he; exact absurd hn (by decide)

theorem dumps_head (v : JVal) : ∃ c t', dumps v = c :: t' ∧
    isJWs c = false ∧ isPyWs c = false ∧ c ≠ ']' ∧ c ≠ '}' := by
  cases v with
  | null => exact ⟨'n', _, rfl, by decide, by decide, by decide, by decide⟩
  | b bb => cases bb with
    | true => exact ⟨'t', _, rfl, by decide, by decide, by decide, by decide⟩
    | false => exact ⟨'f', _, rfl, by decide, by decide, by decide, by decide⟩
  | i n =>
    cases n with
    | ofNat m =>
      obtain ⟨c, ds, hx⟩ : ∃ c ds, natChars m = c :: ds := by
        cases hnc : natChars m with
        | nil => exact absurd hnc (natChars_ne_nil m)
        | cons c ds => exact ⟨c, ds, rfl⟩
      have hdig : c.isDigit = true :=
        natChars_all_digits m c (by rw [hx]; exact List.mem_cons_self c ds)
      obtain ⟨f1, f2, f3, f4⟩ := digit_facts hdig
      exact ⟨c, ds, hx, f1, f2, f3, f4⟩
    | negSucc m =>
      exact ⟨'-', _, rfl, by decide, by decide, by decide, by decide⟩
  | s t => exact ⟨'"', _, rfl, by decide, by decide, by decide, by decide⟩
  | arr l => exact ⟨'[', _, rfl, by decide, by decide, by decide, by decide⟩
  | obj kvs => exact ⟨'{', _, rfl, by decide, by decide, by decide, by decide⟩

theorem dumpsArr_cons_start (v : JVal) (vs : List JVal) :
    ∃ X, dumpsArr (v :: vs) = dumps v ++ X := by
  cases vs with
  | nil => exact ⟨[], (List.append_nil _).symm⟩
  | cons w ws => exact ⟨_, rfl⟩

theorem parseArrItems_succ (g : Nat) (acc : List JVal) (s : List Char) :
    parseArrItems (g + 1) acc s =
      (do
        let rr ← parseVal g s
        match skipJWs rr.2 with
        | ',' :: r2 => parseArrItems g (acc ++ [rr.1]) (skipJWs r2)
        | ']' :: r2 => .ok (.arr (acc ++ [rr.1]), r2)
        | _ => .error .jsonDecodeError) := rfl

theorem parseObjItems_quote (g : Nat) (acc : List (List Char × JVal)) (t : List Char) :
    parseObjItems (g + 1) acc ('"' :: t) =
      (do
        let kr ← parseStr t
        match skipJWs kr.2 with
        | ':' :: r2 => do
          let vr ← parseVal g (skipJWs r2)
          match skipJWs vr.2 with
          | ',' :: r4 => parseObjItems g (objInsert acc kr.1 vr.1) (skipJWs r4)
          | '}' :: r4 => .ok (.obj (objInsert acc kr.1 vr.1), r4)
          | _ => .error .jsonDecodeError
        | _ => .error .jsonDecodeError) := rfl

theorem objInsert_append {acc : List (List Char × JVal)} {k : List Char} {v : JVal}
    (h : ∀ p ∈ acc, p.1 ≠ k) : objInsert acc k v = acc ++ [(k, v)] := by
  induction acc with
  | nil => rfl
  | cons p t ih =>
    obtain ⟨k', v'⟩ := p
    simp only [objInsert]
    rw [if_neg (h (k', v') (List.mem_cons_self _ _))]
    rw [ih fun q hq => h q (List.mem_cons_of_mem _ hq)]
    rfl

theorem keysFresh_split {acc tl : List (List Char × JVal)} {k : List Char} {v : JVal}
    (h : keysFresh (acc ++ (k, v) :: tl) = true) : ∀ p ∈ acc, p.1 ≠ k := by
  induction acc with
  | nil => intro p hp; cases hp
  | cons q t ih =>
    obtain ⟨k0, v0⟩ := q
    simp only [List.cons_append, keysFresh, Bool.and_eq_true, Bool.not_eq_true'] at h
    obtain ⟨h1, h2⟩ := h
    rw [List.append_eq] at h1 h2
    intro p hp
    rcases List.mem_cons.mp hp with heq | hp'
    · subst heq
      intro he
      have hany : (t ++ (k, v) :: tl).any (fun q => q.1 == k0) = true := by
        rw [List.any_eq_true]
        refine ⟨(k, v), by simp, ?_⟩
        simp only [beq_iff_eq]
        exact he.symm
      rw [hany] at h1
      simp at h1
    · exact ih h2 p hp'

theorem skipJWs_space {Y : List Char} (h : ∀ c, Y.head? = some c → isJWs c = false) :
    skipJWs (' ' :: Y) = Y := by
  show List.dropWhile isJWs (' ' :: Y) = Y
  rw [List.dropWhile_cons, if_pos (by decide)]
  exact dropWhile_head_false h

theorem dumps_append_head {v : JVal} (Y : List Char) :
    ∀ c, (dumps v ++ Y).head? = some c → isJWs c = false ∧ c ≠ ']' ∧ c ≠ '}' := by
  obtain ⟨c0, t0, hx, hws, _, hb1, hb2⟩ := dumps_head v
  intro c hc
  rw [hx, List.cons_append] at hc
  cases hc
  exact ⟨hws, hb1, hb2⟩

theorem dumpsArr_cons_append_head {v : JVal} {vs : List JVal} (Y : List Char) :
    ∀ c, (dumpsArr (v :: vs) ++ Y).head? = some c →
      isJWs c = false ∧ c ≠ ']' ∧ c ≠ '}' := by
  obtain ⟨X, hX⟩ := dumpsArr_cons_start v vs
  intro c hc
  rw [hX, List.append_assoc] at hc
  exact dumps_append_head _ c hc

/-- Serialized well-formed values parse back to themselves, with any legal
trailing text untouched. -/
theorem parseVal_dumps_aux : ∀ (k : Nat) (v : JVal), sizeOf v ≤ k → jwf v = true →
    ∀ (fuel : Nat) (rest : List Char), jfuel v ≤ fuel → numBoundary rest →
      parseVal fuel (dumps v ++ rest) = .ok (v, rest) := by
  intro k
  induction k with
  | zero =>
    intro v hs
    exfalso
    cases v <;> simp at hs
  | succ k ih =>
    intro v hs hwf fuel rest hfuel hb
    obtain ⟨f, rfl⟩ : ∃ f, fuel = f + 1 := by
      cases fuel with
      | zero => exfalso; cases v <;> simp [jfuel] at hfuel
      | succ f => exact ⟨f, rfl⟩
    cases v with
    | null => rfl
    | b bb => cases bb <;> rfl
    | i n =>
      cases n with
      | ofNat m =>
        obtain ⟨c, ds, hx⟩ : ∃ c ds, natChars m = c :: ds := by
          cases hnc : natChars m with
          | nil => exact absurd hnc (natChars_ne_nil m)
          | cons c ds => exact ⟨c, ds, rfl⟩
        have hdig : c.isDigit = true :=
          natChars_all_digits m c (by rw [hx]; exact List.mem_cons_self c ds)
        show parseVal (f + 1) (natChars m ++ rest) = _
        rw [hx, List.cons_append, parseVal_digit f _ c hdig, ← List.cons_append, ← hx,
          parseNum_natChars m rest hb]
        rfl
      | negSucc m =>
        show parseVal (f + 1) ('-' :: (natChars (m + 1) ++ rest)) = _
        rw [parseVal_dash, parseNum_natChars (m + 1) rest hb, ebind_ok]
        dsimp only
        have harith : (-((m + 1 : Nat) : Int)) = Int.negSucc m := by
          rw [Int.negSucc_eq]
          push_cast
          ring
        rw [harith]
    | s t =>
      show parseVal (f + 1) (('"' :: (t.flatMap escChar ++ ['"'])) ++ rest) = _
      rw [List.cons_append, List.append_assoc, List.singleton_append,
        parseVal_quote, parseStr_escape]
      rfl
    | arr l =>
      cases l with
      | nil => rfl
      | cons v vs =>
        have hsl : ∀ x ∈ v :: vs, sizeOf x ≤ k := by
          intro x hxm
          have h1 : sizeOf x < sizeOf (v :: vs) := List.sizeOf_lt_of_mem hxm
          have h2 : sizeOf (JVal.arr (v :: vs)) = 1 + sizeOf (v :: vs) := by simp
          omega
        have hjw : jwfArr (v :: vs) = true := by simpa [jwf] using hwf
        have hjf : jfuelArr (v :: vs) ≤ f := by
          simp only [jfuel] at hfuel
          omega
        have loop : ∀ (ls : List JVal), ls ≠ [] →
            (∀ x ∈ ls, sizeOf x ≤ k) → jwfArr ls = true →
            ∀ (acc : List JVal) (g : Nat) (rst : List Char), jfuelArr ls ≤ g →
              numBoundary rst →
              parseArrItems g acc (dumpsArr ls ++ ']' :: rst) =
                .ok (.arr (acc ++ ls), rst) := by
          intro ls
          induction ls with
          | nil => intro hne; exact absurd rfl hne
          | cons w ws ihl =>
            intro _ hsz hw acc g rst hg hbs
            obtain ⟨g', rfl⟩ : ∃ g0, g = g0 + 1 := by
              cases g with
              | zero => exfalso; simp [jfuelArr] at hg
              | succ g0 => exact ⟨g0, rfl⟩
            have hwparts : jwf w = true ∧ jwfArr ws = true := by
              simpa [jwfArr, Bool.and_eq_true] using hw
            have hfw : jfuel w ≤ g' := by
              simp only [jfuelArr] at hg
              omega
            cases ws with
            | nil =>
              show parseArrItems (g' + 1) acc (dumps w ++ ']' :: rst) = _
              rw [parseArrItems_succ,
                ih w (hsz w (List.mem_cons_self _ _)) hwparts.1 g' (']' :: rst) hfw
                  (numBoundary_rbracket rst), ebind_ok]
              rfl
            | cons w2 ws2 =>
              show parseArrItems (g' + 1) acc
                ((dumps w ++ ',' :: ' ' :: dumpsArr (w2 :: ws2)) ++ ']' :: rst) = _
              rw [List.append_assoc, List.cons_append, List.cons_append,
                parseArrItems_succ,
                ih w (hsz w (List.mem_cons_self _ _)) hwparts.1 g' _ hfw
                  (numBoundary_comma _), ebind_ok]
              dsimp only
              have hskip : skipJWs (' ' :: (dumpsArr (w2 :: ws2) ++ ']' :: rst)) =
                  dumpsArr (w2 :: ws2) ++ ']' :: rst :=
                skipJWs_space fun c hc => (dumpsArr_cons_append_head _ c hc).1
              show parseArrItems g' (acc ++ [w])
                  (skipJWs (' ' :: (dumpsArr (w2 :: ws2) ++ ']' :: rst))) = _
              rw [hskip,
                ihl (List.cons_ne_nil _ _)
                  (fun x hxm => hsz x (List.mem_cons_of_mem _ hxm)) hwparts.2
                  (acc ++ [w]) g' rst (by simp only [jfuelArr] at hg ⊢; omega) hbs]
              simp
        show parseVal (f + 1) (('[' :: (dumpsArr (v :: vs) ++ [']'])) ++ rest) = _
        rw [List.cons_append, List.append_assoc, List.singleton_append,
          parseVal_openBracket]
        have hskip : skipJWs (dumpsArr (v :: vs) ++ ']' :: rest) =
            dumpsArr (v :: vs) ++ ']' :: rest :=
          dropWhile_head_false fun c hc => (dumpsArr_cons_append_head _ c hc).1
        rw [hskip]
        split
        · rename_i r heq
          obtain ⟨X, hX⟩ := dumpsArr_cons_start v vs
          obtain ⟨c0, t0, hx0, _, _, hb1, _⟩ := dumps_head v
          rw [hX, hx0, List.append_assoc, List.cons_append] at heq
          injection heq with hc0 _
          exact absurd hc0 hb1
        · rename_i u hne
          rw [loop (v :: vs) (List.cons_ne_nil _ _) hsl hjw [] f rest hjf hb]
          simp
    | obj kvs =>
      cases kvs with
      | nil => rfl
      | cons e es =>
        obtain ⟨k0, w0⟩ := e
        have hsl : ∀ p ∈ (k0, w0) :: es, sizeOf (Prod.snd p) ≤ k := by
          intro p hpm
          have h1 : sizeOf p < sizeOf ((k0, w0) :: es) := List.sizeOf_lt_of_mem hpm
          have h2 : sizeOf (JVal.obj ((k0, w0) :: es)) = 1 + sizeOf ((k0, w0) :: es) := by
            simp
          have h3 : sizeOf p.2 < sizeOf p := by
            obtain ⟨a, b⟩ := p
            simp
          omega
        have hwparts : keysFresh ((k0, w0) :: es) = true ∧ jwfObj ((k0, w0) :: es) = true := by
          simpa [jwf, Bool.and_eq_true] using hwf
        have hjf : jfuelObj ((k0, w0) :: es) ≤ f := by
          simp only [jfuel] at hfuel
          omega
        have loop : ∀ (ls : List (List Char × JVal)), ls ≠ [] →
            (∀ p ∈ ls, sizeOf (Prod.snd p) ≤ k) → jwfObj ls = true →
            ∀ (acc : List (List Char × JVal)) (g : Nat) (rst : List Char),
              keysFresh (acc ++ ls) = true → jfuelObj ls ≤ g → numBoundary rst →
              parseObjItems g acc (dumpsObj ls ++ '}' :: rst) =
                .ok (.obj (acc ++ ls), rst) := by
          intro ls
          induction ls with
          | nil => intro hne; exact absurd rfl hne
          | cons pr ws ihl =>
            obtain ⟨kk, ww⟩ := pr
            intro _ hsz hw acc g rst hfr hg hbs
            obtain ⟨g', rfl⟩ : ∃ g0, g = g0 + 1 := by
              cases g with
              | zero => exfalso; simp [jfuelObj] at hg
              | succ g0 => exact ⟨g0, rfl⟩
            have hwparts' : jwf ww = true ∧ jwfObj ws = true := by
              simpa [jwfObj, Bool.and_eq_true] using hw
            have hfw : jfuel ww ≤ g' := by
              simp only [jfuelObj] at hg
              omega
            have hins : objInsert acc kk ww = acc ++ [(kk, ww)] :=
              objInsert_append (keysFresh_split hfr)
            cases ws with
            | nil =>
              show parseObjItems (g' + 1) acc
                (('"' :: (kk.flatMap escChar ++ '"' :: ':' :: ' ' :: dumps ww)) ++
                  '}' :: rst) = _
              rw [List.cons_append, parseObjItems_quote]
              simp only [List.cons_append, List.append_assoc]
              rw [parseStr_escape, ebind_ok]
              dsimp only
              have hskip : skipJWs (' ' :: (dumps ww ++ '}' :: rst)) =
                  dumps ww ++ '}' :: rst :=
                skipJWs_space fun c hc => (dumps_append_head _ c hc).1
              show (do
                  let vr ← parseVal g' (skipJWs (' ' :: (dumps ww ++ '}' :: rst)))
                  match skipJWs vr.2 with
                  | ',' :: r4 => parseObjItems g' (objInsert acc kk vr.1) (skipJWs r4)
                  | '}' :: r4 => Except.ok (.obj (objInsert acc kk vr.1), r4)
                  | _ => Except.error PyErr.jsonDecodeError) = _
              rw [hskip,
                ih ww (hsz (kk, ww) (List.mem_cons_self _ _)) hwparts'.1 g' _ hfw
                  (numBoundary_rbrace rst), ebind_ok]
              dsimp only
              rw [hins]
              rfl
            | cons pr2 ws2 =>
              obtain ⟨k2, w2⟩ := pr2
              show parseObjItems (g' + 1) acc
                (('"' :: (kk.flatMap escChar ++ '"' :: ':' :: ' ' :: dumps ww ++
                  ',' :: ' ' :: dumpsObj ((k2, w2) :: ws2))) ++ '}' :: rst) = _
              rw [List.cons_append, parseObjItems_quote]
              simp only [List.cons_append, List.append_assoc]
              rw [parseStr_escape, ebind_ok]
              dsimp only
              have hskip : skipJWs (' ' :: (dumps ww ++
                  ',' :: ' ' :: (dumpsObj ((k2, w2) :: ws2) ++ '}' :: rst))) =
                  dumps ww ++ ',' :: ' ' :: (dumpsObj ((k2, w2) :: ws2) ++ '}' :: rst) := by
                apply skipJWs_space
                intro c hc
                exact (dumps_append_head _ c hc).1
              show (do
                  let vr ← parseVal g' (skipJWs (' ' :: (dumps ww ++
                    ',' :: ' ' :: (dumpsObj ((k2, w2) :: ws2) ++ '}' :: rst))))
                  match skipJWs vr.2 with
                  | ',' :: r4 => parseObjItems g' (objInsert acc kk vr.1) (skipJWs r4)
                  | '}' :: r4 => Except.ok (.obj (objInsert acc kk vr.1), r4)
                  | _ => Except.error PyErr.jsonDecodeError) = _
              rw [hskip,
                ih ww (hsz (kk, ww) (List.mem_cons_self _ _)) hwparts'.1 g' _ hfw
                  (numBoundary_comma _), ebind_ok]
              dsimp only
              have hskip2 : skipJWs (' ' :: (dumpsObj ((k2, w2) :: ws2) ++ '}' :: rst)) =
                  dumpsObj ((k2, w2) :: ws2) ++ '}' :: rst := by
                apply skipJWs_space
                intro c hc
                have : dumpsObj ((k2, w2) :: ws2) ++ '}' :: rst =
                    '"' :: ((if ws2.isEmpty then [] else []) ++ ((dumpsObj ((k2, w2) :: ws2)).tail ++ '}' :: rst)) := by
                  cases ws2 <;> simp [dumpsObj]
                rw [this] at hc
                cases hc
                decide
              show parseObjItems g' (objInsert acc kk ww)
                  (skipJWs (' ' :: (dumpsObj ((k2, w2) :: ws2) ++ '}' :: rst))) = _
              rw [hskip2, hins,
                ihl (List.cons_ne_nil _ _)
                  (fun p hpm => hsz p (List.mem_cons_of_mem _ hpm)) hwparts'.2
                  (acc ++ [(kk, ww)]) g' rst
                  (by rw [List.append_assoc, List.singleton_append]; exact hfr)
                  (by simp only [jfuelObj] at hg ⊢; omega) hbs]
              simp
        obtain ⟨Xd, hXd⟩ : ∃ X, dumpsObj ((k0, w0) :: es) = '"' :: X := by
          cases es with
          | nil => exact ⟨_, rfl⟩
          | cons e2 es2 =>
            obtain ⟨a2, b2⟩ := e2
            exact ⟨_, rfl⟩
        show parseVal (f + 1)
          (('{' :: (dumpsObj ((k0, w0) :: es) ++ ['}'])) ++ rest) = _
        rw [List.cons_append, List.append_assoc, List.singleton_append,
          parseVal_openBrace, hXd, List.cons_append]
        show parseObjItems f [] ('"' :: (Xd ++ '}' :: rest)) = _
        rw [← List.cons_append, ← hXd,
          loop ((k0, w0) :: es) (List.cons_ne_nil _ _) hsl hwparts.2 [] f rest
            (by simpa using hwparts.1) hjf hb]
        simp

theorem dumps_length_pos (v : JVal) : 1 ≤ (dumps v).length := by
  obtain ⟨c, t, hx, -⟩ := dumps_head v
  rw [hx]
  simp

theorem jfuel_le_length : ∀ (k : Nat) (v : JVal), sizeOf v ≤ k →
    jfuel v ≤ (dumps v).length := by
  intro k
  induction k with
  | zero => intro v hs; exfalso; cases v <;> simp at hs
  | succ k ih =>
    intro v hs
    cases v with
    | null => simpa [jfuel] using dumps_length_pos JVal.null
    | b bb => cases bb <;> simpa [jfuel] using dumps_length_pos (JVal.b _)
    | i n => simpa [jfuel] using dumps_length_pos (JVal.i n)
    | s t => simpa [jfuel] using dumps_length_pos (JVal.s t)
    | arr l =>
      have hsl : ∀ x ∈ l, sizeOf x ≤ k := by
        intro x hxm
        have h1 : sizeOf x < sizeOf l := List.sizeOf_lt_of_mem hxm
        have h2 : sizeOf (JVal.arr l) = 1 + sizeOf l := by simp
        omega
      have aux : ∀ (ls : List JVal), (∀ x ∈ ls, sizeOf x ≤ k) →
          jfuelArr ls ≤ (dumpsArr ls).length + 1 := by
        intro ls
        induction ls with
        | nil => intro _; simp [jfuelArr, dumpsArr]
        | cons w ws ihl =>
          intro hws
          have hw := ih w (hws w (List.mem_cons_self _ _))
          cases ws with
          | nil => simp only [jfuelArr, dumpsArr]; omega
          | cons w2 ws2 =>
            have hrec := ihl fun x hxm => hws x (List.mem_cons_of_mem _ hxm)
            simp only [jfuelArr, dumpsArr, List.length_append, List.length_cons]
            simp only [jfuelArr] at hrec
            omega
      have := aux l hsl
      simp only [jfuel, dumps, List.length_cons, List.length_append]
      omega
    | obj kvs =>
      have hsl : ∀ p ∈ kvs, sizeOf (Prod.snd p) ≤ k := by
        intro p hpm
        have h1 : sizeOf p < sizeOf kvs := List.sizeOf_lt_of_mem hpm
        have h2 : sizeOf (JVal.obj kvs) = 1 + sizeOf kvs := by simp
        have h3 : sizeOf p.2 < sizeOf p := by
          obtain ⟨a, b⟩ := p
          simp
        omega
      have aux : ∀ (ls : List (List Char × JVal)), (∀ p ∈ ls, sizeOf (Prod.snd p) ≤ k) →
          jfuelObj ls ≤ (dumpsObj ls).length + 1 := by
        intro ls
        induction ls with
        | nil => intro _; simp [jfuelObj, dumpsObj]
        | cons pr ws ihl =>
          obtain ⟨kk, ww⟩ := pr
          intro hws
          have hw := ih ww (hws (kk, ww) (List.mem_cons_self _ _))
          cases ws with
          | nil =>
            simp only [jfuelObj, dumpsObj, List.length_cons, List.length_append]
            omega
          | cons pr2 ws2 =>
            obtain ⟨k2, w2⟩ := pr2
            have hrec := ihl fun p hpm => hws p (List.mem_cons_of_mem _ hpm)
            simp only [jfuelObj, dumpsObj, List.length_cons, List.length_append] at hrec ⊢
            omega
      have := aux kvs hsl
      simp only [jfuel, dumps, List.length_cons, List.length_append]
      omega

/-- Serialization round trip for `json.loads` and `json.dumps`: a well-formed
value re-parses to itself. -/
theorem loads_dumps {v : JVal} (hwf : jwf v = true) : loads (dumps v) = .ok v := by
  unfold loads
  have hskip : skipJWs (dumps v) = dumps v := by
    apply dropWhile_head_false
    intro c hc
    obtain ⟨c0, t0, hx, hws, -⟩ := dumps_head v
    rw [hx] at hc
    cases hc
    exact hws
  rw [hskip]
  have hfl : jfuel v ≤ (dumps v).length + 1 :=
    le_trans (jfuel_le_length (sizeOf v) v le_rfl) (Nat.le_succ _)
  have := parseVal_dumps_aux (sizeOf v) v le_rfl hwf ((dumps v).length + 1) []
    (by simpa using hfl) numBoundary_nil
  rw [List.append_nil] at this
  rw [this]
  rfl

theorem jwfArr_iff {l : List JVal} : jwfArr l = true ↔ ∀ x ∈ l, jwf x = true := by
  induction l with
  | nil => simp [jwfArr]
  | cons w ws ih => simp [jwfArr, Bool.and_eq_true, ih]

theorem jwfObj_iff {kvs : List (List Char × JVal)} :
    jwfObj kvs = true ↔ ∀ p ∈ kvs, jwf (Prod.snd p) = true := by
  induction kvs with
  | nil => simp [jwfObj]
  | cons pr ws ih =>
    obtain ⟨kk, ww⟩ := pr
    simp only [jwfObj, Bool.and_eq_true, ih]
    constructor
    · rintro ⟨h1, h2⟩ p hp
      rcases List.mem_cons.mp hp with rfl | hm
      · exact h1
      · exact h2 p hm
    · intro h
      exact ⟨h (kk, ww) (List.mem_cons_self _ _), fun p hp => h p (List.mem_cons_of_mem _ hp)⟩

theorem objInsert_mem {t : List (List Char × JVal)} {k : List Char} {v : JVal}
    {p : List Char × JVal} (h : p ∈ objInsert t k v) : p ∈ t ∨ p = (k, v) := by
  induction t with
  | nil =>
    simp [objInsert] at h
    right
    exact h
  | cons q tq ihq =>
    obtain ⟨kq, vq⟩ := q
    simp only [objInsert] at h
    by_cases hq : kq = k
    · rw [if_pos hq] at h
      rcases List.mem_cons.mp h with rfl | hm
      · right; rw [hq]
      · left; exact List.mem_cons_of_mem _ hm
    · rw [if_neg hq] at h
      rcases List.mem_cons.mp h with rfl | hm
      · left; exact List.mem_cons_self _ _
      · rcases ihq hm with hl | hr
        · left; exact List.mem_cons_of_mem _ hl
        · right; exact hr

theorem keysFresh_objInsert {kvs : List (List Char × JVal)} (k : List Char) (v : JVal)
    (h : keysFresh kvs = true) : keysFresh (objInsert kvs k v) = true := by
  induction kvs with
  | nil => simp [objInsert, keysFresh]
  | cons pr t ih =>
    obtain ⟨k', v'⟩ := pr
    simp only [keysFresh, Bool.and_eq_true, Bool.not_eq_true'] at h
    by_cases he : k' = k
    · subst he
      simp only [objInsert, if_pos rfl, keysFresh, Bool.and_eq_true, Bool.not_eq_true']
      exact h
    · simp only [objInsert, if_neg he, keysFresh, Bool.and_eq_true, Bool.not_eq_true']
      constructor
      · rw [Bool.eq_false_iff]
        intro hany
        rw [List.any_eq_true] at hany
        obtain ⟨p, hpmem, hpk⟩ := hany
        have hpmem' : p ∈ t ∨ p = (k, v) := objInsert_mem hpmem
        rcases hpmem' with hm | rfl
        · have := h.1
          rw [Bool.eq_false_iff] at this
          exact this (List.any_eq_true.mpr ⟨p, hm, hpk⟩)
        · simp only [beq_iff_eq] at hpk
          exact he hpk.symm
      · exact ih h.2

theorem jwfObj_objInsert {kvs : List (List Char × JVal)} (k : List Char) (v : JVal)
    (h1 : jwfObj kvs = true) (h2 : jwf v = true) :
    jwfObj (objInsert kvs k v) = true := by
  rw [jwfObj_iff]
  intro p hp
  rcases objInsert_mem hp with hm | rfl
  · exact jwfObj_iff.mp h1 p hm
  · exact h2

theorem jwfArr_append {l : List JVal} {v : JVal} (h1 : jwfArr l = true)
    (h2 : jwf v = true) : jwfArr (l ++ [v]) = true := by
  rw [jwfArr_iff]
  intro x hx
  rcases List.mem_append.mp hx with hm | hm
  · exact jwfArr_iff.mp h1 x hm
  · rw [List.mem_singleton] at hm
    subst hm
    exact h2

theorem parseObjItems_not_quote (g : Nat) (acc : List (List Char × JVal))
    (c : Char) (t : List Char) (hc : ¬ c = '"') :
    parseObjItems (g + 1) acc (c :: t) = .error .jsonDecodeError := by
  rw [parseObjItems.eq_def]
  split
  · rfl
  · split
    · rename_i heq
      injection heq with h1 h2
      exact absurd h1 hc
    · rfl

/-- Every value produced by the parser is well formed: objects built by dict
insertion have distinct keys at every level. -/
theorem parse_wf : ∀ (fuel : Nat),
    (∀ s v r, parseVal fuel s = .ok (v, r) → jwf v = true) ∧
    (∀ acc s v r, keysFresh acc = true → jwfObj acc = true →
      parseObjItems fuel acc s = .ok (v, r) → jwf v = true) ∧
    (∀ acc s v r, jwfArr acc = true →
      parseArrItems fuel acc s = .ok (v, r) → jwf v = true) := by
  intro fuel
  induction fuel with
  | zero =>
    refine ⟨?_, ?_, ?_⟩ <;> (intro _ _ _ _; intros; simp_all [parseVal, parseObjItems, parseArrItems])
  | succ f ih =>
    obtain ⟨ihP, ihQ, ihR⟩ := ih
    refine ⟨?_, ?_, ?_⟩
    · intro s v r h
      cases s with
      | nil => exact absurd h (by simp [parseVal])
      | cons c t =>
        rw [parseVal.eq_def] at h
        dsimp only at h
        split_ifs at h with h1 h2 h3 h4 h5 h6 h7 h8
        · cases hps : parseStr t with
          | error e => rw [hps] at h; exact absurd h (by simp [ebind_err])
          | ok p =>
            obtain ⟨cs, rest⟩ := p
            rw [hps] at h
            simp only [ebind_ok] at h
            cases h
            rfl
        · split at h
          · cases h; rfl
          · exact ihQ [] _ v r rfl rfl h
        · split at h
          · cases h; rfl
          · exact ihR [] _ v r rfl h
        · split at h
          · cases h; rfl
          · exact absurd h (by simp)
        · split at h
          · cases h; rfl
          · exact absurd h (by simp)
        · split at h
          · cases h; rfl
          · exact absurd h (by simp)
        · cases hpn : parseNum t with
          | error e => rw [hpn] at h; exact absurd h (by simp [ebind_err])
          | ok p =>
            obtain ⟨n0, rest⟩ := p
            rw [hpn] at h
            simp only [ebind_ok] at h
            cases h
            rfl
        · cases hpn : parseNum (c :: t) with
          | error e => rw [hpn] at h; exact absurd h (by simp [ebind_err])
          | ok p =>
            obtain ⟨n0, rest⟩ := p
            rw [hpn] at h
            simp only [ebind_ok] at h
            cases h
            rfl
    · intro acc s v r hfr hwo h
      cases s with
      | nil => exact absurd h (by simp [parseObjItems])
      | cons c t =>
        by_cases hc : c = '"'
        swap
        · rw [parseObjItems_not_quote f acc c t hc] at h
          exact absurd h (by simp)
        subst hc
        rw [parseObjItems_quote] at h
        cases hps : parseStr t with
        | error e => rw [hps] at h; exact absurd h (by simp [ebind_err])
        | ok p =>
          obtain ⟨k0, r1⟩ := p
          rw [hps] at h
          simp only [ebind_ok] at h
          split at h
          · rename_i r2 _
            cases hpv : parseVal f (skipJWs r2) with
            | error e => rw [hpv] at h; exact absurd h (by simp [ebind_err])
            | ok q =>
              obtain ⟨w, r3⟩ := q
              rw [hpv] at h
              simp only [ebind_ok] at h
              have hww : jwf w = true := ihP _ _ _ hpv
              split at h
              · exact ihQ (objInsert acc k0 w) _ v r
                  (keysFresh_objInsert k0 w hfr) (jwfObj_objInsert k0 w hwo hww) h
              · cases h
                show (keysFresh (objInsert acc k0 w) && jwfObj (objInsert acc k0 w)) = true
                rw [Bool.and_eq_true]
                exact ⟨keysFresh_objInsert k0 w hfr, jwfObj_objInsert k0 w hwo hww⟩
              · exact absurd h (by simp)
          · exact absurd h (by simp)
    · intro acc s v r hacc h
      rw [parseArrItems_succ] at h
      cases hpv : parseVal f s with
      | error e => rw [hpv] at h; exact absurd h (by simp [ebind_err])
      | ok q =>
        obtain ⟨w, r1⟩ := q
        rw [hpv] at h
        simp only [ebind_ok] at h
        have hww : jwf w = true := ihP _ _ _ hpv
        split at h
        · exact ihR (acc ++ [w]) _ v r (jwfArr_append hacc hww) h
        · cases h
          show jwfArr (acc ++ [w]) = true
          exact jwfArr_append hacc hww
        · exact absurd h (by simp)

/-- The result of `json.loads` is well formed. -/
theorem loads_wf {s : List Char} {v : JVal} (h : loads s = .ok v) : jwf v = true := by
  unfold loads at h
  cases hpv : parseVal (s.length + 1) (skipJWs s) with
  | error e => rw [hpv] at h; exact absurd h (by simp [ebind_err])
  | ok q =>
    obtain ⟨w, r⟩ := q
    rw [hpv] at h
    simp only [ebind_ok] at h
    split_ifs at h
    cases h
    exact (parse_wf _).1 _ _ _ hpv

/-! Support lemmas for the claim theorems. -/

theorem objLookup_objInsert_self (kvs : List (List Char × JVal)) (k : List Char)
    (v : JVal) : objLookup (objInsert kvs k v) k = some v := by
  induction kvs with
  | nil => simp [objInsert, objLookup]
  | cons p t ih =>
    obtain ⟨k', v'⟩ := p
    by_cases he : k' = k
    · subst he
      simp [objInsert, objLookup]
    · simp only [objInsert, if_neg he, objLookup, ih]

theorem objLookup_objInsert_ne (kvs : List (List Char × JVal)) {k k' : List Char}
    (v : JVal) (hne : k ≠ k') : objLookup (objInsert kvs k v) k' = objLookup kvs k' := by
  induction kvs with
  | nil => simp [objInsert, objLookup, hne]
  | cons p t ih =>
    obtain ⟨k0, v0⟩ := p
    by_cases he : k0 = k
    · subst he
      simp only [objInsert, if_pos rfl, objLookup]
      rw [if_neg hne, if_neg hne]
    · simp only [objInsert, if_neg he, objLookup, ih]

theorem forall₂_mem_left {R : α → β → Prop} :
    ∀ {l : List α} {l' : List β}, List.Forall₂ R l l' → ∀ {x}, x ∈ l →
      ∃ y, y ∈ l' ∧ R x y := by
  intro l
  induction l with
  | nil => intro l' _ x hx; cases hx
  | cons a t ih =>
    intro l' h x hx
    cases h with
    | cons hR hrest =>
      rcases List.mem_cons.mp hx with rfl | hm
      · exact ⟨_, List.mem_cons_self _ _, hR⟩
      · obtain ⟨y, hy, hRy⟩ := ih hrest hm
        exact ⟨y, List.mem_cons_of_mem _ hy, hRy⟩

theorem mapM_ok_of_pointwise {f : α → Except PyErr β} :
    ∀ {l : List α}, (∀ x ∈ l, ∃ y, f x = .ok y) →
      ∃ l', l.mapM f = .ok l' ∧ List.Forall₂ (fun x y => f x = .ok y) l l' := by
  intro l
  induction l with
  | nil => intro _; exact ⟨[], by rw [List.mapM_nil]; rfl, .nil⟩
  | cons a t ih =>
    intro h
    obtain ⟨y, hy⟩ := h a (List.mem_cons_self _ _)
    obtain ⟨l', hl', hfa⟩ := ih fun x hx => h x (List.mem_cons_of_mem _ hx)
    refine ⟨y :: l', ?_, .cons hy hfa⟩
    rw [List.mapM_cons, hy, ebind_ok, hl']
    rfl

theorem mapM_ok_map {f : α → Except PyErr β} {g : α → β} (l : List α)
    (h : ∀ x ∈ l, f x = .ok (g x)) : l.mapM f = .ok (l.map g) := by
  induction l with
  | nil => rw [List.mapM_nil]; rfl
  | cons a t ih =>
    rw [List.mapM_cons, h a (List.mem_cons_self _ _), ebind_ok,
      ih fun x hx => h x (List.mem_cons_of_mem _ hx)]
    rfl

theorem forall₂_compose {R : α → β → Prop} {S : β → γ → Prop} :
    ∀ {l : List α} {m : List β} {n : List γ}, List.Forall₂ R l m →
      List.Forall₂ S m n → List.Forall₂ (fun a c => ∃ b, R a b ∧ S b c) l n := by
  intro l
  induction l with
  | nil =>
    intro m n h1 h2
    cases h1
    cases h2
    exact .nil
  | cons a t ih =>
    intro m n h1 h2
    cases h1 with
    | cons hR h1' =>
      cases h2 with
      | cons hS h2' => exact .cons ⟨_, hR, hS⟩ (ih h1' h2')

theorem jwf_obj_lookup {d : List (List Char × JVal)} {k : List Char} {v : JVal}
    (hwf : jwf (.obj d) = true) (h : objLookup d k = some v) : jwf v = true := by
  have hv : ∀ p ∈ d, jwf (Prod.snd p) = true := by
    apply jwfObj_iff.mp
    simp only [jwf, Bool.and_eq_true] at hwf
    exact hwf.2
  clear hwf
  induction d with
  | nil => cases h
  | cons p t ih =>
    obtain ⟨k0, v0⟩ := p
    simp only [objLookup] at h
    by_cases he : k0 = k
    · rw [if_pos he] at h
      cases h
      exact hv _ (List.mem_cons_self _ _)
    · rw [if_neg he] at h
      exact ih h fun p hp => hv p (List.mem_cons_of_mem _ hp)

theorem jwf_arr_mem {l : List JVal} {x : JVal} (hwf : jwf (.arr l) = true)
    (h : x ∈ l) : jwf x = true := by
  have : jwfArr l = true := by simpa [jwf] using hwf
  exact jwfArr_iff.mp this x h

theorem scanAll_mem {m : List Char → Option (α × List Char)} :
    ∀ {s : List Char} {a : α}, a ∈ scanAll m s → ∃ u r, m u = some (a, r) := by
  have aux : ∀ (fuel : Nat) (s : List Char) (a : α), a ∈ scanAllAux m fuel s →
      ∃ u r, m u = some (a, r) := by
    intro fuel
    induction fuel with
    | zero => intro s a h; cases s <;> cases h
    | succ f ih =>
      intro s a h
      cases s with
      | nil => cases h
      | cons c t =>
        simp only [scanAllAux] at h
        cases hm : m (c :: t) with
        | none =>
          rw [hm] at h
          exact ih t a h
        | some pr =>
          obtain ⟨b, rest⟩ := pr
          rw [hm] at h
          rcases List.mem_cons.mp h with rfl | hm'
          · exact ⟨c :: t, rest, hm⟩
          · exact ih _ a hm'
  intro s a h
  exact aux s.length s a h

theorem matchEmbedded_brace {u js r : List Char} (h : matchEmbedded u = some (js, r)) :
    ∃ body, js = '{' :: body := by
  unfold matchEmbedded at h
  cases hd : dropLit (lc "<tool_call>") u with
  | none => rw [hd] at h; cases h
  | some s1 =>
    rw [hd] at h
    simp only [Option.bind_eq_bind, Option.some_bind] at h
    split at h
    · rename_i t heq
      cases hl : lazyFind (fun v =>
          match v with
          | '}' :: v' => dropLit (lc "</tool_call>") (skipWs v')
          | _ => none) t with
      | none => rw [hl] at h; cases h
      | some pr =>
        obtain ⟨body, rest⟩ := pr
        rw [hl] at h
        simp only [Option.some_bind] at h
        cases h
        exact ⟨_, rfl⟩
    · cases h

theorem parseObjItems_obj : ∀ (fuel : Nat) (acc : List (List Char × JVal))
    (s : List Char) (v : JVal) (r : List Char),
    parseObjItems fuel acc s = .ok (v, r) → ∃ kvs, v = .obj kvs := by
  intro fuel
  induction fuel with
  | zero => intro acc s v r h; simp [parseObjItems] at h
  | succ f ih =>
    intro acc s v r h
    cases s with
    | nil => exact absurd h (by simp [parseObjItems])
    | cons c t =>
      by_cases hc : c = '"'
      swap
      · rw [parseObjItems_not_quote f acc c t hc] at h
        exact absurd h (by simp)
      subst hc
      rw [parseObjItems_quote] at h
      cases hps : parseStr t with
      | error e => rw [hps] at h; exact absurd h (by simp [ebind_err])
      | ok p =>
        obtain ⟨k0, r1⟩ := p
        rw [hps] at h
        simp only [ebind_ok] at h
        split at h
        · rename_i r2 _
          cases hpv : parseVal f (skipJWs r2) with
          | error e => rw [hpv] at h; exact absurd h (by simp [ebind_err])
          | ok q =>
            obtain ⟨w, r3⟩ := q
            rw [hpv] at h
            simp only [ebind_ok] at h
            split at h
            · exact ih _ _ _ _ h
            · cases h
              exact ⟨_, rfl⟩
            · exact absurd h (by simp)
        · exact absurd h (by simp)

theorem loads_brace_obj {t : List Char} {v : JVal} (h : loads ('{' :: t) = .ok v) :
    ∃ kvs, v = .obj kvs := by
  unfold loads at h
  have hskip : skipJWs ('{' :: t) = '{' :: t := rfl
  rw [hskip] at h
  have hlen : ('{' :: t).length + 1 = (t.length + 1) + 1 := by simp
  rw [hlen, parseVal_openBrace] at h
  split at h
  · simp only [ebind_ok] at h
    split_ifs at h
    cases h
    exact ⟨[], rfl⟩
  · rename_i u hne
    cases hpo : parseObjItems (t.length + 1) [] (skipJWs t) with
    | error e => rw [hpo] at h; exact absurd h (by simp [ebind_err])
    | ok q =>
      obtain ⟨w, r⟩ := q
      rw [hpo] at h
      simp only [ebind_ok] at h
      split_ifs at h
      cases h
      exact parseObjItems_obj _ _ _ _ _ hpo

/-! Claim C6. -/

/-- Claim C6, amended: for every input string parsing to a JSON mapping with
both a `name` and an `arguments` key, `from_json` returns exactly one record
whose `function.name` is the `name` value and whose `function.arguments` is
the serialized JSON text of the `arguments` value when that value is a
mapping, and the `arguments` value unchanged otherwise (in particular a
string passes through as-is). -/
theorem C6_from_json_flat (s : List Char) (d : List (List Char × JVal))
    (nm args : JVal) (hp : loads s = .ok (.obj d))
    (hn : objLookup d (lc "name") = some nm)
    (ha : objLookup d (lc "arguments") = some args) :
    from_json s = .ok [⟨⟨nm, if isDict args then .s (dumps args) else args⟩⟩] := by
  unfold from_json
  rw [hp, ebind_ok]
  have hcond : (isDict (.obj d) && hasKey (.obj d) (lc "name") &&
      hasKey (.obj d) (lc "arguments")) = true := by
    simp [isDict, hasKey, hn, ha]
  rw [if_pos hcond]
  have h1 : pyIndex (.obj d) (lc "name") = .ok nm := by simp [pyIndex, hn]
  have h2 : pyIndex (.obj d) (lc "arguments") = .ok args := by simp [pyIndex, ha]
  rw [h1, ebind_ok, h2, ebind_ok]
  rfl

/-- Claim C6, counterexample to the claim as stated: a structured but
non-mapping `arguments` value (a list) is passed through as a live value,
not as its JSON serialization (not a string at all). -/
theorem C6_counterexample :
    from_json (lc "\x7b\"name\":\"f\",\"arguments\":[1]\x7d") =
      .ok [⟨⟨.s (lc "f"), .arr [.i 1]⟩⟩] ∧
    isStr (JVal.arr [.i 1]) = false :=
  ⟨by rfl, by rfl⟩

/-- Claim C6, witness: the spec's own example input. -/
theorem C6_witness :
    from_json (lc "\x7b\"name\":\"f\",\"arguments\":\x7b\"a\":1\x7d\x7d") =
      .ok [⟨⟨.s (lc "f"), .s (lc "\x7b\"a\": 1\x7d")⟩⟩] := by
  have h := C6_from_json_flat (lc "\x7b\"name\":\"f\",\"arguments\":\x7b\"a\":1\x7d\x7d")
    [(lc "name", .s (lc "f")), (lc "arguments", .obj [(lc "a", .i 1)])]
    (.s (lc "f")) (.obj [(lc "a", .i 1)]) (by rfl) (by rfl) (by rfl)
  exact h

/-! Claim C5. -/

theorem pyIndex_obj_some {d : List (List Char × JVal)} {k : List Char} {v : JVal}
    (h : objLookup d k = some v) : pyIndex (.obj d) k = .ok v := by
  unfold pyIndex
  dsimp only
  rw [h]

theorem pyIndex_obj_none {d : List (List Char × JVal)} {k : List Char}
    (h : objLookup d k = none) : pyIndex (.obj d) k = .error .keyError := by
  unfold pyIndex
  dsimp only
  rw [h]

theorem nestedUpdate_no_function {d : List (List Char × JVal)}
    (h : objLookup d (lc "function") = none) :
    nestedUpdate (.obj d) = .error .keyError := by
  unfold nestedUpdate
  rw [pyIndex_obj_none h, ebind_err]

theorem nestedUpdate_no_arguments {d fd : List (List Char × JVal)}
    (hf : objLookup d (lc "function") = some (.obj fd))
    (h : objLookup fd (lc "arguments") = none) :
    nestedUpdate (.obj d) = .error .keyError := by
  unfold nestedUpdate
  rw [pyIndex_obj_some hf, ebind_ok, pyIndex_obj_none h, ebind_err]

theorem nestedUpdate_ok {d fd : List (List Char × JVal)} {a : JVal}
    (hf : objLookup d (lc "function") = some (.obj fd))
    (h : objLookup fd (lc "arguments") = some a) :
    nestedUpdate (.obj d) = .ok (.obj (objInsert d (lc "function")
      (.obj (objInsert fd (lc "arguments") (.s (dumps a)))))) := by
  unfold nestedUpdate
  rw [pyIndex_obj_some hf, ebind_ok, pyIndex_obj_some h, ebind_ok]
  rfl

theorem mkToolCall_no_name {d fd : List (List Char × JVal)}
    (hf : objLookup d (lc "function") = some (.obj fd))
    (hn : objLookup fd (lc "name") = none) :
    mkToolCall (.obj d) = .error .validationError := by
  unfold mkToolCall
  dsimp only
  rw [hf]
  dsimp only
  rw [hn]

theorem mkToolCall_ok {d fd : List (List Char × JVal)} {nm a : JVal}
    (hf : objLookup d (lc "function") = some (.obj fd))
    (hn : objLookup fd (lc "name") = some nm)
    (ha : objLookup fd (lc "arguments") = some a) :
    mkToolCall (.obj d) = .ok ⟨⟨nm, a⟩⟩ := by
  unfold mkToolCall
  dsimp only
  rw [hf]
  dsimp only
  rw [hn, ha]

/-- Claim C5: `from_json` fails — the error propagates with no records and no
per-element recovery — whenever the input is not valid JSON, and whenever a
nested-dialect array element is missing the `function`, `name` or
`arguments` field. -/
theorem C5_from_json_strict :
    (∀ s e, loads s = .error e → from_json s = .error e) ∧
    (∀ s elems, loads s = .ok (.arr elems) → ∀ el ∈ elems, missingField el →
      ∃ e, from_json s = .error e) := by
  constructor
  · intro s e h
    unfold from_json
    rw [h, ebind_err]
  · intro s elems hp el hel hmf
    unfold from_json
    rw [hp, ebind_ok]
    rw [if_neg (by simp [isDict])]
    dsimp only
    obtain ⟨d, rfl, hcase⟩ := hmf
    cases hfirst : elems.mapM nestedUpdate with
    | error e =>
      exact ⟨e, by rw [ebind_err]⟩
    | ok upds =>
      obtain ⟨y, hymem, hy⟩ := forall₂_mem_left (mapM_ok_forall₂ hfirst) hel
      rcases hcase with hnofun | ⟨fd, hfd, hmiss⟩
      · rw [nestedUpdate_no_function hnofun] at hy
        cases hy
      · rcases hmiss with hnoarg | hnoname
        · rw [nestedUpdate_no_arguments hfd hnoarg] at hy
          cases hy
        · cases harg : objLookup fd (lc "arguments") with
          | none =>
            rw [nestedUpdate_no_arguments hfd harg] at hy
            cases hy
          | some a =>
            rw [nestedUpdate_ok hfd harg] at hy
            cases hy
            have hmk : mkToolCall (.obj (objInsert d (lc "function")
                (.obj (objInsert fd (lc "arguments") (.s (dumps a)))))) =
                .error .validationError := by
              apply mkToolCall_no_name (objLookup_objInsert_self _ _ _)
              rw [objLookup_objInsert_ne fd (.s (dumps a)) (by decide), hnoname]
            obtain ⟨e2, he2⟩ := mapM_error_of_mem hymem ⟨.validationError, hmk⟩
            exact ⟨e2, by rw [ebind_ok, he2]⟩

/-- Claim C5, witness: a non-JSON input propagates the parse error, and a
nested array whose element is an empty mapping fails. -/
theorem C5_witness :
    from_json (lc "not json") = .error .jsonDecodeError ∧
    ∃ e, from_json (lc "[\x7b\x7d]") = .error e := by
  constructor
  · exact C5_from_json_strict.1 (lc "not json") .jsonDecodeError (by rfl)
  · exact C5_from_json_strict.2 (lc "[\x7b\x7d]") [.obj []] (by rfl) (.obj [])
      (List.mem_singleton.mpr rfl) ⟨[], rfl, Or.inl rfl⟩

/-! Claims C10 and C8. -/

theorem embedBlock_str {js : List Char} {d : List (List Char × JVal)} {t : List Char}
    (h : loads js = .ok (.obj d)) (ha : objLookup d (lc "arguments") = some (.s t)) :
    embedBlock js = .ok (some ⟨⟨(objLookup d (lc "name")).getD .null, .s t⟩⟩) := by
  unfold embedBlock
  rw [h]
  dsimp only
  rw [ha]
  rfl

theorem embedBlock_nonstr {js : List Char} {d : List (List Char × JVal)} {v : JVal}
    (h : loads js = .ok (.obj d)) (ha : objLookup d (lc "arguments") = some v)
    (hv : isStr v = false) :
    embedBlock js = .ok (some ⟨⟨(objLookup d (lc "name")).getD .null, .s (dumps v)⟩⟩) := by
  unfold embedBlock
  rw [h]
  dsimp only
  rw [ha]
  cases v with
  | s t => exact absurd hv (by simp [isStr])
  | null => rfl
  | b bb => rfl
  | i n => rfl
  | arr l => rfl
  | obj kvs => rfl

theorem embedBlock_noargs {js : List Char} {d : List (List Char × JVal)}
    (h : loads js = .ok (.obj d)) (ha : objLookup d (lc "arguments") = none) :
    embedBlock js = .ok (some ⟨⟨(objLookup d (lc "name")).getD .null,
      .s (dumps (.obj []))⟩⟩) := by
  unfold embedBlock
  rw [h]
  dsimp only
  rw [ha]
  rfl

theorem embedBlock_badjson {js : List Char} {e : PyErr} (h : loads js = .error e) :
    embedBlock js = .ok none := by
  unfold embedBlock
  rw [h]

/-- Claim C10: an embedded-JSON block whose payload is a well-formed mapping
lacking `arguments` still yields a record, with the serialized empty object
as arguments; one lacking `name` yields a record whose name is the null
value. -/
theorem C10_embed_defaults (s js : List Char) (d : List (List Char × JVal))
    (hm : findToolCallJson s = [js]) (hp : loads js = .ok (.obj d)) :
    (objLookup d (lc "arguments") = none →
      from_xml s = .ok [⟨⟨(objLookup d (lc "name")).getD .null, .s (lc "\x7b\x7d")⟩⟩]) ∧
    (objLookup d (lc "name") = none →
      ∃ a, from_xml s = .ok [⟨⟨.null, a⟩⟩]) := by
  have hfx : ∀ (tc : ToolCall), embedBlock js = .ok (some tc) →
      from_xml s = .ok [tc] := by
    intro tc htc
    unfold from_xml
    rw [hm]
    rw [if_pos (by rfl)]
    rw [List.mapM_cons, htc, ebind_ok, List.mapM_nil]
    rfl
  constructor
  · intro ha
    have := hfx _ (embedBlock_noargs hp ha)
    exact this
  · intro hn
    cases ha : objLookup d (lc "arguments") with
    | none =>
      refine ⟨.s (lc "\x7b\x7d"), ?_⟩
      have := hfx _ (embedBlock_noargs hp ha)
      rw [hn] at this
      exact this
    | some v =>
      cases hv : isStr v with
      | true =>
        obtain ⟨t, rfl⟩ : ∃ t, v = .s t := by
          cases v <;> simp [isStr] at hv
          exact ⟨_, rfl⟩
        refine ⟨.s t, ?_⟩
        have := hfx _ (embedBlock_str hp ha)
        rw [hn] at this
        exact this
      | false =>
        refine ⟨.s (dumps v), ?_⟩
        have := hfx _ (embedBlock_nonstr hp ha hv)
        rw [hn] at this
        exact this

/-- Claim C10, witness: two concrete single-block inputs, one lacking
`arguments`, one lacking `name`. -/
theorem C10_witness :
    from_xml (lc "<tool_call>\x7b\"name\":\"t\"\x7d</tool_call>") =
      .ok [⟨⟨.s (lc "t"), .s (lc "\x7b\x7d")⟩⟩] ∧
    ∃ a, from_xml (lc "<tool_call>\x7b\"arguments\":\x7b\x7d\x7d</tool_call>") =
      .ok [⟨⟨.null, a⟩⟩] := by
  constructor
  · have := (C10_embed_defaults (lc "<tool_call>\x7b\"name\":\"t\"\x7d</tool_call>")
      (lc "\x7b\"name\":\"t\"\x7d") [(lc "name", .s (lc "t"))] (by rfl) (by rfl)).1 (by rfl)
    exact this
  · exact (C10_embed_defaults (lc "<tool_call>\x7b\"arguments\":\x7b\x7d\x7d</tool_call>")
      (lc "\x7b\"arguments\":\x7b\x7d\x7d") [(lc "arguments", .obj [])]
      (by rfl) (by rfl)).2 (by rfl)

theorem forall₂_mem_right {R : α → β → Prop} :
    ∀ {l : List α} {l' : List β}, List.Forall₂ R l l' → ∀ {y}, y ∈ l' →
      ∃ x, x ∈ l ∧ R x y := by
  intro l
  induction l with
  | nil => intro l' h y hy; cases h; cases hy
  | cons a t ih =>
    intro l' h y hy
    cases h with
    | cons hR hrest =>
      rcases List.mem_cons.mp hy with rfl | hm
      · exact ⟨a, List.mem_cons_self _ _, hR⟩
      · obtain ⟨x, hx, hRx⟩ := ih hrest hm
        exact ⟨x, List.mem_cons_of_mem _ hx, hRx⟩

theorem forall₂_imp_mem {R S : α → β → Prop} :
    ∀ {l : List α} {l' : List β}, List.Forall₂ R l l' →
      (∀ a ∈ l, ∀ b, R a b → S a b) → List.Forall₂ S l l' := by
  intro l
  induction l with
  | nil => intro l' h _; cases h; exact .nil
  | cons a t ih =>
    intro l' h himp
    cases h with
    | cons hR hrest =>
      exact .cons (himp a (List.mem_cons_self _ _) _ hR)
        (ih hrest fun x hx => himp x (List.mem_cons_of_mem _ hx))

/-- Claim C8: a valid nested-dialect array yields one record per element, in
order, each holding the element's function name and re-serialized arguments,
and every record's arguments text is valid JSON (it re-parses to the
original arguments value). -/
theorem C8_nested (s : List Char) (elems : List JVal)
    (hp : loads s = .ok (.arr elems)) (hg : ∀ el ∈ elems, goodElem el) :
    ∃ out, from_json s = .ok out ∧ out.length = elems.length ∧
      List.Forall₂ (fun el tc => ∃ d fd nm args, el = .obj d ∧
        objLookup d (lc "function") = some (.obj fd) ∧
        objLookup fd (lc "name") = some nm ∧
        objLookup fd (lc "arguments") = some args ∧
        tc = ⟨⟨nm, .s (dumps args)⟩⟩ ∧ loads (dumps args) = .ok args) elems out := by
  have h1 : ∀ el ∈ elems, ∃ y, nestedUpdate el = .ok y := by
    intro el hel
    obtain ⟨d, fd, rfl, hf, hn, ha⟩ := hg el hel
    obtain ⟨args, haeq⟩ := Option.isSome_iff_exists.mp ha
    exact ⟨_, nestedUpdate_ok hf haeq⟩
  obtain ⟨upds, hupds, hfa1⟩ := mapM_ok_of_pointwise h1
  have h2 : ∀ y ∈ upds, ∃ tc, mkToolCall y = .ok tc := by
    intro y hy
    obtain ⟨el, hel, hupd⟩ := forall₂_mem_right hfa1 hy
    obtain ⟨d, fd, rfl, hf, hn, ha⟩ := hg el hel
    obtain ⟨args, haeq⟩ := Option.isSome_iff_exists.mp ha
    obtain ⟨nm, hneq⟩ := Option.isSome_iff_exists.mp hn
    rw [nestedUpdate_ok hf haeq] at hupd
    cases hupd
    refine ⟨⟨⟨nm, .s (dumps args)⟩⟩, ?_⟩
    exact mkToolCall_ok (objLookup_objInsert_self _ _ _)
      (by rw [objLookup_objInsert_ne fd (.s (dumps args)) (by decide), hneq])
      (objLookup_objInsert_self _ _ _)
  obtain ⟨out, hout, hfa2⟩ := mapM_ok_of_pointwise h2
  have hcomp := forall₂_compose hfa1 hfa2
  refine ⟨out, ?_, ?_, ?_⟩
  · unfold from_json
    rw [hp, ebind_ok, if_neg (by simp [isDict])]
    dsimp only
    rw [hupds, ebind_ok, hout]
  · exact hcomp.length_eq.symm
  · refine forall₂_imp_mem hcomp ?_
    intro el hel tc hrel
    obtain ⟨y, hupd, hmk⟩ := hrel
    obtain ⟨d, fd, rfl, hf, hn, ha⟩ := hg el hel
    obtain ⟨args, haeq⟩ := Option.isSome_iff_exists.mp ha
    obtain ⟨nm, hneq⟩ := Option.isSome_iff_exists.mp hn
    rw [nestedUpdate_ok hf haeq] at hupd
    cases hupd
    rw [mkToolCall_ok (objLookup_objInsert_self _ _ _)
      (by rw [objLookup_objInsert_ne fd (.s (dumps args)) (by decide), hneq])
      (objLookup_objInsert_self _ _ _)] at hmk
    cases hmk
    have hwfargs : jwf args = true := by
      have hwfel : jwf (.obj d) = true := jwf_arr_mem (loads_wf hp) hel
      exact jwf_obj_lookup (jwf_obj_lookup hwfel hf) haeq
    exact ⟨d, fd, nm, args, rfl, hf, hneq, haeq, rfl, loads_dumps hwfargs⟩

/-- Claim C8, witness: the empty array yields the empty sequence, and a
one-element nested array yields exactly one record. -/
theorem C8_witness :
    from_json (lc "[]") = .ok [] ∧
    ∃ out, from_json
        (lc "[\x7b\"function\":\x7b\"name\":\"g\",\"arguments\":\x7b\x7d\x7d\x7d]") =
      .ok out ∧ out.length = 1 := by
  constructor
  · rfl
  · obtain ⟨out, ho, hlen, -⟩ := C8_nested
      (lc "[\x7b\"function\":\x7b\"name\":\"g\",\"arguments\":\x7b\x7d\x7d\x7d]")
      [.obj [(lc "function", .obj [(lc "name", .s (lc "g")), (lc "arguments", .obj [])])]]
      (by rfl)
      (by
        intro el hel
        rw [List.mem_singleton] at hel
        subst hel
        refine ⟨[(lc "function", .obj [(lc "name", .s (lc "g")), (lc "arguments", .obj [])])],
          [(lc "name", .s (lc "g")), (lc "arguments", .obj [])], rfl, rfl, rfl, rfl⟩)
    exact ⟨out, ho, by rw [hlen]; rfl⟩

/-! Claim C7. -/

theorem paramBlock_ok (nm : List Char) (params : List (List Char × List Char)) :
    paramBlock nm params = .ok ⟨⟨.s nm,
      .s (dumps (.obj (params.foldl (fun ps p => coerceParam ps p.1 p.2) [])))⟩⟩ := by
  unfold paramBlock
  exact mkToolCall_ok rfl rfl rfl

/-- Claim C7: in the tagged-function and invoke conventions every parameter
value is stripped then JSON-parsed, the parsed value kept on success and the
stripped string otherwise; a coercion failure never aborts the block (the
per-block builder always succeeds, and the whole decoder succeeds on any
input handled by those two conventions). -/
theorem C7_param_coercion :
    (∀ ps nm v p, loads (pyStrip v) = .ok p →
      coerceParam ps nm v = objInsert ps nm p) ∧
    (∀ ps nm v e, loads (pyStrip v) = .error e →
      coerceParam ps nm v = objInsert ps nm (.s (pyStrip v))) ∧
    (∀ nm params, ∃ tc, paramBlock nm params = .ok tc) ∧
    (∀ s, findToolCallJson s = [] → ∃ l, from_xml s = .ok l) := by
  refine ⟨?_, ?_, ?_, ?_⟩
  · intro ps nm v p h
    unfold coerceParam
    rw [h]
  · intro ps nm v e h
    unfold coerceParam
    rw [h]
  · intro nm params
    exact ⟨_, paramBlock_ok nm params⟩
  · intro s h
    obtain ⟨lq, hlq, -⟩ := mapM_ok_of_pointwise
      (fun (m : List Char × List Char) _ =>
        ⟨_, paramBlock_ok m.1 (findQwenParams m.2)⟩ :
        ∀ m ∈ findQwenCalls s, ∃ tc, paramBlock m.1 (findQwenParams m.2) = .ok tc)
    obtain ⟨li, hli, -⟩ := mapM_ok_of_pointwise
      (fun (m : List Char × List Char) _ =>
        ⟨_, paramBlock_ok m.1 (findParams m.2)⟩ :
        ∀ m ∈ findInvokes s, ∃ tc, paramBlock m.1 (findParams m.2) = .ok tc)
    unfold from_xml
    rw [h]
    rw [if_neg (by decide)]
    dsimp only
    cases hq : (findQwenCalls s).isEmpty with
    | true =>
      refine ⟨li, ?_⟩
      rw [if_neg (by decide)]
      exact hli
    | false =>
      refine ⟨lq, ?_⟩
      rw [if_pos (by decide)]
      exact hlq

/-- Claim C7, witness: the value " [1,2,3] " coerces to the parsed array, the
value "hello" is kept as the string "hello", a parameter block always builds,
and a concrete invoke input decodes successfully. -/
theorem C7_witness :
    coerceParam [] (lc "a") (lc " [1,2,3] ") =
      objInsert [] (lc "a") (.arr [.i 1, .i 2, .i 3]) ∧
    coerceParam [] (lc "b") (lc "hello") =
      objInsert [] (lc "b") (.s (lc "hello")) ∧
    (∃ tc, paramBlock (lc "t") [(lc "a", lc "hello")] = .ok tc) ∧
    (∃ l, from_xml
      (lc "<invoke name=\"t\"><parameter name=\"a\">hello</parameter></invoke>") =
      .ok l) := by
  refine ⟨C7_param_coercion.1 [] (lc "a") (lc " [1,2,3] ")
      (.arr [.i 1, .i 2, .i 3]) (by rfl),
    C7_param_coercion.2.1 [] (lc "b") (lc "hello") .jsonDecodeError (by rfl),
    C7_param_coercion.2.2.1 (lc "t") [(lc "a", lc "hello")],
    C7_param_coercion.2.2.2
      (lc "<invoke name=\"t\"><parameter name=\"a\">hello</parameter></invoke>")
      (by rfl)⟩

/-! Claim C3. -/

/-- Claim C3: the decoder commits to one convention. When the embedded-JSON
pattern matches at least once, the output depends only on those matches (two
texts with the same nonempty match list decode identically, so tagged-function
and invoke blocks in the text are ignored); the tagged-function convention is
used only when the embedded matches are empty, and the invoke convention only
when both higher-priority conventions have no match. -/
theorem C3_priority :
    (∀ s t, findToolCallJson s = findToolCallJson t → findToolCallJson s ≠ [] →
      from_xml s = from_xml t) ∧
    (∀ s, findToolCallJson s = [] → findQwenCalls s ≠ [] →
      from_xml s = (findQwenCalls s).mapM fun m => paramBlock m.1 (findQwenParams m.2)) ∧
    (∀ s, findToolCallJson s = [] → findQwenCalls s = [] →
      from_xml s = (findInvokes s).mapM fun m => paramBlock m.1 (findParams m.2)) := by
  refine ⟨?_, ?_, ?_⟩
  · intro s t h hne
    unfold from_xml
    rw [h]
    cases hm : findToolCallJson t with
    | nil => exact absurd (h.trans hm) hne
    | cons a l => rfl
  · intro s h hq
    unfold from_xml
    rw [h]
    rw [if_neg (by decide)]
    dsimp only
    cases hqm : findQwenCalls s with
    | nil => exact absurd hqm hq
    | cons a l => rw [if_pos (by rfl)]
  · intro s h hq
    unfold from_xml
    rw [h]
    rw [if_neg (by decide)]
    dsimp only
    rw [hq]
    rw [if_neg (by decide)]

/-- Claim C3, witness: a text holding both an embedded-JSON block and an
invoke block decodes exactly as the text holding only the embedded block, and
the two fallback conventions apply on concrete inputs where the
higher-priority matches are empty. -/
theorem C3_witness :
    from_xml (lc "<tool_call>\x7b\"name\":\"f\"\x7d</tool_call><invoke name=\"g\"><parameter name=\"a\">1</parameter></invoke>") =
      from_xml (lc "<tool_call>\x7b\"name\":\"f\"\x7d</tool_call>") ∧
    from_xml (lc "<tool_call><function=g><parameter=a>1</parameter></function></tool_call>") =
      (findQwenCalls (lc "<tool_call><function=g><parameter=a>1</parameter></function></tool_call>")).mapM
        (fun m => paramBlock m.1 (findQwenParams m.2)) ∧
    from_xml (lc "<invoke name=\"g\"><parameter name=\"a\">1</parameter></invoke>") =
      (findInvokes (lc "<invoke name=\"g\"><parameter name=\"a\">1</parameter></invoke>")).mapM
        (fun m => paramBlock m.1 (findParams m.2)) := by
  refine ⟨C3_priority.1 _ _ (by rfl) (by decide),
    C3_priority.2.1 _ (by rfl) (by decide),
    C3_priority.2.2 _ (by rfl) (by rfl)⟩

/-! Claim C4. -/

theorem embedBlock_match_total {s js : List Char} (hjs : js ∈ findToolCallJson s) :
    ∃ o, embedBlock js = .ok o ∧
      o.isSome = (match loads js with | .ok _ => true | .error _ => false) := by
  obtain ⟨u, r, hm⟩ := scanAll_mem hjs
  obtain ⟨body, rfl⟩ := matchEmbedded_brace hm
  cases hl : loads ('{' :: body) with
  | error e => exact ⟨none, embedBlock_badjson hl, by rfl⟩
  | ok v =>
    obtain ⟨kvs, rfl⟩ := loads_brace_obj hl
    cases ha : objLookup kvs (lc "arguments") with
    | none => exact ⟨some _, embedBlock_noargs hl ha, by rfl⟩
    | some v' =>
      cases hv : isStr v' with
      | true =>
        obtain ⟨t, rfl⟩ : ∃ t, v' = .s t := by
          cases v' <;> simp [isStr] at hv
          exact ⟨_, rfl⟩
        exact ⟨some _, embedBlock_str hl ha, by rfl⟩
      | false => exact ⟨some _, embedBlock_nonstr hl ha hv, by rfl⟩

theorem from_xml_no_embed (s : List Char) (h : findToolCallJson s = []) :
    ∃ l, from_xml s = .ok l := by
  obtain ⟨lq, hlq, -⟩ := mapM_ok_of_pointwise
    (fun (m : List Char × List Char) _ =>
      ⟨_, paramBlock_ok m.1 (findQwenParams m.2)⟩ :
      ∀ m ∈ findQwenCalls s, ∃ tc, paramBlock m.1 (findQwenParams m.2) = .ok tc)
  obtain ⟨li, hli, -⟩ := mapM_ok_of_pointwise
    (fun (m : List Char × List Char) _ =>
      ⟨_, paramBlock_ok m.1 (findParams m.2)⟩ :
      ∀ m ∈ findInvokes s, ∃ tc, paramBlock m.1 (findParams m.2) = .ok tc)
  unfold from_xml
  rw [h]
  rw [if_neg (by decide)]
  dsimp only
  cases hq : (findQwenCalls s).isEmpty with
  | true =>
    refine ⟨li, ?_⟩
    rw [if_neg (by decide)]
    exact hli
  | false =>
    refine ⟨lq, ?_⟩
    rw [if_pos (by decide)]
    exact hlq

theorem from_xml_embed_ok (s : List Char) (hne : findToolCallJson s ≠ []) :
    ∃ r, (findToolCallJson s).mapM embedBlock = .ok r ∧
      from_xml s = .ok (r.filterMap id) ∧
      List.Forall₂ (fun js o => o.isSome =
        (match loads js with | .ok _ => true | .error _ => false))
        (findToolCallJson s) r := by
  obtain ⟨r, hr, hfa⟩ := mapM_ok_of_pointwise
    (fun js hjs =>
      let ⟨o, h1, _⟩ := embedBlock_match_total (s := s) hjs; ⟨o, h1⟩ :
      ∀ js ∈ findToolCallJson s, ∃ o, embedBlock js = .ok o)
  refine ⟨r, hr, ?_, ?_⟩
  · unfold from_xml
    cases hm : findToolCallJson s with
    | nil => exact absurd hm hne
    | cons a l =>
      rw [if_pos (by rfl)]
      rw [hm] at hr
      rw [hr, ebind_ok]
      rfl
  · refine forall₂_imp_mem hfa ?_
    intro js hjs o ho
    obtain ⟨o', h1, h2⟩ := embedBlock_match_total hjs
    cases h1.symm.trans ho
    exact h2

theorem filterMap_id_length {p : α → Bool} {l : List α} {r : List (Option β)}
    (h : List.Forall₂ (fun x o => o.isSome = p x) l r) :
    (r.filterMap id).length = (l.filter p).length := by
  induction h with
  | nil => rfl
  | cons hxo hrest ih =>
    rename_i x o t rt
    cases o with
    | some b =>
      have hp : p x = true := by rw [← hxo]; rfl
      simp [List.filter_cons, hp, ih]
    | none =>
      have hp : p x = false := by rw [← hxo]; rfl
      simp [List.filter_cons, hp, ih]

/-- Claim C4: from_xml succeeds on every input; when no convention matches it
returns the empty sequence; and in the embedded-JSON convention the number of
records equals the number of blocks whose payload parses as JSON, so a
malformed block is skipped while every well-formed block in the same text
still yields a record. -/
theorem C4_no_raise :
    (∀ s, ∃ l, from_xml s = .ok l) ∧
    (∀ s, findToolCallJson s = [] → findQwenCalls s = [] → findInvokes s = [] →
      from_xml s = .ok []) ∧
    (∀ s l, findToolCallJson s ≠ [] → from_xml s = .ok l →
      l.length = ((findToolCallJson s).filter
        (fun js => match loads js with | .ok _ => true | .error _ => false)).length) := by
  refine ⟨?_, ?_, ?_⟩
  · intro s
    by_cases he : findToolCallJson s = []
    · exact from_xml_no_embed s he
    · obtain ⟨r, hr, hfx, -⟩ := from_xml_embed_ok s he
      exact ⟨_, hfx⟩
  · intro s h1 h2 h3
    unfold from_xml
    rw [h1]
    rw [if_neg (by decide)]
    dsimp only
    rw [h2]
    rw [if_neg (by decide)]
    rw [h3]
    rfl
  · intro s l hne hl
    obtain ⟨r, hr, hfx, hfa⟩ := from_xml_embed_ok s hne
    rw [hfx] at hl
    cases hl
    exact filterMap_id_length hfa

/-- Claim C4, witness: an input with no convention match yields the empty
sequence, and an input with one malformed and one well-formed embedded block
yields exactly one record. -/
theorem C4_witness :
    from_xml (lc "no tools here") = .ok [] ∧
    ∃ l, from_xml
        (lc "<tool_call>\x7bbad\x7d</tool_call><tool_call>\x7b\"name\":\"f\"\x7d</tool_call>") =
      .ok l ∧ l.length = 1 := by
  refine ⟨C4_no_raise.2.1 _ (by rfl) (by rfl) (by rfl), ?_⟩
  obtain ⟨l, hl⟩ := C4_no_raise.1
    (lc "<tool_call>\x7bbad\x7d</tool_call><tool_call>\x7b\"name\":\"f\"\x7d</tool_call>")
  refine ⟨l, hl, ?_⟩
  have hlen := C4_no_raise.2.2 _ l (by decide) hl
  rw [hlen]
  rfl

/-! Claim C9. -/

theorem filterMapM_loop_some {f : α → Except PyErr (Option β)} :
    ∀ (l : List α) (acc : List β), (∀ x ∈ l, ∃ b, f x = .ok (some b)) →
      ∃ res, List.filterMapM.loop f l acc = .ok (acc.reverse ++ res) ∧
        List.Forall₂ (fun x b => f x = .ok (some b)) l res := by
  intro l
  induction l with
  | nil =>
    intro acc h
    refine ⟨[], ?_, .nil⟩
    simp only [List.filterMapM.loop]
    rw [List.append_nil]
    rfl
  | cons a t ih =>
    intro acc h
    obtain ⟨b, hb⟩ := h a (List.mem_cons_self _ _)
    obtain ⟨res, hres, hfa⟩ := ih (b :: acc) (fun x hx => h x (List.mem_cons_of_mem _ hx))
    refine ⟨b :: res, ?_, .cons hb hfa⟩
    simp only [List.filterMapM.loop]
    rw [hb, ebind_ok]
    dsimp only
    rw [hres]
    simp [List.reverse_cons, List.append_assoc]

theorem filterMapM_all_some {f : α → Except PyErr (Option β)} {l : List α}
    (h : ∀ x ∈ l, ∃ b, f x = .ok (some b)) :
    ∃ parts, l.filterMapM f = .ok parts ∧
      List.Forall₂ (fun x b => f x = .ok (some b)) l parts := by
  obtain ⟨res, hres, hfa⟩ := filterMapM_loop_some l [] h
  refine ⟨res, ?_, hfa⟩
  rw [show l.filterMapM f = List.filterMapM.loop f l [] from rfl, hres]
  rfl

theorem joinNl_ne_nil {p : List Char} (ps : List (List Char)) (hp : p ≠ []) :
    joinNl (p :: ps) ≠ [] := by
  cases ps with
  | nil => exact hp
  | cons q r =>
    cases p with
    | nil => exact absurd rfl hp
    | cons c cs => exact fun hc => List.noConfusion hc

theorem renderBlock_ne_nil (format : List Char) (name : JVal)
    (kvs : List (List Char × JVal)) : renderBlock format name kvs ≠ [] := by
  unfold renderBlock
  by_cases hf : format = lc "qwen"
  · rw [if_pos hf]
    exact joinNl_ne_nil _ (fun hc => List.noConfusion hc)
  · rw [if_neg hf]
    exact joinNl_ne_nil _ (fun hc => List.noConfusion hc)

theorem renderOne_renders {format : List Char} {tc : ToolCall} {t : List Char}
    {kvs : List (List Char × JVal)} (harg : tc.function.arguments = .s t)
    (hload : loads t = .ok (.obj kvs)) :
    renderOne format tc = .ok (some (renderBlock format tc.function.name kvs)) := by
  unfold renderOne
  rw [harg]
  dsimp only
  rw [hload]

/-- Claim C9, counterexample: a non-empty record sequence for which to_xml
returns the empty string, because its single record's arguments text is not
valid JSON and the record is skipped. -/
theorem C9_counterexample :
    ([⟨⟨.s (lc "f"), .s (lc "oops")⟩⟩] : List ToolCall) ≠ [] ∧
    to_xml [⟨⟨.s (lc "f"), .s (lc "oops")⟩⟩] (lc "claude") = .ok [] := by
  exact ⟨fun hc => List.noConfusion hc, rfl⟩

/-- Claim C9 (corrected): to_json returns the empty string exactly on the
empty batch; to_xml returns the empty string on the empty batch, but on a
non-empty batch the output is non-empty only under the additional condition
that every record's arguments is a string parsing to a JSON object — a batch
whose records all fail to render also yields the empty string. -/
theorem C9_empty_string (format : List Char) :
    to_json [] = [] ∧
    (∀ l, l ≠ [] → to_json l ≠ []) ∧
    to_xml [] format = .ok [] ∧
    (∀ l out, l ≠ [] →
      (∀ tc ∈ l, ∃ t kvs, tc.function.arguments = .s t ∧ loads t = .ok (.obj kvs)) →
      to_xml l format = .ok out → out ≠ []) := by
  refine ⟨rfl, ?_, rfl, ?_⟩
  · intro l hl
    cases l with
    | nil => exact absurd rfl hl
    | cons a t =>
      obtain ⟨rest, hhead⟩ : ∃ rest, to_json (a :: t) = '[' :: rest := ⟨_, rfl⟩
      rw [hhead]
      exact fun hc => List.noConfusion hc
  · intro l out hl hall hx
    cases l with
    | nil => exact absurd rfl hl
    | cons a t =>
      have h' : ∀ x ∈ a :: t, ∃ b, renderOne format x = .ok (some b) := by
        intro x hx'
        obtain ⟨targ, kvs, harg, hload⟩ := hall x hx'
        exact ⟨_, renderOne_renders harg hload⟩
      obtain ⟨parts, hparts, hfa⟩ := filterMapM_all_some h'
      unfold to_xml at hx
      rw [if_neg (fun hc => Bool.noConfusion hc)] at hx
      rw [hparts, ebind_ok] at hx
      cases hx
      cases hfa with
      | cons hhead hrest =>
        rename_i b rest
        obtain ⟨targ, kvs, harg, hload⟩ := hall a (List.mem_cons_self _ _)
        have hb : b = renderBlock format a.function.name kvs := by
          have := (@renderOne_renders format a targ kvs harg hload).symm.trans hhead
          exact (Option.some.inj (Except.ok.inj this)).symm
        rw [hb]
        exact joinNl_ne_nil _ (renderBlock_ne_nil _ _ _)

/-- Claim C9, witness: the empty batch gives the empty string for both
serializers, and a renderable one-record batch gives a non-empty string for
both. -/
theorem C9_witness :
    to_json [] = [] ∧
    to_json [⟨⟨.s (lc "f"), .s (lc "\x7b\x7d")⟩⟩] ≠ [] ∧
    to_xml [] (lc "claude") = .ok [] ∧
    (∃ out, to_xml [⟨⟨.s (lc "f"), .s (lc "\x7b\x7d")⟩⟩] (lc "claude") = .ok out ∧
      out ≠ []) := by
  have h := C9_empty_string (lc "claude")
  refine ⟨h.1, h.2.1 _ (fun hc => List.noConfusion hc), h.2.2.1, ?_⟩
  refine ⟨joinNl [renderBlock (lc "claude") (.s (lc "f")) []], by rfl, ?_⟩
  refine h.2.2.2 [⟨⟨.s (lc "f"), .s (lc "\x7b\x7d")⟩⟩] _
    (fun hc => List.noConfusion hc) ?_ (by rfl)
  intro tc htc
  rw [List.mem_singleton] at htc
  subst htc
  exact ⟨lc "\x7b\x7d", [], rfl, by rfl⟩

/-! Claim C1. -/

theorem nestedUpdate_ok_inv {x y : JVal} (h : nestedUpdate x = .ok y) :
    ∃ d fd a, x = .obj d ∧ objLookup d (lc "function") = some (.obj fd) ∧
      objLookup fd (lc "arguments") = some a ∧
      y = .obj (objInsert d (lc "function")
        (.obj (objInsert fd (lc "arguments") (.s (dumps a))))) := by
  unfold nestedUpdate at h
  cases x with
  | obj d =>
    cases hf : objLookup d (lc "function") with
    | none => rw [pyIndex_obj_none hf, ebind_err] at h; exact Except.noConfusion h
    | some f =>
      rw [pyIndex_obj_some hf, ebind_ok] at h
      cases f with
      | obj fd =>
        cases ha : objLookup fd (lc "arguments") with
        | none => rw [pyIndex_obj_none ha, ebind_err] at h; exact Except.noConfusion h
        | some a =>
          rw [pyIndex_obj_some ha, ebind_ok] at h
          cases h
          exact ⟨d, fd, a, rfl, hf, ha, rfl⟩
      | null => exact Except.noConfusion h
      | b bb => exact Except.noConfusion h
      | i n => exact Except.noConfusion h
      | s t => exact Except.noConfusion h
      | arr l => exact Except.noConfusion h
  | null => exact Except.noConfusion h
  | b bb => exact Except.noConfusion h
  | i n => exact Except.noConfusion h
  | s t => exact Except.noConfusion h
  | arr l => exact Except.noConfusion h

theorem embedBlock_nonobj {js : List Char} {v : JVal} (hl : loads js = .ok v)
    (hv : isDict v = false) : embedBlock js = .error .attributeError := by
  unfold embedBlock
  rw [hl]
  cases v with
  | obj kvs => exact absurd hv (by simp [isDict])
  | null => rfl
  | b bb => rfl
  | i n => rfl
  | s t => rfl
  | arr l => rfl

theorem embedBlock_some_inv {js : List Char} {tc : ToolCall}
    (h : embedBlock js = .ok (some tc)) :
    ∃ kvs, loads js = .ok (.obj kvs) ∧
      ((objLookup kvs (lc "arguments")) = some tc.function.arguments ∨
       (∃ w, tc.function.arguments = .s w ∧ ∃ v, loads w = .ok v)) := by
  cases hl : loads js with
  | error e =>
    have := (embedBlock_badjson hl).symm.trans h
    exact absurd (Except.ok.inj this) (by simp)
  | ok v =>
    cases hd : isDict v with
    | false => exact Except.noConfusion ((embedBlock_nonobj hl hd).symm.trans h)
    | true =>
      obtain ⟨kvs, rfl⟩ : ∃ kvs, v = .obj kvs := by
        cases v <;> simp [isDict] at hd
        exact ⟨_, rfl⟩
      refine ⟨kvs, rfl, ?_⟩
      cases ha : objLookup kvs (lc "arguments") with
      | none =>
        have he := Option.some.inj (Except.ok.inj
          ((embedBlock_noargs hl ha).symm.trans h))
        refine .inr ⟨dumps (.obj []), ?_, .obj [], by rfl⟩
        rw [← he]
      | some v' =>
        cases hv : isStr v' with
        | true =>
          obtain ⟨t, rfl⟩ : ∃ t, v' = .s t := by
            cases v' <;> simp [isStr] at hv
            exact ⟨_, rfl⟩
          have he := Option.some.inj (Except.ok.inj
            ((embedBlock_str hl ha).symm.trans h))
          refine .inl ?_
          rw [← he]
        | false =>
          have he := Option.some.inj (Except.ok.inj
            ((embedBlock_nonstr hl ha hv).symm.trans h))
          refine .inr ⟨dumps v', ?_, v', loads_dumps (jwf_obj_lookup (loads_wf hl) ha)⟩
          rw [← he]

theorem jwf_coerce_foldl (params : List (List Char × List Char)) :
    ∀ acc, jwf (.obj acc) = true →
      jwf (.obj (params.foldl (fun ps p => coerceParam ps p.1 p.2) acc)) = true := by
  induction params with
  | nil => intro acc h; exact h
  | cons p t ih =>
    intro acc h
    rw [List.foldl_cons]
    apply ih
    simp only [jwf, Bool.and_eq_true] at h
    unfold coerceParam
    cases hl : loads (pyStrip p.2) with
    | ok parsed =>
      simp only [jwf, Bool.and_eq_true]
      exact ⟨keysFresh_objInsert _ _ h.1, jwfObj_objInsert _ _ h.2 (loads_wf hl)⟩
    | error e =>
      simp only [jwf, Bool.and_eq_true]
      exact ⟨keysFresh_objInsert _ _ h.1, jwfObj_objInsert _ _ h.2 rfl⟩

theorem paramBlock_args_valid {nm : List Char} {params : List (List Char × List Char)}
    {tc : ToolCall} (h : paramBlock nm params = .ok tc) :
    ∃ w, tc.function.arguments = .s w ∧ ∃ v, loads w = .ok v := by
  have he := Except.ok.inj ((paramBlock_ok nm params).symm.trans h)
  refine ⟨dumps (.obj (params.foldl (fun ps p => coerceParam ps p.1 p.2) [])), ?_, ?_⟩
  · rw [← he]
  · exact ⟨_, loads_dumps (jwf_coerce_foldl params [] rfl)⟩

/-- Claim C1 (corrected): a record's arguments field is valid JSON text
whenever it was produced by the serializer (nested dialect, parameter
blocks, non-string embedded or flat arguments), but the flat dialect passes
any non-dict arguments value through unchanged and the embedded convention
passes any string arguments value through unchanged, so the stored arguments
can be an arbitrary string (or even a non-string value) that is not valid
JSON text. -/
theorem C1_arguments_valid :
    (∀ s l, from_json s = .ok l → ∀ tc ∈ l,
      (∃ w, tc.function.arguments = .s w ∧ ∃ v, loads w = .ok v) ∨
      (∃ d, loads s = .ok (.obj d) ∧
        objLookup d (lc "arguments") = some tc.function.arguments ∧
        isDict tc.function.arguments = false)) ∧
    (∀ s l, from_xml s = .ok l → ∀ tc ∈ l,
      (∃ w, tc.function.arguments = .s w ∧ ∃ v, loads w = .ok v) ∨
      (∃ js kvs, js ∈ findToolCallJson s ∧ loads js = .ok (.obj kvs) ∧
        objLookup kvs (lc "arguments") = some tc.function.arguments)) := by
  constructor
  · intro s l h tc htc
    unfold from_json at h
    cases hload : loads s with
    | error e => rw [hload, ebind_err] at h; exact Except.noConfusion h
    | ok v =>
      rw [hload, ebind_ok] at h
      cases hflat : (isDict v && hasKey v (lc "name") && hasKey v (lc "arguments")) with
      | true =>
        rw [hflat, if_pos rfl] at h
        have hisd : isDict v = true := by
          simp only [Bool.and_eq_true] at hflat
          exact hflat.1.1
        obtain ⟨d, rfl⟩ : ∃ d, v = .obj d := by
          cases v <;> simp [isDict] at hisd
          exact ⟨_, rfl⟩
        have hn : (objLookup d (lc "name")).isSome := by
          simp only [Bool.and_eq_true] at hflat
          simpa [hasKey] using hflat.1.2
        have ha : (objLookup d (lc "arguments")).isSome := by
          simp only [Bool.and_eq_true] at hflat
          simpa [hasKey] using hflat.2
        obtain ⟨nm, hnm⟩ := Option.isSome_iff_exists.mp hn
        obtain ⟨args, hargs⟩ := Option.isSome_iff_exists.mp ha
        rw [pyIndex_obj_some hnm, ebind_ok, pyIndex_obj_some hargs, ebind_ok] at h
        dsimp only at h
        rw [show mkToolCall (.obj [(lc "function", .obj [(lc "name", nm),
          (lc "arguments", if isDict args then .s (dumps args) else args)])]) =
          .ok ⟨⟨nm, if isDict args then .s (dumps args) else args⟩⟩ from rfl,
          ebind_ok] at h
        cases h
        rw [List.mem_singleton] at htc
        subst htc
        cases hid : isDict args with
        | true =>
          refine .inl ⟨dumps args, ?_, args,
            loads_dumps (jwf_obj_lookup (loads_wf hload) hargs)⟩
          rw [if_pos rfl]
        | false =>
          refine .inr ⟨d, rfl, ?_, ?_⟩
          · rw [if_neg (fun hc => Bool.noConfusion hc)]
            exact hargs
          · rw [if_neg (fun hc => Bool.noConfusion hc)]
            exact hid
      | false =>
        rw [hflat, if_neg (fun hc => Bool.noConfusion hc)] at h
        dsimp only at h
        cases hupd : (match v with | .arr l' => l' | _ => [v]).mapM nestedUpdate with
        | error e => rw [hupd, ebind_err] at h; exact Except.noConfusion h
        | ok upd =>
          rw [hupd, ebind_ok] at h
          obtain ⟨y, hy, hmk⟩ := forall₂_mem_right (mapM_ok_forall₂ h) htc
          obtain ⟨x, hx, hnu⟩ := forall₂_mem_right (mapM_ok_forall₂ hupd) hy
          obtain ⟨d', fd', a, rfl, hf, haa, rfl⟩ := nestedUpdate_ok_inv hnu
          have hwfx : jwf (.obj d') = true := by
            cases v with
            | arr elems => exact jwf_arr_mem (loads_wf hload) hx
            | obj kvs =>
              rw [List.mem_singleton] at hx
              rw [hx]; exact loads_wf hload
            | null =>
              rw [List.mem_singleton] at hx
              rw [hx]; exact loads_wf hload
            | b bb =>
              rw [List.mem_singleton] at hx
              rw [hx]; exact loads_wf hload
            | i n =>
              rw [List.mem_singleton] at hx
              rw [hx]; exact loads_wf hload
            | s t =>
              rw [List.mem_singleton] at hx
              rw [hx]; exact loads_wf hload
          cases hnm : objLookup (objInsert fd' (lc "arguments") (.s (dumps a)))
              (lc "name") with
          | none =>
            rw [mkToolCall_no_name (objLookup_objInsert_self _ _ _) hnm] at hmk
            exact Except.noConfusion hmk
          | some nm =>
            rw [mkToolCall_ok (objLookup_objInsert_self _ _ _) hnm
              (objLookup_objInsert_self _ _ _)] at hmk
            have he := Except.ok.inj hmk
            refine .inl ⟨dumps a, ?_, a,
              loads_dumps (jwf_obj_lookup (jwf_obj_lookup hwfx hf) haa)⟩
            rw [← he]
  · intro s l h tc htc
    unfold from_xml at h
    cases hm : findToolCallJson s with
    | cons a rest =>
      rw [hm, if_pos (by rfl)] at h
      cases hmm : (a :: rest).mapM embedBlock with
      | error e => rw [hmm, ebind_err] at h; exact Except.noConfusion h
      | ok r =>
        rw [hmm, ebind_ok] at h
        cases h
        obtain ⟨o, ho, hid⟩ := List.mem_filterMap.mp htc
        obtain rfl : o = some tc := hid
        obtain ⟨js, hjs, hblk⟩ := forall₂_mem_right (mapM_ok_forall₂ hmm) ho
        obtain ⟨kvs, hljs, hcase⟩ := embedBlock_some_inv hblk
        rcases hcase with hpass | hvalid
        · exact .inr ⟨js, kvs, hm ▸ hjs, hljs, hpass⟩
        · exact .inl hvalid
    | nil =>
      rw [hm, if_neg (by decide)] at h
      dsimp only at h
      cases hq : (findQwenCalls s).isEmpty with
      | false =>
        rw [hq, if_pos (by rfl)] at h
        obtain ⟨m, hmem, hpb⟩ := forall₂_mem_right (mapM_ok_forall₂ h) htc
        exact .inl (paramBlock_args_valid hpb)
      | true =>
        rw [hq, if_neg (by decide)] at h
        obtain ⟨m, hmem, hpb⟩ := forall₂_mem_right (mapM_ok_forall₂ h) htc
        exact .inl (paramBlock_args_valid hpb)

/-- Claim C1, counterexample: the flat dialect stores the arguments string
"hello" unchanged, and "hello" is not valid JSON text. -/
theorem C1_counterexample :
    from_json (lc "\x7b\"name\":\"f\",\"arguments\":\"hello\"\x7d") =
      .ok [⟨⟨.s (lc "f"), .s (lc "hello")⟩⟩] ∧
    loads (lc "hello") = .error .jsonDecodeError := ⟨rfl, rfl⟩

/-- Claim C1, witness: a record produced by from_json with dict arguments
carries valid JSON text, and a record produced by from_xml from an embedded
block with a string arguments value carries that string through. -/
theorem C1_witness :
    ((∃ w, (⟨⟨.s (lc "f"), .s (lc "\x7b\"a\": 1\x7d")⟩⟩ :
        ToolCall).function.arguments = .s w ∧ ∃ v, loads w = .ok v) ∨
      (∃ d, loads (lc "\x7b\"name\":\"f\",\"arguments\":\x7b\"a\":1\x7d\x7d") =
          .ok (.obj d) ∧
        objLookup d (lc "arguments") =
          some (⟨⟨.s (lc "f"), .s (lc "\x7b\"a\": 1\x7d")⟩⟩ :
            ToolCall).function.arguments ∧
        isDict (⟨⟨.s (lc "f"), .s (lc "\x7b\"a\": 1\x7d")⟩⟩ :
            ToolCall).function.arguments = false)) ∧
    ((∃ w, (⟨⟨.s (lc "g"), .s (lc "oops")⟩⟩ :
        ToolCall).function.arguments = .s w ∧ ∃ v, loads w = .ok v) ∨
      (∃ js kvs, js ∈ findToolCallJson
          (lc "<tool_call>\x7b\"name\":\"g\",\"arguments\":\"oops\"\x7d</tool_call>") ∧
        loads js = .ok (.obj kvs) ∧
        objLookup kvs (lc "arguments") =
          some (⟨⟨.s (lc "g"), .s (lc "oops")⟩⟩ : ToolCall).function.arguments)) := by
  constructor
  · exact C1_arguments_valid.1 (lc "\x7b\"name\":\"f\",\"arguments\":\x7b\"a\":1\x7d\x7d")
      [⟨⟨.s (lc "f"), .s (lc "\x7b\"a\": 1\x7d")⟩⟩] (by rfl) _
      (List.mem_singleton.mpr rfl)
  · exact C1_arguments_valid.2
      (lc "<tool_call>\x7b\"name\":\"g\",\"arguments\":\"oops\"\x7d</tool_call>")
      [⟨⟨.s (lc "g"), .s (lc "oops")⟩⟩] (by rfl) _
      (List.mem_singleton.mpr rfl)

/-! Claim C2: machinery for scanning the constructed XML text. -/

theorem isPrefixOf_append_self (l X : List Char) : l.isPrefixOf (l ++ X) = true :=
  List.isPrefixOf_iff_prefix.mpr ⟨X, rfl⟩

theorem dropLit_self (l s : List Char) : dropLit l (l ++ s) = some s := by
  induction l with
  | nil => rfl
  | cons c t ih => simpa [dropLit] using ih

theorem dropLit_head_ne {l s : List Char} {a c : Char} (h : a ≠ c) :
    dropLit (c :: l) (a :: s) = none := by
  simp [dropLit, h]

theorem dropLit_none_of_conflicts : ∀ {X lit u : List Char},
    conflicts X lit = true → X <+: u → dropLit lit u = none := by
  intro X
  induction X with
  | nil => intro lit u h; simp [conflicts] at h
  | cons a x ih =>
    intro lit u h hpre
    cases lit with
    | nil => simp [conflicts] at h
    | cons b y =>
      obtain ⟨t0, rfl⟩ := hpre
      simp only [conflicts, Bool.or_eq_true, bne_iff_ne] at h
      by_cases hab : a = b
      · subst hab
        rcases h with hne | hxy
        · exact absurd rfl hne
        · simpa [dropLit] using ih hxy ⟨t0, by simp⟩
      · simp [List.cons_append, dropLit, hab]

theorem ltTagged_cons (tags : List (List Char)) (c : Char) (t : List Char) :
    ltTagged tags (c :: t) =
      ((if c = '<' then tags.any (fun tag => tag.isPrefixOf (c :: t)) else true)
        && ltTagged tags t) := rfl

theorem ltTagged_of_ltFree {tags : List (List Char)} {A : List Char}
    (h : A.all (fun c => c != '<') = true) : ltTagged tags A = true := by
  induction A with
  | nil => rfl
  | cons c t ih =>
    simp only [List.all_cons, Bool.and_eq_true, bne_iff_ne] at h
    rw [ltTagged_cons, if_neg h.1]
    simpa using ih h.2

theorem ltTagged_append {tags : List (List Char)} {A B : List Char}
    (hA : ltTagged tags A = true) (hB : ltTagged tags B = true) :
    ltTagged tags (A ++ B) = true := by
  induction A with
  | nil => exact hB
  | cons c t ih =>
    rw [ltTagged_cons, Bool.and_eq_true] at hA
    rw [List.cons_append, ltTagged_cons, Bool.and_eq_true]
    refine ⟨?_, ih hA.2⟩
    by_cases hc : c = '<'
    · rw [if_pos hc]
      rw [if_pos hc] at hA
      obtain ⟨tag, htag, hpre⟩ := List.any_eq_true.mp hA.1
      refine List.any_eq_true.mpr ⟨tag, htag, ?_⟩
      obtain ⟨t0, ht0⟩ := List.isPrefixOf_iff_prefix.mp hpre
      exact List.isPrefixOf_iff_prefix.mpr ⟨t0 ++ B, by rw [← List.append_assoc, ht0]; rfl⟩
    · rw [if_neg hc]

theorem ltTagged_tag_append {tags : List (List Char)} {r : List Char}
    (hmem : ('<' :: r) ∈ tags) (hr : r.all (fun c => c != '<') = true)
    {X : List Char} (hX : ltTagged tags X = true) :
    ltTagged tags (('<' :: r) ++ X) = true := by
  rw [List.cons_append, ltTagged_cons, Bool.and_eq_true]
  constructor
  · rw [if_pos rfl]
    exact List.any_eq_true.mpr ⟨'<' :: r, hmem,
      by rw [← List.cons_append]; exact isPrefixOf_append_self _ _⟩
  · exact ltTagged_append (ltTagged_of_ltFree hr) hX

theorem ltTagged_tag2_append {tags : List (List Char)} {a b : List Char}
    (hmem : ('<' :: a ++ '<' :: b) ∈ tags) (hmem1 : ('<' :: b) ∈ tags)
    (ha : a.all (fun c => c != '<') = true) (hb : b.all (fun c => c != '<') = true)
    {X : List Char} (hX : ltTagged tags X = true) :
    ltTagged tags (('<' :: a ++ '<' :: b) ++ X) = true := by
  rw [show (('<' :: a ++ '<' :: b) ++ X : List Char) =
      '<' :: (a ++ (('<' :: b) ++ X)) from by simp]
  rw [ltTagged_cons, Bool.and_eq_true]
  constructor
  · rw [if_pos rfl]
    refine List.any_eq_true.mpr ⟨'<' :: a ++ '<' :: b, hmem, ?_⟩
    refine List.isPrefixOf_iff_prefix.mpr ⟨X, by simp⟩
  · exact ltTagged_append (ltTagged_of_ltFree ha) (ltTagged_tag_append hmem1 hb hX)

theorem tagged_suffix_none {γ : Type} {stop : List Char → Option γ}
    {tags : List (List Char)}
    (hhead : ∀ (c : Char) (u : List Char), c ≠ '<' → stop (c :: u) = none)
    (htag : ∀ tag ∈ tags, ∀ x, stop (tag ++ x) = none) :
    ∀ {A : List Char}, ltTagged tags A = true →
      ∀ u B, u <:+ A → u ≠ [] → stop (u ++ B) = none := by
  intro A
  induction A with
  | nil =>
    intro _ u B hu hne
    exact absurd (List.suffix_nil.mp hu) hne
  | cons c t ih =>
    intro hA u B hu hne
    rw [ltTagged_cons, Bool.and_eq_true] at hA
    rcases (List.suffix_cons_iff.mp hu) with rfl | hu'
    · by_cases hc : c = '<'
      · subst hc
        rw [if_pos rfl] at hA
        obtain ⟨tag, htg, hpre⟩ := List.any_eq_true.mp hA.1
        obtain ⟨t0, ht0⟩ := List.isPrefixOf_iff_prefix.mp hpre
        rw [← ht0, List.append_assoc]
        exact htag tag htg (t0 ++ B)
      · rw [List.cons_append]
        exact hhead c (t ++ B) hc
    · exact ih hA.2 u B hu' hne

theorem lazyFind_here {α : Type} {stop : List Char → Option α} {s : List Char} {a : α}
    (h : stop s = some a) : lazyFind stop s = some ([], a) := by
  cases s with
  | nil => simp [lazyFind, h]
  | cons c t => simp [lazyFind, h]

theorem lazyFind_split {α : Type} {stop : List Char → Option α} :
    ∀ (pre : List Char) {suf : List Char} {a : α},
      (∀ u, u <:+ pre → u ≠ [] → stop (u ++ suf) = none) →
      stop suf = some a →
      lazyFind stop (pre ++ suf) = some (pre, a) := by
  intro pre
  induction pre with
  | nil => intro suf a _ h2; exact lazyFind_here h2
  | cons c p ih =>
    intro suf a h1 h2
    rw [List.cons_append]
    rw [show lazyFind stop (c :: (p ++ suf)) =
      (match stop (c :: (p ++ suf)) with
       | some a => some ([], a)
       | none => (lazyFind stop (p ++ suf)).map
           (fun pa => (c :: pa.1, pa.2))) from rfl]
    rw [show stop (c :: (p ++ suf)) = none from by
      have := h1 (c :: p) (List.suffix_refl _) (fun hc => List.noConfusion hc)
      rw [List.cons_append] at this
      exact this]
    rw [ih (fun u hu hne => h1 u (hu.trans (List.suffix_cons c p)) hne) h2]
    rfl

theorem scanAll_match_head {α : Type} {m : List Char → Option (α × List Char)}
    {s rest : List Char} {a : α} (h : m s = some (a, rest))
    (hlen : rest.length < s.length) : scanAll m s = a :: scanAll m rest := by
  cases s with
  | nil => exact absurd hlen (by simp)
  | cons c t =>
    exact scanAll_cons_some h (by
      simp only [List.length_cons] at hlen
      omega)

theorem matchEmbedded_of_dropLit {s : List Char}
    (h : dropLit (lc "<tool_call>") s = none) : matchEmbedded s = none := by
  unfold matchEmbedded
  rw [h]
  rfl

theorem matchQwenCall_of_dropLit {s : List Char}
    (h : dropLit (lc "<tool_call>") s = none) : matchQwenCall s = none := by
  unfold matchQwenCall
  rw [h]
  rfl

theorem matchQwenParam_of_dropLit {s : List Char}
    (h : dropLit (lc "<parameter=") s = none) : matchQwenParam s = none := by
  unfold matchQwenParam
  rw [h]
  rfl

theorem matchInvoke_of_dropLit {s : List Char}
    (h : dropLit (lc "<invoke name=\"") s = none) : matchInvoke s = none := by
  unfold matchInvoke
  rw [h]
  rfl

theorem matchParam_of_dropLit {s : List Char}
    (h : dropLit (lc "<parameter name=\"") s = none) : matchParam s = none := by
  unfold matchParam
  rw [h]
  rfl

theorem matchEmbedded_head_ne {c : Char} {u : List Char} (h : c ≠ '<') :
    matchEmbedded (c :: u) = none :=
  matchEmbedded_of_dropLit (by
    rw [show lc "<tool_call>" = '<' :: lc "tool_call>" from rfl]
    exact dropLit_head_ne h)

theorem matchQwenCall_head_ne {c : Char} {u : List Char} (h : c ≠ '<') :
    matchQwenCall (c :: u) = none :=
  matchQwenCall_of_dropLit (by
    rw [show lc "<tool_call>" = '<' :: lc "tool_call>" from rfl]
    exact dropLit_head_ne h)

theorem matchQwenParam_head_ne {c : Char} {u : List Char} (h : c ≠ '<') :
    matchQwenParam (c :: u) = none :=
  matchQwenParam_of_dropLit (by
    rw [show lc "<parameter=" = '<' :: lc "parameter=" from rfl]
    exact dropLit_head_ne h)

theorem matchInvoke_head_ne {c : Char} {u : List Char} (h : c ≠ '<') :
    matchInvoke (c :: u) = none :=
  matchInvoke_of_dropLit (by
    rw [show lc "<invoke name=\"" = '<' :: lc "invoke name=\"" from rfl]
    exact dropLit_head_ne h)

theorem matchParam_head_ne {c : Char} {u : List Char} (h : c ≠ '<') :
    matchParam (c :: u) = none :=
  matchParam_of_dropLit (by
    rw [show lc "<parameter name=\"" = '<' :: lc "parameter name=\"" from rfl]
    exact dropLit_head_ne h)

theorem skipWs_cons_ws {c : Char} {x : List Char} (h : isPyWs c = true) :
    skipWs (c :: x) = skipWs x := by
  simp [skipWs, List.dropWhile_cons, h]

theorem pyStrip_id {y : List Char} (h1 : ∀ c, y.head? = some c → isPyWs c = false)
    (h2 : ∀ c, y.getLast? = some c → isPyWs c = false) : pyStrip y = y := by
  unfold pyStrip
  rw [dropWhile_head_false h1]
  rw [dropWhile_head_false (by
    intro c hc
    rw [List.head?_reverse] at hc
    exact h2 c hc)]
  exact List.reverse_reverse y

theorem pyStrip_nl_wrap {y : List Char}
    (h1 : ∀ c, y.head? = some c → isPyWs c = false)
    (h2 : ∀ c, y.getLast? = some c → isPyWs c = false) :
    pyStrip ('\n' :: y ++ ['\n']) = y := by
  unfold pyStrip
  rw [show ('\n' :: y ++ ['\n'] : List Char) = '\n' :: (y ++ ['\n']) from rfl]
  rw [List.dropWhile_cons, if_pos (by decide)]
  cases y with
  | nil => rfl
  | cons c t =>
    simp only [List.cons_append]
    have h5 : List.dropWhile isPyWs (c :: (t ++ ['\n'])) = c :: (t ++ ['\n']) := by
      rw [List.dropWhile_cons, if_neg (by rw [h1 c rfl]; exact fun hc => Bool.noConfusion hc)]
    rw [h5]
    rw [show (c :: (t ++ ['\n'])).reverse = '\n' :: (c :: t).reverse from by simp]
    rw [List.dropWhile_cons, if_pos (by decide)]
    rw [dropWhile_head_false (fun c' hc' => by
      rw [List.head?_reverse] at hc'
      exact h2 c' hc')]
    exact List.reverse_reverse _

theorem takeTill_append {stopCh : Char} {k r : List Char}
    (hk : k.all (fun c => c != stopCh) = true) :
    takeTill stopCh (k ++ stopCh :: r) = (k, stopCh :: r) := by
  have hall : ∀ c ∈ k, (c != stopCh) = true := List.all_eq_true.mp hk
  unfold takeTill
  rw [takeWhile_append_all k _ hall, dropWhile_append_all k _ hall]
  rw [takeWhile_head_false (fun c hc => by cases hc; simp)]
  rw [dropWhile_head_false (fun c hc => by cases hc; simp)]
  rw [List.append_nil]

theorem joinNl_cons_of_ne (p : List Char) (ps : List (List Char)) (h : ps ≠ []) :
    joinNl (p :: ps) = p ++ '\n' :: joinNl ps := by
  cases ps with
  | nil => exact absurd rfl h
  | cons q r => rfl

theorem joinNl_append_cons : ∀ (l : List (List Char)) (x : List Char)
    (X : List (List Char)),
    joinNl (l ++ x :: X) = (l.flatMap fun p => p ++ ['\n']) ++ joinNl (x :: X) := by
  intro l
  induction l with
  | nil => intro x X; rfl
  | cons a t ih =>
    intro x X
    rw [List.cons_append, joinNl_cons_of_ne a (t ++ x :: X) (by simp)]
    rw [ih]
    simp [List.append_assoc]

theorem safeKey_ltFree {k : List Char} (h : safeKey k = true) :
    k.all (fun c => c != '<') = true := by
  simp only [safeKey, Bool.and_eq_true] at h
  refine List.all_eq_true.mpr fun c hc => ?_
  have := List.all_eq_true.mp h.2 c hc
  simp only [Bool.and_eq_true] at this
  exact this.1.1

theorem safeKey_ne_gt {k : List Char} (h : safeKey k = true) :
    k.all (fun c => c != '>') = true := by
  simp only [safeKey, Bool.and_eq_true] at h
  refine List.all_eq_true.mpr fun c hc => ?_
  have := List.all_eq_true.mp h.2 c hc
  simp only [Bool.and_eq_true] at this
  exact this.1.2

theorem safeKey_ne_quote {k : List Char} (h : safeKey k = true) :
    k.all (fun c => c != '"') = true := by
  simp only [safeKey, Bool.and_eq_true] at h
  refine List.all_eq_true.mpr fun c hc => ?_
  have := List.all_eq_true.mp h.2 c hc
  simp only [Bool.and_eq_true] at this
  exact this.2

theorem safeKey_ne_nil {k : List Char} (h : safeKey k = true) : k.isEmpty = false := by
  simp only [safeKey, Bool.and_eq_true, Bool.not_eq_true'] at h
  exact h.1

theorem safeVal_ltFree {v : JVal} (h : safeVal v = true) :
    (valStr v).all (fun c => c != '<') = true := by
  simp only [safeVal, Bool.and_eq_true] at h
  exact h.1.1

theorem safeVal_noWsEdge {v : JVal} (h : safeVal v = true) :
    noWsEdge (valStr v) = true := by
  simp only [safeVal, Bool.and_eq_true] at h
  exact h.1.2

theorem noWsEdge_head {y : List Char} (h : noWsEdge y = true) :
    ∀ c, y.head? = some c → isPyWs c = false := by
  intro c hc
  simp only [noWsEdge, Bool.and_eq_true] at h
  have := h.1
  rw [hc] at this
  simpa using this

theorem noWsEdge_last {y : List Char} (h : noWsEdge y = true) :
    ∀ c, y.getLast? = some c → isPyWs c = false := by
  intro c hc
  simp only [noWsEdge, Bool.and_eq_true] at h
  have := h.2
  rw [hc] at this
  simpa using this

theorem flatMap_map_nl (kvs : List (List Char × JVal)) :
    ((kvs.map fun p => lc "<parameter name=\"" ++ p.1 ++ lc "\">" ++ valStr p.2 ++
      lc "</parameter>")).flatMap (fun p => p ++ ['\n']) =
    kvs.flatMap (fun p => paramLineC p ++ ['\n']) := by
  induction kvs with
  | nil => rfl
  | cons p t ih =>
    rw [List.map_cons, List.flatMap_cons, List.flatMap_cons, ih]
    simp [paramLineC, List.append_assoc]

theorem flatMap_chunk3 (kvs : List (List Char × JVal)) :
    ((kvs.flatMap fun p => [lc "<parameter=" ++ p.1 ++ ['>'], valStr p.2,
      lc "</parameter>"])).flatMap (fun p => p ++ ['\n']) =
    kvs.flatMap (fun p => paramChunkQ p ++ ['\n']) := by
  induction kvs with
  | nil => rfl
  | cons p t ih =>
    rw [List.flatMap_cons, List.flatMap_append, ih, List.flatMap_cons]
    simp [List.flatMap_cons, paramChunkQ, List.append_assoc]

theorem renderBlock_claude_shape {fmt : List Char} (hq : fmt ≠ lc "qwen")
    (nm : List Char) (kvs : List (List Char × JVal)) :
    renderBlock fmt (.s nm) kvs =
      lc "<invoke name=\"" ++ nm ++ lc "\">" ++ bodyC kvs ++ lc "</invoke>" := by
  unfold renderBlock
  rw [if_neg hq]
  rw [List.cons_append]
  rw [joinNl_cons_of_ne _ _ (by simp)]
  rw [joinNl_append_cons]
  rw [flatMap_map_nl]
  simp [pyStr, bodyC, List.append_assoc, joinNl]

theorem renderBlock_qwen_shape (nm : List Char) (kvs : List (List Char × JVal)) :
    renderBlock (lc "qwen") (.s nm) kvs =
      lc "<tool_call>" ++ '\n' :: lc "<function=" ++ nm ++ '>' :: bodyQ kvs ++
        lc "</function>" ++ '\n' :: lc "</tool_call>" := by
  unfold renderBlock
  rw [if_pos rfl]
  rw [List.cons_append, List.cons_append]
  rw [joinNl_cons_of_ne _ _ (by simp)]
  rw [joinNl_cons_of_ne _ _
    (fun hc => by have h9 := congrArg List.length hc; simp at h9)]
  rw [joinNl_append_cons]
  rw [flatMap_chunk3]
  simp [pyStr, bodyQ, List.append_assoc, joinNl]

theorem ltTagged_mono {tags tags' : List (List Char)} (hsub : ∀ x ∈ tags, x ∈ tags') :
    ∀ {A : List Char}, ltTagged tags A = true → ltTagged tags' A = true := by
  intro A
  induction A with
  | nil => intro _; rfl
  | cons c t ih =>
    intro h
    rw [ltTagged_cons, Bool.and_eq_true] at h
    rw [ltTagged_cons, Bool.and_eq_true]
    refine ⟨?_, ih h.2⟩
    by_cases hc : c = '<'
    · rw [if_pos hc]
      have h1 := h.1
      rw [if_pos hc] at h1
      obtain ⟨tag, htag, hpre⟩ := List.any_eq_true.mp h1
      exact List.any_eq_true.mpr ⟨tag, hsub tag htag, hpre⟩
    · rw [if_neg hc]

theorem ltTagged_paramsC : ∀ (kvs : List (List Char × JVal)),
    (∀ p ∈ kvs, safeKey p.1 = true ∧ safeVal p.2 = true) →
    ltTagged [lc "<parameter name=\"", lc "</parameter>"]
      (kvs.flatMap fun p => paramLineC p ++ ['\n']) = true := by
  intro kvs
  induction kvs with
  | nil => intro _; rfl
  | cons p t ih =>
    intro h
    rw [List.flatMap_cons]
    have h1 := (h p (List.mem_cons_self _ _)).1
    have h2 := (h p (List.mem_cons_self _ _)).2
    have hrest := ih (fun q hq => h q (List.mem_cons_of_mem _ hq))
    rw [show (paramLineC p ++ ['\n']) ++ (t.flatMap fun q => paramLineC q ++ ['\n'])
        = ('<' :: lc "parameter name=\"") ++ (p.1 ++ (lc "\">" ++ (valStr p.2 ++
          (('<' :: lc "/parameter>") ++
            ('\n' :: t.flatMap fun q => paramLineC q ++ ['\n']))))) from by
      simp only [paramLineC, List.append_assoc]
      rw [show lc "<parameter name=\"" = '<' :: lc "parameter name=\"" from rfl,
        show lc "</parameter>" = '<' :: lc "/parameter>" from rfl]
      simp [List.cons_append, List.append_assoc]]
    apply ltTagged_tag_append (List.mem_cons_self _ _) (by rfl)
    apply ltTagged_append (ltTagged_of_ltFree (safeKey_ltFree h1))
    apply ltTagged_append (ltTagged_of_ltFree (by rfl))
    apply ltTagged_append (ltTagged_of_ltFree (safeVal_ltFree h2))
    apply ltTagged_tag_append (List.mem_cons_of_mem _ (List.mem_cons_self _ _)) (by rfl)
    rw [ltTagged_cons, if_neg (by decide)]
    simpa using hrest

theorem ltTagged_bodyC {kvs : List (List Char × JVal)}
    (hkvs : ∀ p ∈ kvs, safeKey p.1 = true ∧ safeVal p.2 = true) :
    ltTagged [lc "<parameter name=\"", lc "</parameter>"] (bodyC kvs) = true := by
  unfold bodyC
  rw [ltTagged_cons, if_neg (by decide)]
  simpa using ltTagged_paramsC kvs hkvs

theorem ltTagged_paramsQ : ∀ (kvs : List (List Char × JVal)),
    (∀ p ∈ kvs, safeKey p.1 = true ∧ safeVal p.2 = true) →
    ltTagged [lc "<parameter=", lc "</parameter>"]
      (kvs.flatMap fun p => paramChunkQ p ++ ['\n']) = true := by
  intro kvs
  induction kvs with
  | nil => intro _; rfl
  | cons p t ih =>
    intro h
    rw [List.flatMap_cons]
    have h1 := (h p (List.mem_cons_self _ _)).1
    have h2 := (h p (List.mem_cons_self _ _)).2
    have hrest := ih (fun q hq => h q (List.mem_cons_of_mem _ hq))
    rw [show (paramChunkQ p ++ ['\n']) ++ (t.flatMap fun q => paramChunkQ q ++ ['\n'])
        = ('<' :: lc "parameter=") ++ (p.1 ++ ('>' :: '\n' :: (valStr p.2 ++
          ('\n' :: (('<' :: lc "/parameter>") ++
            ('\n' :: t.flatMap fun q => paramChunkQ q ++ ['\n'])))))) from by
      simp only [paramChunkQ, List.append_assoc]
      rw [show lc "<parameter=" = '<' :: lc "parameter=" from rfl,
        show lc "</parameter>" = '<' :: lc "/parameter>" from rfl]
      simp [List.cons_append, List.append_assoc]]
    apply ltTagged_tag_append (List.mem_cons_self _ _) (by rfl)
    apply ltTagged_append (ltTagged_of_ltFree (safeKey_ltFree h1))
    rw [ltTagged_cons, if_neg (by decide), Bool.true_and]
    rw [ltTagged_cons, if_neg (by decide), Bool.true_and]
    apply ltTagged_append (ltTagged_of_ltFree (safeVal_ltFree h2))
    rw [ltTagged_cons, if_neg (by decide), Bool.true_and]
    apply ltTagged_tag_append (List.mem_cons_of_mem _ (List.mem_cons_self _ _)) (by rfl)
    rw [ltTagged_cons, if_neg (by decide), Bool.true_and]
    exact hrest

theorem ltTagged_bodyQ {kvs : List (List Char × JVal)}
    (hkvs : ∀ p ∈ kvs, safeKey p.1 = true ∧ safeVal p.2 = true) :
    ltTagged [lc "<parameter=", lc "</parameter>"] (bodyQ kvs) = true := by
  unfold bodyQ
  rw [ltTagged_cons, if_neg (by decide)]
  simpa using ltTagged_paramsQ kvs hkvs

theorem skipWs_lt (y : List Char) : skipWs ('<' :: y) = '<' :: y := by
  unfold skipWs
  rw [List.dropWhile_cons, if_neg (by decide)]

theorem dropLit_inv_head {c : Char} {u : List Char} (hc : c ≠ '<') :
    dropLit (lc "</invoke>") (c :: u) = none := by
  rw [show lc "</invoke>" = '<' :: lc "/invoke>" from rfl]
  exact dropLit_head_ne hc

theorem dropLit_par_head {c : Char} {u : List Char} (hc : c ≠ '<') :
    dropLit (lc "</parameter>") (c :: u) = none := by
  rw [show lc "</parameter>" = '<' :: lc "/parameter>" from rfl]
  exact dropLit_head_ne hc

theorem dropLit_fn_head {c : Char} {u : List Char} (hc : c ≠ '<') :
    dropLit (lc "</function>") (c :: u) = none := by
  rw [show lc "</function>" = '<' :: lc "/function>" from rfl]
  exact dropLit_head_ne hc

theorem matchParam_line {k : List Char} {v : JVal} {rest : List Char}
    (hk : safeKey k = true) (hv : safeVal v = true) :
    matchParam (paramLineC (k, v) ++ rest) = some ((k, valStr v), rest) := by
  unfold matchParam
  rw [show paramLineC (k, v) ++ rest = lc "<parameter name=\"" ++
      (k ++ ('"' :: '>' :: (valStr v ++ (lc "</parameter>" ++ rest)))) from by
    simp only [paramLineC, List.append_assoc]
    rw [show lc "\">" = '"' :: '>' :: [] from rfl]
    simp [List.cons_append, List.append_assoc]]
  rw [dropLit_self]
  simp only [Option.bind_eq_bind, Option.some_bind]
  rw [takeTill_append (safeKey_ne_quote hk)]
  dsimp only
  rw [safeKey_ne_nil hk]
  rw [if_neg (fun hc => Bool.noConfusion hc)]
  conv_lhs => whnf
  rw [lazyFind_split (valStr v) (fun u hu hne =>
    tagged_suffix_none (fun c u' hc => dropLit_par_head hc)
      (fun tag htag => absurd htag (List.not_mem_nil _))
      (ltTagged_of_ltFree (safeVal_ltFree hv)) u _ hu hne) (dropLit_self _ _)]
  rfl

theorem matchInvoke_block {nm : List Char} {kvs : List (List Char × JVal)}
    {rest : List Char} (hnm : safeKey nm = true)
    (hkvs : ∀ p ∈ kvs, safeKey p.1 = true ∧ safeVal p.2 = true) :
    matchInvoke (lc "<invoke name=\"" ++ nm ++ lc "\">" ++ bodyC kvs ++
      lc "</invoke>" ++ rest) = some ((nm, bodyC kvs), rest) := by
  unfold matchInvoke
  rw [show lc "<invoke name=\"" ++ nm ++ lc "\">" ++ bodyC kvs ++
      lc "</invoke>" ++ rest = lc "<invoke name=\"" ++
      (nm ++ ('"' :: '>' :: (bodyC kvs ++ (lc "</invoke>" ++ rest)))) from by
    simp only [List.append_assoc]
    rw [show lc "\">" = '"' :: '>' :: [] from rfl]
    simp [List.cons_append, List.append_assoc]]
  rw [dropLit_self]
  simp only [Option.bind_eq_bind, Option.some_bind]
  rw [takeTill_append (safeKey_ne_quote hnm)]
  dsimp only
  rw [safeKey_ne_nil hnm]
  rw [if_neg (fun hc => Bool.noConfusion hc)]
  conv_lhs => whnf
  rw [lazyFind_split (bodyC kvs) (fun u hu hne =>
    tagged_suffix_none (fun c u' hc => dropLit_inv_head hc)
      (fun tag htag x => by
        rcases List.mem_cons.mp htag with rfl | htag'
        · exact dropLit_none_of_conflicts (by rfl) ⟨x, rfl⟩
        · rcases List.mem_cons.mp htag' with rfl | htag''
          · exact dropLit_none_of_conflicts (by rfl) ⟨x, rfl⟩
          · exact absurd htag'' (List.not_mem_nil _))
      (ltTagged_bodyC hkvs) u _ hu hne) (dropLit_self _ _)]
  rfl

theorem matchQwenParam_chunk {k : List Char} {v : JVal} {rest : List Char}
    (hk : safeKey k = true) (hv : safeVal v = true) :
    matchQwenParam (paramChunkQ (k, v) ++ rest) =
      some ((k, '\n' :: valStr v ++ ['\n']), rest) := by
  have hfree : (('\n' :: valStr v ++ ['\n']) : List Char).all
      (fun c => c != '<') = true := by
    refine List.all_eq_true.mpr fun c hc => ?_
    rcases List.mem_append.mp hc with h | h
    · rcases List.mem_cons.mp h with rfl | h'
      · decide
      · exact List.all_eq_true.mp (safeVal_ltFree hv) c h'
    · rcases List.mem_singleton.mp h with rfl
      decide
  unfold matchQwenParam
  rw [show paramChunkQ (k, v) ++ rest = lc "<parameter=" ++
      (k ++ ('>' :: (('\n' :: valStr v ++ ['\n']) ++
        (lc "</parameter>" ++ rest)))) from by
    simp [paramChunkQ, List.cons_append, List.append_assoc]]
  rw [dropLit_self]
  simp only [Option.bind_eq_bind, Option.some_bind]
  rw [takeTill_append (safeKey_ne_gt hk)]
  dsimp only
  rw [safeKey_ne_nil hk]
  rw [if_neg (fun hc => Bool.noConfusion hc)]
  conv_lhs => whnf
  rw [lazyFind_split ('\n' :: valStr v ++ ['\n']) (fun u hu hne =>
    tagged_suffix_none (fun c u' hc => dropLit_par_head hc)
      (fun tag htag => absurd htag (List.not_mem_nil _))
      (ltTagged_of_ltFree hfree) u _ hu hne) (dropLit_self _ _)]
  rfl

theorem matchQwenCall_block {nm : List Char} {kvs : List (List Char × JVal)}
    {rest : List Char} (hnm : safeKey nm = true)
    (hkvs : ∀ p ∈ kvs, safeKey p.1 = true ∧ safeVal p.2 = true) :
    matchQwenCall (lc "<tool_call>" ++ '\n' :: lc "<function=" ++ nm ++ '>' ::
      bodyQ kvs ++ lc "</function>" ++ '\n' :: lc "</tool_call>" ++ rest) =
      some ((nm, bodyQ kvs), rest) := by
  unfold matchQwenCall
  rw [show lc "<tool_call>" ++ '\n' :: lc "<function=" ++ nm ++ '>' ::
      bodyQ kvs ++ lc "</function>" ++ '\n' :: lc "</tool_call>" ++ rest =
      lc "<tool_call>" ++ ('\n' :: (lc "<function=" ++ (nm ++ ('>' ::
        (bodyQ kvs ++ (lc "</function>" ++
          ('\n' :: (lc "</tool_call>" ++ rest)))))))) from by
    simp [List.cons_append, List.append_assoc]]
  rw [dropLit_self]
  simp only [Option.bind_eq_bind, Option.some_bind]
  rw [skipWs_cons_ws (by decide)]
  rw [show (lc "<function=" ++ (nm ++ ('>' :: (bodyQ kvs ++ (lc "</function>" ++
      ('\n' :: (lc "</tool_call>" ++ rest))))))) = '<' :: (lc "function=" ++
      (nm ++ ('>' :: (bodyQ kvs ++ (lc "</function>" ++
        ('\n' :: (lc "</tool_call>" ++ rest))))))) from rfl]
  rw [skipWs_lt]
  rw [show ('<' : Char) :: (lc "function=" ++ (nm ++ ('>' :: (bodyQ kvs ++
      (lc "</function>" ++ ('\n' :: (lc "</tool_call>" ++ rest))))))) =
      lc "<function=" ++ (nm ++ ('>' :: (bodyQ kvs ++ (lc "</function>" ++
        ('\n' :: (lc "</tool_call>" ++ rest)))))) from rfl]
  rw [dropLit_self]
  simp only [Option.bind_eq_bind, Option.some_bind]
  rw [takeTill_append (safeKey_ne_gt hnm)]
  dsimp only
  rw [safeKey_ne_nil hnm]
  rw [if_neg (fun hc => Bool.noConfusion hc)]
  conv_lhs => whnf
  rw [lazyFind_split (bodyQ kvs) (fun u hu hne =>
    tagged_suffix_none
      (fun c u' hc => by
        show (do
          let u1 ← dropLit (lc "</function>") (c :: u')
          dropLit (lc "</tool_call>") (skipWs u1)) = none
        rw [dropLit_fn_head hc]
        rfl)
      (fun tag htag x => by
        rcases List.mem_cons.mp htag with rfl | htag'
        · show (do
            let u1 ← dropLit (lc "</function>") (lc "<parameter=" ++ x)
            dropLit (lc "</tool_call>") (skipWs u1)) = none
          rw [dropLit_none_of_conflicts (X := lc "<parameter=") (by rfl) ⟨x, rfl⟩]
          rfl
        · rcases List.mem_cons.mp htag' with rfl | htag''
          · show (do
              let u1 ← dropLit (lc "</function>") (lc "</parameter>" ++ x)
              dropLit (lc "</tool_call>") (skipWs u1)) = none
            rw [dropLit_none_of_conflicts (X := lc "</parameter>") (by rfl) ⟨x, rfl⟩]
            rfl
          · exact absurd htag'' (List.not_mem_nil _))
      (ltTagged_bodyQ hkvs) u _ hu hne)
    (by
      show (do
        let u1 ← dropLit (lc "</function>") (lc "</function>" ++
          ('\n' :: (lc "</tool_call>" ++ rest)))
        dropLit (lc "</tool_call>") (skipWs u1)) = some rest
      rw [dropLit_self]
      simp only [Option.bind_eq_bind, Option.some_bind]
      rw [skipWs_cons_ws (by decide)]
      rw [show (lc "</tool_call>" ++ rest : List Char) =
        '<' :: (lc "/tool_call>" ++ rest) from rfl]
      rw [skipWs_lt]
      rw [show ('<' : Char) :: (lc "/tool_call>" ++ rest) =
        lc "</tool_call>" ++ rest from rfl]
      rw [dropLit_self])]
  rfl

theorem matchEmbedded_ttc (x : List Char) :
    matchEmbedded ((lc "<tool_call>" ++ '\n' :: lc "<function=") ++ x) = none := by
  unfold matchEmbedded
  rw [show (lc "<tool_call>" ++ '\n' :: lc "<function=") ++ x =
    lc "<tool_call>" ++ ('\n' :: (lc "<function=" ++ x)) from by
      simp [List.cons_append, List.append_assoc]]
  rw [dropLit_self]
  simp only [Option.bind_eq_bind, Option.some_bind]
  rw [skipWs_cons_ws (by decide)]
  rw [show lc "<function=" ++ x = '<' :: (lc "function=" ++ x) from rfl]
  rw [skipWs_lt]
  rfl

theorem length_lt_append {A B : List Char} (hA : A ≠ []) :
    B.length < (A ++ B).length := by
  rw [List.length_append]
  cases A with
  | nil => exact absurd rfl hA
  | cons c t => simp

theorem paramLineC_ne_nil (p : List Char × JVal) : paramLineC p ≠ [] :=
  fun hc => List.noConfusion hc

theorem paramChunkQ_ne_nil (p : List Char × JVal) : paramChunkQ p ≠ [] :=
  fun hc => List.noConfusion hc

theorem findParams_bodyC : ∀ (kvs : List (List Char × JVal)),
    (∀ p ∈ kvs, safeKey p.1 = true ∧ safeVal p.2 = true) →
    findParams (bodyC kvs) = kvs.map (fun p => (p.1, valStr p.2)) := by
  intro kvs
  induction kvs with
  | nil =>
    intro _
    show scanAll matchParam ('\n' :: []) = []
    rw [scanAll_cons_none (matchParam_head_ne (by decide))]
    rfl
  | cons p t ih =>
    intro h
    show scanAll matchParam (bodyC (p :: t)) = _
    rw [show bodyC (p :: t) = '\n' :: (paramLineC p ++
        ('\n' :: t.flatMap fun q => paramLineC q ++ ['\n'])) from by
      simp [bodyC, List.flatMap_cons, List.append_assoc]]
    rw [scanAll_cons_none (matchParam_head_ne (by decide))]
    rw [scanAll_match_head
      (matchParam_line (h p (List.mem_cons_self _ _)).1 (h p (List.mem_cons_self _ _)).2)
      (length_lt_append (paramLineC_ne_nil p))]
    rw [show ('\n' :: t.flatMap fun q => paramLineC q ++ ['\n'] : List Char) =
      bodyC t from rfl]
    rw [show scanAll matchParam (bodyC t) = findParams (bodyC t) from rfl]
    rw [ih (fun q hq => h q (List.mem_cons_of_mem _ hq))]
    rfl

theorem findQwenParams_bodyQ : ∀ (kvs : List (List Char × JVal)),
    (∀ p ∈ kvs, safeKey p.1 = true ∧ safeVal p.2 = true) →
    findQwenParams (bodyQ kvs) =
      kvs.map (fun p => (p.1, '\n' :: valStr p.2 ++ ['\n'])) := by
  intro kvs
  induction kvs with
  | nil =>
    intro _
    show scanAll matchQwenParam ('\n' :: []) = []
    rw [scanAll_cons_none (matchQwenParam_head_ne (by decide))]
    rfl
  | cons p t ih =>
    intro h
    show scanAll matchQwenParam (bodyQ (p :: t)) = _
    rw [show bodyQ (p :: t) = '\n' :: (paramChunkQ p ++
        ('\n' :: t.flatMap fun q => paramChunkQ q ++ ['\n'])) from by
      simp [bodyQ, List.flatMap_cons, List.append_assoc]]
    rw [scanAll_cons_none (matchQwenParam_head_ne (by decide))]
    rw [scanAll_match_head
      (matchQwenParam_chunk (h p (List.mem_cons_self _ _)).1
        (h p (List.mem_cons_self _ _)).2)
      (length_lt_append (paramChunkQ_ne_nil p))]
    rw [show ('\n' :: t.flatMap fun q => paramChunkQ q ++ ['\n'] : List Char) =
      bodyQ t from rfl]
    rw [show scanAll matchQwenParam (bodyQ t) = findQwenParams (bodyQ t) from rfl]
    rw [ih (fun q hq => h q (List.mem_cons_of_mem _ hq))]
    rfl

theorem findInvokes_text : ∀ (items : List (List Char × List (List Char × JVal))),
    (∀ it ∈ items, safeKey it.1 = true ∧
      ∀ p ∈ it.2, safeKey p.1 = true ∧ safeVal p.2 = true) →
    findInvokes (joinNl (items.map fun it =>
      lc "<invoke name=\"" ++ it.1 ++ lc "\">" ++ bodyC it.2 ++ lc "</invoke>")) =
    items.map (fun it => (it.1, bodyC it.2)) := by
  intro items
  induction items with
  | nil => intro _; rfl
  | cons it ts ih =>
    intro h
    have h1 := (h it (List.mem_cons_self _ _)).1
    have h2 := (h it (List.mem_cons_self _ _)).2
    rw [List.map_cons]
    cases hts : ts.map (fun it =>
        lc "<invoke name=\"" ++ it.1 ++ lc "\">" ++ bodyC it.2 ++ lc "</invoke>") with
    | nil =>
      have htsnil : ts = [] := by
        cases ts with
        | nil => rfl
        | cons a b => exact absurd hts (by simp)
      subst htsnil
      show scanAll matchInvoke
        (joinNl [lc "<invoke name=\"" ++ it.1 ++ lc "\">" ++ bodyC it.2 ++
          lc "</invoke>"]) = _
      rw [show joinNl [lc "<invoke name=\"" ++ it.1 ++ lc "\">" ++ bodyC it.2 ++
          lc "</invoke>"] = lc "<invoke name=\"" ++ it.1 ++ lc "\">" ++ bodyC it.2 ++
          lc "</invoke>" ++ [] from by simp [joinNl]]
      rw [scanAll_match_head (matchInvoke_block h1 h2)
        (length_lt_append (fun hc => List.noConfusion hc))]
      rfl
    | cons b bs =>
      rw [joinNl_cons_of_ne _ _ (fun hc => List.noConfusion hc)]
      rw [← hts]
      rw [show (lc "<invoke name=\"" ++ it.1 ++ lc "\">" ++ bodyC it.2 ++
          lc "</invoke>") ++ '\n' :: joinNl (ts.map fun it =>
            lc "<invoke name=\"" ++ it.1 ++ lc "\">" ++ bodyC it.2 ++ lc "</invoke>") =
          lc "<invoke name=\"" ++ it.1 ++ lc "\">" ++ bodyC it.2 ++ lc "</invoke>" ++
          ('\n' :: joinNl (ts.map fun it =>
            lc "<invoke name=\"" ++ it.1 ++ lc "\">" ++ bodyC it.2 ++ lc "</invoke>"))
        from by simp [List.append_assoc]]
      show scanAll matchInvoke _ = _
      rw [scanAll_match_head (matchInvoke_block h1 h2)
        (length_lt_append (fun hc => List.noConfusion hc))]
      rw [scanAll_cons_none (matchInvoke_head_ne (by decide))]
      rw [show scanAll matchInvoke (joinNl (ts.map fun it =>
          lc "<invoke name=\"" ++ it.1 ++ lc "\">" ++ bodyC it.2 ++ lc "</invoke>")) =
        findInvokes (joinNl (ts.map fun it =>
          lc "<invoke name=\"" ++ it.1 ++ lc "\">" ++ bodyC it.2 ++ lc "</invoke>"))
        from rfl]
      rw [ih (fun q hq => h q (List.mem_cons_of_mem _ hq))]
      rfl

theorem findQwenCalls_text : ∀ (items : List (List Char × List (List Char × JVal))),
    (∀ it ∈ items, safeKey it.1 = true ∧
      ∀ p ∈ it.2, safeKey p.1 = true ∧ safeVal p.2 = true) →
    findQwenCalls (joinNl (items.map fun it =>
      lc "<tool_call>" ++ '\n' :: lc "<function=" ++ it.1 ++ '>' :: bodyQ it.2 ++
        lc "</function>" ++ '\n' :: lc "</tool_call>")) =
    items.map (fun it => (it.1, bodyQ it.2)) := by
  intro items
  induction items with
  | nil => intro _; rfl
  | cons it ts ih =>
    intro h
    have h1 := (h it (List.mem_cons_self _ _)).1
    have h2 := (h it (List.mem_cons_self _ _)).2
    rw [List.map_cons]
    cases hts : ts.map (fun it =>
        lc "<tool_call>" ++ '\n' :: lc "<function=" ++ it.1 ++ '>' :: bodyQ it.2 ++
          lc "</function>" ++ '\n' :: lc "</tool_call>") with
    | nil =>
      have htsnil : ts = [] := by
        cases ts with
        | nil => rfl
        | cons a b => exact absurd hts (by simp)
      subst htsnil
      show scanAll matchQwenCall (joinNl [lc "<tool_call>" ++ '\n' ::
        lc "<function=" ++ it.1 ++ '>' :: bodyQ it.2 ++ lc "</function>" ++
        '\n' :: lc "</tool_call>"]) = _
      rw [show joinNl [lc "<tool_call>" ++ '\n' :: lc "<function=" ++ it.1 ++ '>' ::
          bodyQ it.2 ++ lc "</function>" ++ '\n' :: lc "</tool_call>"] =
          lc "<tool_call>" ++ '\n' :: lc "<function=" ++ it.1 ++ '>' :: bodyQ it.2 ++
          lc "</function>" ++ '\n' :: lc "</tool_call>" ++ [] from by simp [joinNl]]
      rw [scanAll_match_head (matchQwenCall_block h1 h2)
        (length_lt_append (fun hc => List.noConfusion hc))]
      rfl
    | cons b bs =>
      rw [joinNl_cons_of_ne _ _ (fun hc => List.noConfusion hc)]
      rw [← hts]
      rw [show (lc "<tool_call>" ++ '\n' :: lc "<function=" ++ it.1 ++ '>' ::
          bodyQ it.2 ++ lc "</function>" ++ '\n' :: lc "</tool_call>") ++
          '\n' :: joinNl (ts.map fun it =>
            lc "<tool_call>" ++ '\n' :: lc "<function=" ++ it.1 ++ '>' :: bodyQ it.2 ++
              lc "</function>" ++ '\n' :: lc "</tool_call>") =
          lc "<tool_call>" ++ '\n' :: lc "<function=" ++ it.1 ++ '>' :: bodyQ it.2 ++
          lc "</function>" ++ '\n' :: lc "</tool_call>" ++
          ('\n' :: joinNl (ts.map fun it =>
            lc "<tool_call>" ++ '\n' :: lc "<function=" ++ it.1 ++ '>' :: bodyQ it.2 ++
              lc "</function>" ++ '\n' :: lc "</tool_call>"))
        from by simp [List.append_assoc]]
      show scanAll matchQwenCall _ = _
      rw [scanAll_match_head (matchQwenCall_block h1 h2)
        (length_lt_append (fun hc => List.noConfusion hc))]
      rw [scanAll_cons_none (matchQwenCall_head_ne (by decide))]
      rw [show scanAll matchQwenCall (joinNl (ts.map fun it =>
          lc "<tool_call>" ++ '\n' :: lc "<function=" ++ it.1 ++ '>' :: bodyQ it.2 ++
            lc "</function>" ++ '\n' :: lc "</tool_call>")) =
        findQwenCalls (joinNl (ts.map fun it =>
          lc "<tool_call>" ++ '\n' :: lc "<function=" ++ it.1 ++ '>' :: bodyQ it.2 ++
            lc "</function>" ++ '\n' :: lc "</tool_call>")) from rfl]
      rw [ih (fun q hq => h q (List.mem_cons_of_mem _ hq))]
      rfl

theorem scan_none_of_tagged {α : Type} {m : List Char → Option (α × List Char)}
    {tags : List (List Char)}
    (hnil : m [] = none)
    (hhead : ∀ (c : Char) (u : List Char), c ≠ '<' → m (c :: u) = none)
    (htag : ∀ tag ∈ tags, ∀ x, m (tag ++ x) = none)
    {A : List Char} (hA : ltTagged tags A = true) :
    scanAll m A = [] := by
  apply scanAll_eq_nil
  intro u hu
  cases u with
  | nil => exact hnil
  | cons c t =>
    have := tagged_suffix_none hhead htag hA (c :: t) [] hu
      (fun hc => List.noConfusion hc)
    rw [List.append_nil] at this
    exact this

theorem ltTagged_blockC {nm : List Char} {kvs : List (List Char × JVal)}
    (h1 : safeKey nm = true)
    (h2 : ∀ p ∈ kvs, safeKey p.1 = true ∧ safeVal p.2 = true)
    {X : List Char}
    (hX : ltTagged [lc "<invoke name=\"", lc "<parameter name=\"",
      lc "</parameter>", lc "</invoke>"] X = true) :
    ltTagged [lc "<invoke name=\"", lc "<parameter name=\"",
      lc "</parameter>", lc "</invoke>"]
      ((lc "<invoke name=\"" ++ nm ++ lc "\">" ++ bodyC kvs ++ lc "</invoke>") ++ X)
      = true := by
  rw [show (lc "<invoke name=\"" ++ nm ++ lc "\">" ++ bodyC kvs ++
      lc "</invoke>") ++ X = ('<' :: lc "invoke name=\"") ++ (nm ++ (lc "\">" ++
      (bodyC kvs ++ (('<' :: lc "/invoke>") ++ X)))) from by
    simp only [List.append_assoc]
    rw [show lc "<invoke name=\"" = '<' :: lc "invoke name=\"" from rfl,
      show lc "</invoke>" = '<' :: lc "/invoke>" from rfl]
    all_goals simp [List.cons_append, List.append_assoc]]
  apply ltTagged_tag_append (List.mem_cons_self _ _) (by rfl)
  apply ltTagged_append (ltTagged_of_ltFree (safeKey_ltFree h1))
  apply ltTagged_append (ltTagged_of_ltFree (by rfl))
  apply ltTagged_append (ltTagged_mono
    (by intro x hx
        rcases List.mem_cons.mp hx with rfl | hx'
        · exact List.mem_cons_of_mem _ (List.mem_cons_self _ _)
        · rcases List.mem_cons.mp hx' with rfl | hx''
          · exact List.mem_cons_of_mem _ (List.mem_cons_of_mem _
              (List.mem_cons_self _ _))
          · exact absurd hx'' (List.not_mem_nil _))
    (ltTagged_bodyC h2))
  apply ltTagged_tag_append
    (List.mem_cons_of_mem _ (List.mem_cons_of_mem _ (List.mem_cons_of_mem _
      (List.mem_cons_self _ _)))) (by rfl)
  exact hX

theorem ltTagged_textC : ∀ (items : List (List Char × List (List Char × JVal))),
    (∀ it ∈ items, safeKey it.1 = true ∧
      ∀ p ∈ it.2, safeKey p.1 = true ∧ safeVal p.2 = true) →
    ltTagged [lc "<invoke name=\"", lc "<parameter name=\"",
      lc "</parameter>", lc "</invoke>"]
      (joinNl (items.map fun it =>
        lc "<invoke name=\"" ++ it.1 ++ lc "\">" ++ bodyC it.2 ++ lc "</invoke>"))
      = true := by
  intro items
  induction items with
  | nil => intro _; rfl
  | cons it ts ih =>
    intro h
    have h1 := (h it (List.mem_cons_self _ _)).1
    have h2 := (h it (List.mem_cons_self _ _)).2
    have hrest := ih (fun q hq => h q (List.mem_cons_of_mem _ hq))
    rw [List.map_cons]
    cases hts : ts.map (fun it =>
        lc "<invoke name=\"" ++ it.1 ++ lc "\">" ++ bodyC it.2 ++ lc "</invoke>") with
    | nil =>
      rw [show joinNl [lc "<invoke name=\"" ++ it.1 ++ lc "\">" ++ bodyC it.2 ++
          lc "</invoke>"] = (lc "<invoke name=\"" ++ it.1 ++ lc "\">" ++ bodyC it.2 ++
          lc "</invoke>") ++ [] from by simp [joinNl]]
      exact ltTagged_blockC h1 h2 (by rfl)
    | cons b bs =>
      rw [joinNl_cons_of_ne _ _ (fun hc => List.noConfusion hc)]
      rw [← hts]
      rw [show (lc "<invoke name=\"" ++ it.1 ++ lc "\">" ++ bodyC it.2 ++
          lc "</invoke>") ++ '\n' :: joinNl (ts.map fun it =>
            lc "<invoke name=\"" ++ it.1 ++ lc "\">" ++ bodyC it.2 ++
            lc "</invoke>") = (lc "<invoke name=\"" ++ it.1 ++ lc "\">" ++
          bodyC it.2 ++ lc "</invoke>") ++ ('\n' :: joinNl (ts.map fun it =>
            lc "<invoke name=\"" ++ it.1 ++ lc "\">" ++ bodyC it.2 ++
            lc "</invoke>")) from rfl]
      apply ltTagged_blockC h1 h2
      rw [ltTagged_cons, if_neg (by decide), Bool.true_and]
      exact hrest

theorem ltTagged_blockQ {nm : List Char} {kvs : List (List Char × JVal)}
    (h1 : safeKey nm = true)
    (h2 : ∀ p ∈ kvs, safeKey p.1 = true ∧ safeVal p.2 = true)
    {X : List Char}
    (hX : ltTagged [lc "<tool_call>\n<function=", lc "<function=", lc "<parameter=",
      lc "</parameter>", lc "</function>", lc "</tool_call>"] X = true) :
    ltTagged [lc "<tool_call>\n<function=", lc "<function=", lc "<parameter=",
      lc "</parameter>", lc "</function>", lc "</tool_call>"]
      ((lc "<tool_call>" ++ '\n' :: lc "<function=" ++ nm ++ '>' :: bodyQ kvs ++
        lc "</function>" ++ '\n' :: lc "</tool_call>") ++ X) = true := by
  rw [show (lc "<tool_call>" ++ '\n' :: lc "<function=" ++ nm ++ '>' :: bodyQ kvs ++
      lc "</function>" ++ '\n' :: lc "</tool_call>") ++ X =
      (('<' :: (lc "tool_call>" ++ ['\n'])) ++ '<' :: lc "function=") ++ (nm ++ ('>' ::
      (bodyQ kvs ++ (('<' :: lc "/function>") ++ ('\n' ::
      (('<' :: lc "/tool_call>") ++ X)))))) from by
    simp only [List.append_assoc]
    rw [show lc "<tool_call>" = '<' :: lc "tool_call>" from rfl,
      show lc "<function=" = '<' :: lc "function=" from rfl,
      show lc "</function>" = '<' :: lc "/function>" from rfl,
      show lc "</tool_call>" = '<' :: lc "/tool_call>" from rfl]
    all_goals simp [List.cons_append, List.append_assoc]]
  apply ltTagged_tag2_append (a := lc "tool_call>" ++ ['\n']) (b := lc "function=")
    (List.mem_cons_self _ _)
    (List.mem_cons_of_mem _ (List.mem_cons_self _ _)) (by rfl) (by rfl)
  apply ltTagged_append (ltTagged_of_ltFree (safeKey_ltFree h1))
  rw [ltTagged_cons, if_neg (by decide), Bool.true_and]
  apply ltTagged_append (ltTagged_mono
    (by intro x hx
        rcases List.mem_cons.mp hx with rfl | hx'
        · exact List.mem_cons_of_mem _ (List.mem_cons_of_mem _
            (List.mem_cons_self _ _))
        · rcases List.mem_cons.mp hx' with rfl | hx''
          · exact List.mem_cons_of_mem _ (List.mem_cons_of_mem _
              (List.mem_cons_of_mem _ (List.mem_cons_self _ _)))
          · exact absurd hx'' (List.not_mem_nil _))
    (ltTagged_bodyQ h2))
  apply ltTagged_tag_append
    (List.mem_cons_of_mem _ (List.mem_cons_of_mem _ (List.mem_cons_of_mem _
      (List.mem_cons_of_mem _ (List.mem_cons_self _ _))))) (by rfl)
  rw [ltTagged_cons, if_neg (by decide), Bool.true_and]
  apply ltTagged_tag_append
    (List.mem_cons_of_mem _ (List.mem_cons_of_mem _ (List.mem_cons_of_mem _
      (List.mem_cons_of_mem _ (List.mem_cons_of_mem _ (List.mem_cons_self _ _))))))
    (by rfl)
  exact hX

theorem ltTagged_textQ : ∀ (items : List (List Char × List (List Char × JVal))),
    (∀ it ∈ items, safeKey it.1 = true ∧
      ∀ p ∈ it.2, safeKey p.1 = true ∧ safeVal p.2 = true) →
    ltTagged [lc "<tool_call>\n<function=", lc "<function=", lc "<parameter=",
      lc "</parameter>", lc "</function>", lc "</tool_call>"]
      (joinNl (items.map fun it =>
        lc "<tool_call>" ++ '\n' :: lc "<function=" ++ it.1 ++ '>' :: bodyQ it.2 ++
          lc "</function>" ++ '\n' :: lc "</tool_call>")) = true := by
  intro items
  induction items with
  | nil => intro _; rfl
  | cons it ts ih =>
    intro h
    have h1 := (h it (List.mem_cons_self _ _)).1
    have h2 := (h it (List.mem_cons_self _ _)).2
    have hrest := ih (fun q hq => h q (List.mem_cons_of_mem _ hq))
    rw [List.map_cons]
    cases hts : ts.map (fun it =>
        lc "<tool_call>" ++ '\n' :: lc "<function=" ++ it.1 ++ '>' :: bodyQ it.2 ++
          lc "</function>" ++ '\n' :: lc "</tool_call>") with
    | nil =>
      rw [show joinNl [lc "<tool_call>" ++ '\n' :: lc "<function=" ++ it.1 ++ '>' ::
          bodyQ it.2 ++ lc "</function>" ++ '\n' :: lc "</tool_call>"] =
          (lc "<tool_call>" ++ '\n' :: lc "<function=" ++ it.1 ++ '>' :: bodyQ it.2 ++
          lc "</function>" ++ '\n' :: lc "</tool_call>") ++ [] from by simp [joinNl]]
      exact ltTagged_blockQ h1 h2 (by rfl)
    | cons b bs =>
      rw [joinNl_cons_of_ne _ _ (fun hc => List.noConfusion hc)]
      rw [← hts]
      rw [show (lc "<tool_call>" ++ '\n' :: lc "<function=" ++ it.1 ++ '>' ::
          bodyQ it.2 ++ lc "</function>" ++ '\n' :: lc "</tool_call>") ++
          '\n' :: joinNl (ts.map fun it =>
            lc "<tool_call>" ++ '\n' :: lc "<function=" ++ it.1 ++ '>' :: bodyQ it.2 ++
              lc "</function>" ++ '\n' :: lc "</tool_call>") =
          (lc "<tool_call>" ++ '\n' :: lc "<function=" ++ it.1 ++ '>' :: bodyQ it.2 ++
          lc "</function>" ++ '\n' :: lc "</tool_call>") ++
          ('\n' :: joinNl (ts.map fun it =>
            lc "<tool_call>" ++ '\n' :: lc "<function=" ++ it.1 ++ '>' :: bodyQ it.2 ++
              lc "</function>" ++ '\n' :: lc "</tool_call>")) from rfl]
      apply ltTagged_blockQ h1 h2
      rw [ltTagged_cons, if_neg (by decide), Bool.true_and]
      exact hrest

theorem matchEmbedded_ttc2 (x : List Char) :
    matchEmbedded (lc "<tool_call>\n<function=" ++ x) = none := by
  rw [show (lc "<tool_call>\n<function=" ++ x : List Char) =
    (lc "<tool_call>" ++ '\n' :: lc "<function=") ++ x from rfl]
  exact matchEmbedded_ttc x

theorem findToolCallJson_textC
    (items : List (List Char × List (List Char × JVal)))
    (h : ∀ it ∈ items, safeKey it.1 = true ∧
      ∀ p ∈ it.2, safeKey p.1 = true ∧ safeVal p.2 = true) :
    findToolCallJson (joinNl (items.map fun it =>
      lc "<invoke name=\"" ++ it.1 ++ lc "\">" ++ bodyC it.2 ++ lc "</invoke>")) = [] := by
  refine scan_none_of_tagged rfl (fun c u hc => matchEmbedded_head_ne hc) ?_
    (ltTagged_textC items h)
  intro tag htag x
  rcases List.mem_cons.mp htag with rfl | h'
  · exact matchEmbedded_of_dropLit (dropLit_none_of_conflicts (by rfl) ⟨x, rfl⟩)
  rcases List.mem_cons.mp h' with rfl | h''
  · exact matchEmbedded_of_dropLit (dropLit_none_of_conflicts (by rfl) ⟨x, rfl⟩)
  rcases List.mem_cons.mp h'' with rfl | h3
  · exact matchEmbedded_of_dropLit (dropLit_none_of_conflicts (by rfl) ⟨x, rfl⟩)
  rcases List.mem_cons.mp h3 with rfl | h4
  · exact matchEmbedded_of_dropLit (dropLit_none_of_conflicts (by rfl) ⟨x, rfl⟩)
  exact absurd h4 (List.not_mem_nil _)

theorem findQwenCalls_textC
    (items : List (List Char × List (List Char × JVal)))
    (h : ∀ it ∈ items, safeKey it.1 = true ∧
      ∀ p ∈ it.2, safeKey p.1 = true ∧ safeVal p.2 = true) :
    findQwenCalls (joinNl (items.map fun it =>
      lc "<invoke name=\"" ++ it.1 ++ lc "\">" ++ bodyC it.2 ++ lc "</invoke>")) = [] := by
  refine scan_none_of_tagged rfl (fun c u hc => matchQwenCall_head_ne hc) ?_
    (ltTagged_textC items h)
  intro tag htag x
  rcases List.mem_cons.mp htag with rfl | h'
  · exact matchQwenCall_of_dropLit (dropLit_none_of_conflicts (by rfl) ⟨x, rfl⟩)
  rcases List.mem_cons.mp h' with rfl | h''
  · exact matchQwenCall_of_dropLit (dropLit_none_of_conflicts (by rfl) ⟨x, rfl⟩)
  rcases List.mem_cons.mp h'' with rfl | h3
  · exact matchQwenCall_of_dropLit (dropLit_none_of_conflicts (by rfl) ⟨x, rfl⟩)
  rcases List.mem_cons.mp h3 with rfl | h4
  · exact matchQwenCall_of_dropLit (dropLit_none_of_conflicts (by rfl) ⟨x, rfl⟩)
  exact absurd h4 (List.not_mem_nil _)

theorem findToolCallJson_textQ
    (items : List (List Char × List (List Char × JVal)))
    (h : ∀ it ∈ items, safeKey it.1 = true ∧
      ∀ p ∈ it.2, safeKey p.1 = true ∧ safeVal p.2 = true) :
    findToolCallJson (joinNl (items.map fun it =>
      lc "<tool_call>" ++ '\n' :: lc "<function=" ++ it.1 ++ '>' :: bodyQ it.2 ++
        lc "</function>" ++ '\n' :: lc "</tool_call>")) = [] := by
  refine scan_none_of_tagged rfl (fun c u hc => matchEmbedded_head_ne hc) ?_
    (ltTagged_textQ items h)
  intro tag htag x
  rcases List.mem_cons.mp htag with rfl | h'
  · exact matchEmbedded_ttc2 x
  rcases List.mem_cons.mp h' with rfl | h''
  · exact matchEmbedded_of_dropLit (dropLit_none_of_conflicts (by rfl) ⟨x, rfl⟩)
  rcases List.mem_cons.mp h'' with rfl | h3
  · exact matchEmbedded_of_dropLit (dropLit_none_of_conflicts (by rfl) ⟨x, rfl⟩)
  rcases List.mem_cons.mp h3 with rfl | h4
  · exact matchEmbedded_of_dropLit (dropLit_none_of_conflicts (by rfl) ⟨x, rfl⟩)
  rcases List.mem_cons.mp h4 with rfl | h5
  · exact matchEmbedded_of_dropLit (dropLit_none_of_conflicts (by rfl) ⟨x, rfl⟩)
  rcases List.mem_cons.mp h5 with rfl | h6
  · exact matchEmbedded_of_dropLit (dropLit_none_of_conflicts (by rfl) ⟨x, rfl⟩)
  exact absurd h6 (List.not_mem_nil _)

theorem safeVal_str_noparse {t : List Char} (h : safeVal (.s t) = true) :
    ∃ e, loads t = .error e := by
  simp only [safeVal, Bool.and_eq_true] at h
  have h2 := h.2.1
  cases hl : loads t with
  | error e => exact ⟨e, rfl⟩
  | ok v =>
    rw [hl] at h2
    exact absurd h2 (by simp)

theorem pyStrip_valStr {v : JVal} (hv : safeVal v = true) :
    pyStrip (valStr v) = valStr v :=
  pyStrip_id (noWsEdge_head (safeVal_noWsEdge hv)) (noWsEdge_last (safeVal_noWsEdge hv))

theorem pyStrip_valStr_wrap {v : JVal} (hv : safeVal v = true) :
    pyStrip ('\n' :: valStr v ++ ['\n']) = valStr v :=
  pyStrip_nl_wrap (noWsEdge_head (safeVal_noWsEdge hv))
    (noWsEdge_last (safeVal_noWsEdge hv))

theorem coerceParam_safe {v : JVal} (hv : safeVal v = true) (hwf : jwf v = true)
    {raw : List Char} (hstrip : pyStrip raw = valStr v)
    (ps : List (List Char × JVal)) (k : List Char) :
    coerceParam ps k raw = objInsert ps k v := by
  unfold coerceParam
  rw [hstrip]
  cases v with
  | s t =>
    obtain ⟨e, he⟩ := safeVal_str_noparse hv
    rw [show valStr (.s t) = t from rfl, he]
  | null => rw [show valStr .null = dumps .null from rfl, loads_dumps hwf]
  | b bb => rw [show valStr (.b bb) = dumps (.b bb) from rfl, loads_dumps hwf]
  | i n => rw [show valStr (.i n) = dumps (.i n) from rfl, loads_dumps hwf]
  | arr l => rw [show valStr (.arr l) = dumps (.arr l) from rfl, loads_dumps hwf]
  | obj kvs => rw [show valStr (.obj kvs) = dumps (.obj kvs) from rfl, loads_dumps hwf]

theorem foldl_coerce_map {g : JVal → List Char} :
    ∀ (kvs : List (List Char × JVal)) (acc : List (List Char × JVal)),
    (∀ p ∈ kvs, safeVal p.2 = true ∧ jwf p.2 = true ∧ pyStrip (g p.2) = valStr p.2) →
    (kvs.map fun p => (p.1, g p.2)).foldl (fun ps q => coerceParam ps q.1 q.2) acc =
      kvs.foldl (fun ps q => objInsert ps q.1 q.2) acc := by
  intro kvs
  induction kvs with
  | nil => intro acc _; rfl
  | cons p t ih =>
    intro acc h
    obtain ⟨hs, hw, hg⟩ := h p (List.mem_cons_self _ _)
    rw [List.map_cons, List.foldl_cons, List.foldl_cons]
    rw [coerceParam_safe hs hw hg]
    exact ih _ (fun q hq => h q (List.mem_cons_of_mem _ hq))

theorem foldl_objInsert_id : ∀ (kvs acc : List (List Char × JVal)),
    keysFresh (acc ++ kvs) = true →
    kvs.foldl (fun ps q => objInsert ps q.1 q.2) acc = acc ++ kvs := by
  intro kvs
  induction kvs with
  | nil => intro acc _; rw [List.append_nil]; rfl
  | cons p t ih =>
    intro acc h
    obtain ⟨k, v⟩ := p
    rw [List.foldl_cons]
    rw [show objInsert acc k v = acc ++ [(k, v)] from
      objInsert_append (keysFresh_split h)]
    rw [ih (acc ++ [(k, v)]) (by
      rw [List.append_assoc]
      simpa using h)]
    simp

theorem jwf_obj_dest {kvs : List (List Char × JVal)} (h : jwf (.obj kvs) = true) :
    keysFresh kvs = true ∧ ∀ p ∈ kvs, jwf (Prod.snd p) = true := by
  simp only [jwf, Bool.and_eq_true] at h
  exact ⟨h.1, jwfObj_iff.mp h.2⟩

theorem paramBlock_safe_claude {nm : List Char} {kvs : List (List Char × JVal)}
    (hwf : jwf (.obj kvs) = true)
    (hkvs : ∀ p ∈ kvs, safeKey p.1 = true ∧ safeVal p.2 = true) :
    paramBlock nm (kvs.map fun p => (p.1, valStr p.2)) =
      .ok ⟨⟨.s nm, .s (dumps (.obj kvs))⟩⟩ := by
  rw [paramBlock_ok]
  rw [show ((kvs.map fun p => (p.1, valStr p.2)).foldl
      (fun ps p => coerceParam ps p.1 p.2) []) =
    kvs.foldl (fun ps q => objInsert ps q.1 q.2) [] from
    foldl_coerce_map kvs [] (fun p hp => ⟨(hkvs p hp).2,
      (jwf_obj_dest hwf).2 p hp, pyStrip_valStr (hkvs p hp).2⟩)]
  rw [foldl_objInsert_id kvs [] (by simpa using (jwf_obj_dest hwf).1)]
  rfl

theorem paramBlock_safe_qwen {nm : List Char} {kvs : List (List Char × JVal)}
    (hwf : jwf (.obj kvs) = true)
    (hkvs : ∀ p ∈ kvs, safeKey p.1 = true ∧ safeVal p.2 = true) :
    paramBlock nm (kvs.map fun p => (p.1, '\n' :: valStr p.2 ++ ['\n'])) =
      .ok ⟨⟨.s nm, .s (dumps (.obj kvs))⟩⟩ := by
  rw [paramBlock_ok]
  rw [show ((kvs.map fun p => (p.1, '\n' :: valStr p.2 ++ ['\n'])).foldl
      (fun ps p => coerceParam ps p.1 p.2) []) =
    kvs.foldl (fun ps q => objInsert ps q.1 q.2) [] from
    foldl_coerce_map (g := fun v => '\n' :: valStr v ++ ['\n']) kvs []
      (fun p hp => ⟨(hkvs p hp).2,
        (jwf_obj_dest hwf).2 p hp, pyStrip_valStr_wrap (hkvs p hp).2⟩)]
  rw [foldl_objInsert_id kvs [] (by simpa using (jwf_obj_dest hwf).1)]
  rfl

theorem filterMapM_loop_forall₂ {f : α → Except PyErr (Option β)} :
    ∀ {l : List α} {r : List β},
      List.Forall₂ (fun x b => f x = .ok (some b)) l r →
      ∀ acc, List.filterMapM.loop f l acc = .ok (acc.reverse ++ r) := by
  intro l
  induction l with
  | nil =>
    intro r h acc
    cases h
    simp only [List.filterMapM.loop]
    rw [List.append_nil]
    rfl
  | cons a t ih =>
    intro r h acc
    cases h with
    | cons hab hrest =>
      rename_i b rt
      simp only [List.filterMapM.loop]
      rw [hab, ebind_ok]
      dsimp only
      rw [ih hrest (b :: acc)]
      simp

theorem filterMapM_forall₂ {f : α → Except PyErr (Option β)} {l : List α}
    {r : List β} (h : List.Forall₂ (fun x b => f x = .ok (some b)) l r) :
    l.filterMapM f = .ok r := by
  rw [show l.filterMapM f = List.filterMapM.loop f l [] from rfl,
    filterMapM_loop_forall₂ h []]
  rfl

theorem safeRecord_dest {tc : ToolCall} (h : safeRecord tc = true) :
    ∃ nm targ kvs, tc.function.name = .s nm ∧ tc.function.arguments = .s targ ∧
      loads targ = .ok (.obj kvs) ∧ safeKey nm = true ∧
      (∀ p ∈ kvs, safeKey p.1 = true ∧ safeVal p.2 = true) := by
  obtain ⟨⟨name, args⟩⟩ := tc
  unfold safeRecord at h
  cases name with
  | s nm =>
    cases args with
    | s targ =>
      dsimp only at h
      cases hl : loads targ with
      | error e =>
        rw [hl] at h
        exact absurd h (by simp)
      | ok v =>
        rw [hl] at h
        cases v with
        | obj kvs =>
          rw [Bool.and_eq_true] at h
          refine ⟨nm, targ, kvs, rfl, rfl, hl, h.1, ?_⟩
          intro p hp
          have := List.all_eq_true.mp h.2 p hp
          rw [Bool.and_eq_true] at this
          exact this
        | null => exact absurd h (by simp)
        | b bb => exact absurd h (by simp)
        | i n => exact absurd h (by simp)
        | s t => exact absurd h (by simp)
        | arr l => exact absurd h (by simp)
    | null => exact absurd h (by simp [safeRecord])
    | b bb => exact absurd h (by simp [safeRecord])
    | i n => exact absurd h (by simp [safeRecord])
    | arr l => exact absurd h (by simp [safeRecord])
    | obj kvs => exact absurd h (by simp [safeRecord])
  | null => exact absurd h (by simp [safeRecord])
  | b bb => exact absurd h (by simp [safeRecord])
  | i n => exact absurd h (by simp [safeRecord])
  | arr l => exact absurd h (by simp [safeRecord])
  | obj kvs => exact absurd h (by simp [safeRecord])

theorem render_items : ∀ (R : List ToolCall),
    (∀ tc ∈ R, safeRecord tc = true) →
    ∃ items : List (List Char × List (List Char × JVal)),
      List.Forall₂ (fun tc it => tc.function.name = .s it.1 ∧
        ∃ targ, tc.function.arguments = .s targ ∧
          loads targ = .ok (.obj it.2)) R items ∧
      (∀ it ∈ items, safeKey it.1 = true ∧
        ∀ p ∈ it.2, safeKey p.1 = true ∧ safeVal p.2 = true) := by
  intro R
  induction R with
  | nil => intro _; exact ⟨[], .nil, fun it hit => absurd hit (List.not_mem_nil _)⟩
  | cons tc R' ih =>
    intro h
    obtain ⟨items', hfa, hsafe⟩ := ih (fun x hx => h x (List.mem_cons_of_mem _ hx))
    obtain ⟨nm, targ, kvs, hname, harg, hload, hknm, hkkvs⟩ :=
      safeRecord_dest (h tc (List.mem_cons_self _ _))
    refine ⟨(nm, kvs) :: items', .cons ⟨hname, targ, harg, hload⟩ hfa, ?_⟩
    intro it hit
    rcases List.mem_cons.mp hit with rfl | hit'
    · exact ⟨hknm, hkkvs⟩
    · exact hsafe it hit'

theorem filterMapM_render {fmt : List Char} {R : List ToolCall}
    {items : List (List Char × List (List Char × JVal))}
    (hfa : List.Forall₂ (fun tc it => tc.function.name = .s it.1 ∧
      ∃ targ, tc.function.arguments = .s targ ∧
        loads targ = .ok (.obj it.2)) R items) :
    R.filterMapM (renderOne fmt) =
      .ok (items.map fun it => renderBlock fmt (.s it.1) it.2) := by
  apply filterMapM_forall₂
  rw [List.forall₂_map_right_iff]
  refine hfa.imp ?_
  intro tc it hS
  obtain ⟨hname, targ, harg, hload⟩ := hS
  rw [renderOne_renders harg hload, hname]

theorem mapM_map_ok {f : γ → α} {g : α → Except PyErr β} {e : γ → β} :
    ∀ (l : List γ), (∀ x ∈ l, g (f x) = .ok (e x)) →
      (l.map f).mapM g = .ok (l.map e) := by
  intro l
  induction l with
  | nil => intro _; rfl
  | cons a t ih =>
    intro hp
    rw [List.map_cons, List.mapM_cons, hp a (List.mem_cons_self _ _), ebind_ok,
      ih (fun x hx => hp x (List.mem_cons_of_mem _ hx))]
    rfl

theorem from_xml_textC {items : List (List Char × List (List Char × JVal))}
    (hsafe : ∀ it ∈ items, safeKey it.1 = true ∧
      ∀ p ∈ it.2, safeKey p.1 = true ∧ safeVal p.2 = true)
    (hwf : ∀ it ∈ items, jwf (.obj it.2) = true) :
    from_xml (joinNl (items.map fun it =>
      lc "<invoke name=\"" ++ it.1 ++ lc "\">" ++ bodyC it.2 ++ lc "</invoke>")) =
      .ok (items.map fun it => ⟨⟨.s it.1, .s (dumps (.obj it.2))⟩⟩) := by
  unfold from_xml
  rw [findToolCallJson_textC items hsafe]
  rw [if_neg (by decide)]
  dsimp only
  rw [findQwenCalls_textC items hsafe]
  rw [if_neg (by decide)]
  rw [show findInvokes (joinNl (items.map fun it =>
      lc "<invoke name=\"" ++ it.1 ++ lc "\">" ++ bodyC it.2 ++ lc "</invoke>")) =
    items.map (fun it => (it.1, bodyC it.2)) from findInvokes_text items hsafe]
  exact mapM_map_ok items (fun it hit => by
    show paramBlock it.1 (findParams (bodyC it.2)) = _
    rw [findParams_bodyC it.2 (fun p hp => (hsafe it hit).2 p hp)]
    exact paramBlock_safe_claude (hwf it hit) (fun p hp => (hsafe it hit).2 p hp))

theorem from_xml_textQ {items : List (List Char × List (List Char × JVal))}
    (hsafe : ∀ it ∈ items, safeKey it.1 = true ∧
      ∀ p ∈ it.2, safeKey p.1 = true ∧ safeVal p.2 = true)
    (hwf : ∀ it ∈ items, jwf (.obj it.2) = true) :
    from_xml (joinNl (items.map fun it =>
      lc "<tool_call>" ++ '\n' :: lc "<function=" ++ it.1 ++ '>' :: bodyQ it.2 ++
        lc "</function>" ++ '\n' :: lc "</tool_call>")) =
      .ok (items.map fun it => ⟨⟨.s it.1, .s (dumps (.obj it.2))⟩⟩) := by
  cases items with
  | nil => rfl
  | cons it0 ts =>
    unfold from_xml
    rw [findToolCallJson_textQ (it0 :: ts) hsafe]
    rw [if_neg (by decide)]
    dsimp only
    rw [show findQwenCalls (joinNl ((it0 :: ts).map fun it =>
        lc "<tool_call>" ++ '\n' :: lc "<function=" ++ it.1 ++ '>' :: bodyQ it.2 ++
          lc "</function>" ++ '\n' :: lc "</tool_call>")) =
      (it0 :: ts).map (fun it => (it.1, bodyQ it.2)) from
      findQwenCalls_text (it0 :: ts) hsafe]
    rw [if_pos (by rfl)]
    exact mapM_map_ok (it0 :: ts) (fun it hit => by
      show paramBlock it.1 (findQwenParams (bodyQ it.2)) = _
      rw [findQwenParams_bodyQ it.2 (fun p hp => (hsafe it hit).2 p hp)]
      exact paramBlock_safe_qwen (hwf it hit) (fun p hp => (hsafe it hit).2 p hp))

/-- Claim C2, counterexample: a canonical record whose arguments object maps
"a" to the string "1" does not round trip through the claude XML dialect —
the re-decoded arguments map "a" to the number 1, because parameter values
are rendered bare and re-decoding coerces them through a JSON parse. -/
theorem C2_counterexample :
    to_xml [⟨⟨.s (lc "f"), .s (lc "\x7b\"a\": \"1\"\x7d")⟩⟩] (lc "claude") =
      .ok (lc "<invoke name=\"f\">\n<parameter name=\"a\">1</parameter>\n</invoke>") ∧
    from_xml (lc "<invoke name=\"f\">\n<parameter name=\"a\">1</parameter>\n</invoke>") =
      .ok [⟨⟨.s (lc "f"), .s (lc "\x7b\"a\": 1\x7d")⟩⟩] ∧
    loads (lc "\x7b\"a\": \"1\"\x7d") = .ok (.obj [(lc "a", .s (lc "1"))]) ∧
    loads (lc "\x7b\"a\": 1\x7d") = .ok (.obj [(lc "a", .i 1)]) ∧
    (JVal.s (lc "1") ≠ .i 1) :=
  ⟨rfl, rfl, rfl, rfl, fun hc => JVal.noConfusion hc⟩

/-- Claim C2 (corrected): for a sequence of safe canonical records — string
name and keys free of the tag delimiters, arguments a JSON object whose
string values neither parse as JSON nor carry surrounding whitespace, and no
value rendering containing the tag-opening character — encoding with to_xml
and decoding with from_xml reproduces every record: same names, in order,
and the re-decoded arguments text parses to exactly the original arguments
object.  This holds for the qwen dialect selector and for every other
selector (which renders the claude convention).  Without the safety
restriction the round trip fails: string parameter values are re-decoded
through a JSON parse that can change their type. -/
theorem C2_xml_round_trip (R : List ToolCall) (fmt : List Char)
    (hR : ∀ tc ∈ R, safeRecord tc = true) :
    ∃ s out, to_xml R fmt = .ok s ∧ from_xml s = .ok out ∧
      out.length = R.length ∧
      List.Forall₂ (fun tc tc' => ∃ nm targ kvs,
        tc.function.name = .s nm ∧ tc.function.arguments = .s targ ∧
        loads targ = .ok (.obj kvs) ∧
        tc' = ⟨⟨.s nm, .s (dumps (.obj kvs))⟩⟩ ∧
        loads (dumps (.obj kvs)) = .ok (.obj kvs)) R out := by
  obtain ⟨items, hfa, hsafe⟩ := render_items R hR
  have hwf : ∀ it ∈ items, jwf (.obj it.2) = true := by
    intro it hit
    obtain ⟨tc, htc, hS⟩ := forall₂_mem_right hfa hit
    obtain ⟨-, targ, -, hload⟩ := hS
    exact loads_wf hload
  have hlen2 := hfa.length_eq
  have hto : to_xml R fmt =
      .ok (joinNl (items.map fun it => renderBlock fmt (.s it.1) it.2)) := by
    cases R with
    | nil => cases hfa; rfl
    | cons tc R' =>
      unfold to_xml
      rw [if_neg (fun hc => Bool.noConfusion hc)]
      rw [filterMapM_render hfa, ebind_ok]
      rfl
  have hrel : List.Forall₂ (fun tc tc' => ∃ nm targ kvs,
      tc.function.name = .s nm ∧ tc.function.arguments = .s targ ∧
      loads targ = .ok (.obj kvs) ∧
      tc' = ⟨⟨.s nm, .s (dumps (.obj kvs))⟩⟩ ∧
      loads (dumps (.obj kvs)) = .ok (.obj kvs)) R
      (items.map fun it => (⟨⟨.s it.1, .s (dumps (.obj it.2))⟩⟩ : ToolCall)) := by
    rw [List.forall₂_map_right_iff]
    refine hfa.imp ?_
    intro tc it hS
    obtain ⟨hname, targ, harg, hload⟩ := hS
    exact ⟨it.1, targ, it.2, hname, harg, hload, rfl, loads_dumps (loads_wf hload)⟩
  have hlen3 : (items.map fun it =>
      (⟨⟨.s it.1, .s (dumps (.obj it.2))⟩⟩ : ToolCall)).length = R.length := by
    rw [List.length_map]
    exact hlen2.symm
  by_cases hq : fmt = lc "qwen"
  · subst hq
    refine ⟨_, _, hto, ?_, hlen3, hrel⟩
    rw [List.map_congr_left (fun it _ => renderBlock_qwen_shape it.1 it.2)]
    exact from_xml_textQ hsafe hwf
  · refine ⟨_, _, hto, ?_, hlen3, hrel⟩
    rw [List.map_congr_left (fun it _ => renderBlock_claude_shape hq it.1 it.2)]
    exact from_xml_textC hsafe hwf

/-- Claim C2, witness: a concrete safe record — arguments `("a": true,
"b": "hi")` — round trips through the claude dialect. -/
theorem C2_witness :
    ∃ s out, to_xml [⟨⟨.s (lc "f"), .s (lc "\x7b\"a\": true, \"b\": \"hi\"\x7d")⟩⟩]
        (lc "claude") = .ok s ∧
      from_xml s = .ok out ∧
      out.length = ([⟨⟨.s (lc "f"),
        .s (lc "\x7b\"a\": true, \"b\": \"hi\"\x7d")⟩⟩] : List ToolCall).length ∧
      List.Forall₂ (fun (tc tc' : ToolCall) => ∃ nm targ kvs,
        tc.function.name = .s nm ∧ tc.function.arguments = .s targ ∧
        loads targ = .ok (.obj kvs) ∧
        tc' = ⟨⟨.s nm, .s (dumps (.obj kvs))⟩⟩ ∧
        loads (dumps (.obj kvs)) = .ok (.obj kvs))
        ([⟨⟨.s (lc "f"), .s (lc "\x7b\"a\": true, \"b\": \"hi\"\x7d")⟩⟩] :
          List ToolCall) out :=
  C2_xml_round_trip
    [⟨⟨.s (lc "f"), .s (lc "\x7b\"a\": true, \"b\": \"hi\"\x7d")⟩⟩]
    (lc "claude") (by
      intro tc htc
      rw [List.mem_singleton] at htc
      subst htc
      rfl)

end TabbyTools
